import Mathlib

/-!
# Alvalor network library: codec, address book and node

A shallow embedding of `src/network/codec.go`, `src/book.go` and
`src/network/node.go` and the properties of the codec, of the address book and
of the node that hold of them.
-/

namespace Alvalor

/-- A Go `string` or `[]byte`: a sequence of bytes. -/
abbrev Bytes := List UInt8

deriving instance DecidableEq for Except

/-! ## Messages and codec (`src/network/codec.go`) -/

/-- Modelled from the spec: the message type `Ping`, declared outside `src/`;
`node.go` builds it as `Ping{Nonce: rand.Uint32()}`. -/
structure Ping where
  Nonce : UInt32
deriving DecidableEq, Repr

/-- Modelled from the spec: the message type `Pong`, declared outside `src/`;
`node.go` builds it as `Pong{Nonce: ping.Nonce}`. -/
structure Pong where
  Nonce : UInt32
deriving DecidableEq, Repr

/-- Modelled from the spec: the message type `Discover`, declared outside
`src/`; it has no field. -/
structure Discover where
deriving DecidableEq, Repr

/-- Modelled from the spec: the message type `Peers`, declared outside `src/`;
`node.go` builds it as `Peers{Addresses: addrs}` from a `[]string`. -/
structure Peers where
  Addresses : List Bytes
deriving DecidableEq, Repr

/-- A value of type `interface{}` as `Encode` receives it and `Decode` returns
it: a (non-nil) pointer to one of the four message structs, a `string`, a
(non-nil) `[]byte`, or a value of some other dynamic type, of which only the
type name is kept. -/
inductive Value where
  | ping (p : Ping)
  | pong (p : Pong)
  | discover (d : Discover)
  | peers (p : Peers)
  | string (s : Bytes)
  | bytes (b : Bytes)
  | other (typeName : String)
deriving DecidableEq, Repr

/-- The constant `MsgPing`, the first of the enumeration of type bytes. -/
def MsgPing : UInt8 := 0

/-- The constant `MsgPong`. -/
def MsgPong : UInt8 := 1

/-- The constant `MsgDiscover`. -/
def MsgDiscover : UInt8 := 2

/-- The constant `MsgPeers`. -/
def MsgPeers : UInt8 := 3

/-- The constant `MsgString`. -/
def MsgString : UInt8 := 4

/-- The constant `MsgBytes`. -/
def MsgBytes : UInt8 := 5

/-- The errors that `Encode` and `Decode` return, one for each `return` that
carries an error. -/
inductive CodecError where
  | unknownType
  | writeCode
  | writeData
  | readCode
  | invalidCode
  | decodeData
deriving DecidableEq, Repr

/-- The package `encoding/json` as the codec uses it: `Encode` is
`json.NewEncoder(w).Encode(i)` and gives the bytes it writes, and each `Decode`
field is `json.NewDecoder(r).Decode(&x)` for a variable `x` of that type, run on
the bytes that follow the type byte. `none` stands for a returned error. -/
structure JSON where
  Encode : Value → Option Bytes
  DecodePing : Bytes → Option Ping
  DecodePong : Bytes → Option Pong
  DecodeDiscover : Bytes → Option Discover
  DecodePeers : Bytes → Option Peers
  DecodeString : Bytes → Option Bytes
  DecodeBytes : Bytes → Option Bytes

/-- The JSON layer reproduces the value `v`: it encodes `v`, and decoding that
text into a variable of the type of `v` gives `v` again. -/
def JSON.reproduces (J : JSON) (v : Value) : Bool :=
  match J.Encode v with
  | none => false
  | some data =>
    match v with
    | Value.ping p => J.DecodePing data == some p
    | Value.pong p => J.DecodePong data == some p
    | Value.discover d => J.DecodeDiscover data == some d
    | Value.peers p => J.DecodePeers data == some p
    | Value.string x => J.DecodeString data == some x
    | Value.bytes b => J.DecodeBytes data == some b
    | Value.other _ => false

/-- The type switch of `SimpleCodec.Encode`: the type byte, `none` in the
`default` case. -/
def typeCode : Value → Option UInt8
  | Value.ping _ => some MsgPing
  | Value.pong _ => some MsgPong
  | Value.discover _ => some MsgDiscover
  | Value.peers _ => some MsgPeers
  | Value.string _ => some MsgString
  | Value.bytes _ => some MsgBytes
  | Value.other _ => none

/-- The method `SimpleCodec.Encode`. The sink `w` is an in-memory buffer, whose
`Write` appends and never fails; the result is the sink after the call and the
returned error (`none` for `nil`). -/
def SimpleCodec.Encode (J : JSON) (w : Bytes) (i : Value) : Bytes × Option CodecError :=
  match typeCode i with
  | none => (w, some CodecError.unknownType)
  | some code =>
    let w1 := w ++ [code]
    match J.Encode i with
    | none => (w1, some CodecError.writeData)
    | some data => (w1 ++ data, none)

/-- The method `SimpleCodec.Decode` on the bytes of the source `r`. -/
def SimpleCodec.Decode (J : JSON) (r : Bytes) : Except CodecError Value :=
  match r with
  | [] => Except.error CodecError.readCode
  | code :: rest =>
    let wrap {α : Type} (res : Option α) (f : α → Value) : Except CodecError Value :=
      match res with
      | none => Except.error CodecError.decodeData
      | some x => Except.ok (f x)
    if code = MsgPing then wrap (J.DecodePing rest) Value.ping
    else if code = MsgPong then wrap (J.DecodePong rest) Value.pong
    else if code = MsgDiscover then wrap (J.DecodeDiscover rest) Value.discover
    else if code = MsgPeers then wrap (J.DecodePeers rest) Value.peers
    else if code = MsgString then wrap (J.DecodeString rest) Value.string
    else if code = MsgBytes then wrap (J.DecodeBytes rest) Value.bytes
    else Except.error CodecError.invalidCode


/-! ## A model of `encoding/json` for the six message types -/

/-- The bytes of an ASCII text. -/
def ascii (s : String) : Bytes :=
  s.toList.map (fun c => UInt8.ofNat c.toNat)

/-- The test `lo <= b <= hi` that `utf8.DecodeRune` applies to a continuation
byte. -/
def inRange (lo hi : Nat) (b : UInt8) : Bool :=
  decide (lo ≤ b.toNat ∧ b.toNat ≤ hi)

/-- The function `utf8.DecodeRune`: the rune at the head of the bytes and its
width; `(0xFFFD, 1)` for an encoding that is not valid and `(0xFFFD, 0)` for no
bytes. -/
def decodeRune : Bytes → Nat × Nat
  | [] => (0xFFFD, 0)
  | b0 :: rest =>
    let x := b0.toNat
    if x < 0x80 then (x, 1)
    else if 0xC2 ≤ x ∧ x ≤ 0xDF then
      match rest with
      | b1 :: _ =>
        if inRange 0x80 0xBF b1 then ((x - 0xC0) * 64 + (b1.toNat - 0x80), 2) else (0xFFFD, 1)
      | _ => (0xFFFD, 1)
    else if 0xE0 ≤ x ∧ x ≤ 0xEF then
      match rest with
      | b1 :: b2 :: _ =>
        if inRange (if x = 0xE0 then 0xA0 else 0x80) (if x = 0xED then 0x9F else 0xBF) b1
            ∧ inRange 0x80 0xBF b2 then
          ((x - 0xE0) * 4096 + (b1.toNat - 0x80) * 64 + (b2.toNat - 0x80), 3)
        else (0xFFFD, 1)
      | _ => (0xFFFD, 1)
    else if 0xF0 ≤ x ∧ x ≤ 0xF4 then
      match rest with
      | b1 :: b2 :: b3 :: _ =>
        if inRange (if x = 0xF0 then 0x90 else 0x80) (if x = 0xF4 then 0x8F else 0xBF) b1
            ∧ inRange 0x80 0xBF b2 ∧ inRange 0x80 0xBF b3 then
          ((x - 0xF0) * 262144 + (b1.toNat - 0x80) * 4096 + (b2.toNat - 0x80) * 64
            + (b3.toNat - 0x80), 4)
        else (0xFFFD, 1)
      | _ => (0xFFFD, 1)
    else (0xFFFD, 1)

/-- The function `utf8.EncodeRune`. -/
def encodeRune (r : Nat) : Bytes :=
  if r < 0x80 then [UInt8.ofNat r]
  else if r < 0x800 then [UInt8.ofNat (0xC0 + r / 64), UInt8.ofNat (0x80 + r % 64)]
  else if 0x10FFFF < r ∨ (0xD800 ≤ r ∧ r ≤ 0xDFFF) then [0xEF, 0xBF, 0xBD]
  else if r < 0x10000 then
    [UInt8.ofNat (0xE0 + r / 4096), UInt8.ofNat (0x80 + r / 64 % 64), UInt8.ofNat (0x80 + r % 64)]
  else
    [UInt8.ofNat (0xF0 + r / 262144), UInt8.ofNat (0x80 + r / 4096 % 64),
      UInt8.ofNat (0x80 + r / 64 % 64), UInt8.ofNat (0x80 + r % 64)]

/-- The loop of `utf8.Valid`: no rune of the bytes decodes to the error of
width 1. -/
def validLoop : Nat → Bytes → Bool
  | 0, s => s.isEmpty
  | _ + 1, [] => true
  | fuel + 1, b :: rest =>
    let (c, size) := decodeRune (b :: rest)
    !(c == 0xFFFD && size == 1) && validLoop fuel (rest.drop (size - 1))

/-- The function `utf8.Valid`. -/
def utf8Valid (s : Bytes) : Bool :=
  validLoop s.length s

/-- The digit of the table `hex = "0123456789abcdef"`. -/
def hexDigit (n : Nat) : UInt8 :=
  if n < 10 then UInt8.ofNat (48 + n) else UInt8.ofNat (87 + n)

/-- The escape that `encodeState.string` (with `escapeHTML`, the default of an
`Encoder`) writes for a byte below `0x80`. -/
def escapeByte (b : UInt8) : Bytes :=
  if b = 0x5C ∨ b = 0x22 then [0x5C, b]
  else if b = 0x0A then ascii "\\n"
  else if b = 0x0D then ascii "\\r"
  else if b = 0x09 then ascii "\\t"
  else if b.toNat < 0x20 ∨ b = 0x3C ∨ b = 0x3E ∨ b = 0x26 then
    ascii "\\u00" ++ [hexDigit (b.toNat / 16), hexDigit (b.toNat % 16)]
  else [b]

/-- The loop of `encodeState.string` over the bytes of the string. -/
def quoteLoop : Nat → Bytes → Bytes
  | 0, _ => []
  | _ + 1, [] => []
  | fuel + 1, b :: rest =>
    if b.toNat < 0x80 then escapeByte b ++ quoteLoop fuel rest
    else
      let (c, size) := decodeRune (b :: rest)
      if c = 0xFFFD ∧ size = 1 then ascii "\\ufffd" ++ quoteLoop fuel rest
      else if c = 0x2028 ∨ c = 0x2029 then
        ascii "\\u202" ++ [hexDigit (c % 16)] ++ quoteLoop fuel (rest.drop (size - 1))
      else (b :: rest).take size ++ quoteLoop fuel (rest.drop (size - 1))

/-- The JSON text of a Go string: `encodeState.string`. -/
def quote (s : Bytes) : Bytes :=
  [0x22] ++ quoteLoop s.length s ++ [0x22]

/-- The decimal digits of a number, most significant first. -/
def digitsLoop : Nat → Nat → Bytes → Bytes
  | 0, _, acc => acc
  | fuel + 1, n, acc =>
    if n < 10 then UInt8.ofNat (48 + n) :: acc
    else digitsLoop fuel (n / 10) (UInt8.ofNat (48 + n % 10) :: acc)

/-- The function `strconv.AppendUint(_, n, 10)`. -/
def formatUint (n : Nat) : Bytes :=
  digitsLoop (n + 1) n []

/-- The alphabet of `base64.StdEncoding`. -/
def base64Char (n : Nat) : UInt8 :=
  if n < 26 then UInt8.ofNat (65 + n)
  else if n < 52 then UInt8.ofNat (71 + n)
  else if n < 62 then UInt8.ofNat (n - 4)
  else if n = 62 then 0x2B
  else 0x2F

/-- The method `base64.StdEncoding.Encode`. -/
def base64Encode : Bytes → Bytes
  | [] => []
  | [a] =>
    [base64Char (a.toNat / 4), base64Char (a.toNat % 4 * 16), 0x3D, 0x3D]
  | [a, b] =>
    [base64Char (a.toNat / 4), base64Char (a.toNat % 4 * 16 + b.toNat / 16),
      base64Char (b.toNat % 16 * 4), 0x3D]
  | a :: b :: c :: rest =>
    [base64Char (a.toNat / 4), base64Char (a.toNat % 4 * 16 + b.toNat / 16),
      base64Char (b.toNat % 16 * 4 + c.toNat / 64), base64Char (c.toNat % 64)]
      ++ base64Encode rest

/-- The value of a character of the alphabet of `base64.StdEncoding`. -/
def base64Value (c : UInt8) : Option Nat :=
  let x := c.toNat
  if 65 ≤ x ∧ x ≤ 90 then some (x - 65)
  else if 97 ≤ x ∧ x ≤ 122 then some (x - 71)
  else if 48 ≤ x ∧ x ≤ 57 then some (x + 4)
  else if x = 0x2B then some 62
  else if x = 0x2F then some 63
  else none

/-- The quanta of `base64.StdEncoding.Decode`, on input without `\r` and `\n`:
four characters give three bytes, and the last quantum may end in one or two
padding characters `=`. -/
def base64Quanta : Bytes → Option Bytes
  | [] => some []
  | a :: b :: c :: d :: rest =>
    if d = 0x3D then
      if rest = [] then
        if c = 0x3D then
          match base64Value a, base64Value b with
          | some x, some y => some [UInt8.ofNat (x * 4 + y / 16)]
          | _, _ => none
        else
          match base64Value a, base64Value b, base64Value c with
          | some x, some y, some z =>
            some [UInt8.ofNat (x * 4 + y / 16), UInt8.ofNat (y % 16 * 16 + z / 4)]
          | _, _, _ => none
      else none
    else
      match base64Value a, base64Value b, base64Value c, base64Value d, base64Quanta rest with
      | some x, some y, some z, some u, some out =>
        some (UInt8.ofNat (x * 4 + y / 16) :: UInt8.ofNat (y % 16 * 16 + z / 4)
          :: UInt8.ofNat (z % 4 * 64 + u) :: out)
      | _, _, _, _, _ => none
  | _ => none

/-- The method `base64.StdEncoding.Decode`, which skips `\r` and `\n`. -/
def base64Decode (s : Bytes) : Option Bytes :=
  base64Quanta (s.filter (fun c => c != 0x0D && c != 0x0A))

/-- A JSON text as the scanner of `encoding/json` delimits it. A number keeps
its literal, a string is unquoted. -/
inductive JValue where
  | null
  | bool (b : Bool)
  | number (lit : Bytes)
  | string (s : Bytes)
  | array (items : List JValue)
  | object (members : List (Bytes × JValue))

/-- The function `isSpace` of the scanner. -/
def isSpace (c : UInt8) : Bool :=
  c == 0x20 || c == 0x09 || c == 0x0D || c == 0x0A

/-- The bytes after the leading white space. -/
def skipSpace (s : Bytes) : Bytes :=
  s.dropWhile isSpace

/-- The value of a hexadecimal digit. -/
def hexValue (c : UInt8) : Option Nat :=
  let x := c.toNat
  if 48 ≤ x ∧ x ≤ 57 then some (x - 48)
  else if 97 ≤ x ∧ x ≤ 102 then some (x - 87)
  else if 65 ≤ x ∧ x ≤ 70 then some (x - 55)
  else none

/-- The function `getu4` on the four digits that follow `\u`. -/
def hex4 : Bytes → Option (Nat × Bytes)
  | a :: b :: c :: d :: rest =>
    match hexValue a, hexValue b, hexValue c, hexValue d with
    | some x, some y, some z, some u => some (x * 4096 + y * 256 + z * 16 + u, rest)
    | _, _, _, _ => none
  | _ => none

/-- The character that a one-letter escape stands for. -/
def simpleEscape (c : UInt8) : Option UInt8 :=
  if c = 0x22 ∨ c = 0x5C ∨ c = 0x2F then some c
  else if c = 0x62 then some 0x08
  else if c = 0x66 then some 0x0C
  else if c = 0x6E then some 0x0A
  else if c = 0x72 then some 0x0D
  else if c = 0x74 then some 0x09
  else none

/-- A string literal from behind its opening quote: the unquoted string
(`unquoteBytes`) and the bytes behind the closing quote; `none` for a literal
that the scanner rejects or that does not end. -/
def scanString : Nat → Bytes → Option (Bytes × Bytes)
  | 0, _ => none
  | _ + 1, [] => none
  | fuel + 1, c :: rest =>
    if c = 0x22 then some ([], rest)
    else if c = 0x5C then
      match rest with
      | [] => none
      | e :: rest1 =>
        if e = 0x75 then
          match hex4 rest1 with
          | none => none
          | some (rr, rest2) =>
            if 0xD800 ≤ rr ∧ rr < 0xE000 then
              let pair : Option (Nat × Bytes) :=
                match rest2 with
                | 0x5C :: 0x75 :: more =>
                  match hex4 more with
                  | some (rr1, rest3) =>
                    if rr < 0xDC00 ∧ 0xDC00 ≤ rr1 ∧ rr1 < 0xE000 then
                      some ((rr - 0xD800) * 1024 + (rr1 - 0xDC00) + 0x10000, rest3)
                    else none
                  | none => none
                | _ => none
              match pair with
              | some (dec, rest3) =>
                (scanString fuel rest3).map (fun p => (encodeRune dec ++ p.1, p.2))
              | none =>
                (scanString fuel rest2).map (fun p => (encodeRune 0xFFFD ++ p.1, p.2))
            else (scanString fuel rest2).map (fun p => (encodeRune rr ++ p.1, p.2))
        else
          match simpleEscape e with
          | none => none
          | some x => (scanString fuel rest1).map (fun p => (x :: p.1, p.2))
    else if c.toNat < 0x20 then none
    else if c.toNat < 0x80 then (scanString fuel rest).map (fun p => (c :: p.1, p.2))
    else
      let (rr, size) := decodeRune (c :: rest)
      (scanString fuel (rest.drop (size - 1))).map (fun p => (encodeRune rr ++ p.1, p.2))

/-- The test of a decimal digit. -/
def isDigit (c : UInt8) : Bool :=
  decide (48 ≤ c.toNat ∧ c.toNat ≤ 57)

/-- A non-empty run of digits and the bytes behind it. -/
def scanDigits (s : Bytes) : Option (Bytes × Bytes) :=
  match s.takeWhile isDigit with
  | [] => none
  | ds => some (ds, s.dropWhile isDigit)

/-- The exponent of a number literal, when there is one. -/
def scanExponent (s : Bytes) : Option (Bytes × Bytes) :=
  match s with
  | e :: rest =>
    if e = 0x65 ∨ e = 0x45 then
      match rest with
      | sign :: rest1 =>
        if sign = 0x2B ∨ sign = 0x2D then
          (scanDigits rest1).map (fun p => (e :: sign :: p.1, p.2))
        else (scanDigits rest).map (fun p => (e :: p.1, p.2))
      | [] => none
    else some ([], s)
  | [] => some ([], s)

/-- The fraction of a number literal, when there is one. -/
def scanFraction (s : Bytes) : Option (Bytes × Bytes) :=
  match s with
  | 0x2E :: rest => (scanDigits rest).map (fun p => (0x2E :: p.1, p.2))
  | _ => some ([], s)

/-- A number literal (states `stateNeg`, `state0`, `state1`, ... of the
scanner) and the bytes behind it. -/
def scanNumber (s : Bytes) : Option (Bytes × Bytes) :=
  let (sign, s1) : Bytes × Bytes :=
    match s with
    | 0x2D :: rest => ([0x2D], rest)
    | _ => ([], s)
  let int : Option (Bytes × Bytes) :=
    match s1 with
    | 0x30 :: rest => some ([0x30], rest)
    | _ => scanDigits s1
  match int with
  | none => none
  | some (ds, s2) =>
    match scanFraction s2 with
    | none => none
    | some (fr, s3) =>
      match scanExponent s3 with
      | none => none
      | some (ex, s4) => some (sign ++ ds ++ fr ++ ex, s4)

/-- The literal `word` at the head of the bytes. -/
def scanWord (word : Bytes) (v : JValue) (s : Bytes) : Option (JValue × Bytes) :=
  if s.take word.length = word then some (v, s.drop word.length) else none

mutual
/-- One JSON value at the head of the bytes (state `stateBeginValue`) and the
bytes behind it. -/
def parseValue : Nat → Bytes → Option (JValue × Bytes)
  | 0, _ => none
  | fuel + 1, s =>
    match skipSpace s with
    | [] => none
    | c :: rest =>
      if c = 0x7B then
        match skipSpace rest with
        | 0x7D :: rest1 => some (JValue.object [], rest1)
        | _ => (parseMembers fuel rest).map (fun p => (JValue.object p.1, p.2))
      else if c = 0x5B then
        match skipSpace rest with
        | 0x5D :: rest1 => some (JValue.array [], rest1)
        | _ => (parseItems fuel rest).map (fun p => (JValue.array p.1, p.2))
      else if c = 0x22 then
        (scanString (rest.length + 1) rest).map (fun p => (JValue.string p.1, p.2))
      else if c = 0x2D ∨ isDigit c then
        (scanNumber (c :: rest)).map (fun p => (JValue.number p.1, p.2))
      else if c = 0x74 then scanWord (ascii "true") (JValue.bool true) (c :: rest)
      else if c = 0x66 then scanWord (ascii "false") (JValue.bool false) (c :: rest)
      else if c = 0x6E then scanWord (ascii "null") JValue.null (c :: rest)
      else none
/-- The members of an object from behind `{` or `,` up to and including `}`. -/
def parseMembers : Nat → Bytes → Option (List (Bytes × JValue) × Bytes)
  | 0, _ => none
  | fuel + 1, s =>
    match skipSpace s with
    | 0x22 :: rest =>
      match scanString (rest.length + 1) rest with
      | none => none
      | some (key, rest1) =>
        match skipSpace rest1 with
        | 0x3A :: rest2 =>
          match parseValue fuel rest2 with
          | none => none
          | some (v, rest3) =>
            match skipSpace rest3 with
            | 0x2C :: rest4 =>
              (parseMembers fuel rest4).map (fun p => ((key, v) :: p.1, p.2))
            | 0x7D :: rest4 => some ([(key, v)], rest4)
            | _ => none
        | _ => none
    | _ => none
/-- The elements of an array from behind `[` or `,` up to and including `]`. -/
def parseItems : Nat → Bytes → Option (List JValue × Bytes)
  | 0, _ => none
  | fuel + 1, s =>
    match parseValue fuel s with
    | none => none
    | some (v, rest) =>
      match skipSpace rest with
      | 0x2C :: rest1 => (parseItems fuel rest1).map (fun p => (v :: p.1, p.2))
      | 0x5D :: rest1 => some ([v], rest1)
      | _ => none
end

/-- The value that `Decoder.Decode` reads from the stream: the first JSON value
of the bytes. -/
def readValue (r : Bytes) : Option JValue :=
  (parseValue (r.length + 1) r).map (fun p => p.1)

/-- The function `strconv.ParseUint(lit, 10, 64)` followed by the overflow test
for an unsigned type of `bits` bits: the number, or `none` when the literal
has a sign, a fraction or an exponent or the number does not fit. -/
def parseUint (bits : Nat) (lit : Bytes) : Option Nat :=
  if lit.all isDigit then
    let n := lit.foldl (fun acc c => acc * 10 + (c.toNat - 48)) 0
    if n < 2 ^ bits then some n else none
  else none

/-- Decoding a JSON value into a `uint32` that holds `cur`. -/
def storeUint32 (cur : UInt32) : JValue → Option UInt32
  | JValue.null => some cur
  | JValue.number lit => (parseUint 32 lit).map UInt32.ofNat
  | _ => none

/-- Decoding a JSON value into a `string` that holds `cur`. -/
def storeString (cur : Bytes) : JValue → Option Bytes
  | JValue.null => some cur
  | JValue.string s => some s
  | _ => none

/-- Decoding a JSON value into an element of a `[]byte`. -/
def storeUint8 : JValue → Option UInt8
  | JValue.null => some 0
  | JValue.number lit => (parseUint 8 lit).map UInt8.ofNat
  | _ => none

/-- Decoding the elements of a JSON array one after the other; one error fails
the whole. -/
def storeEach {α : Type} (f : JValue → Option α) : List JValue → Option (List α)
  | [] => some []
  | v :: vs =>
    match f v, storeEach f vs with
    | some x, some xs => some (x :: xs)
    | _, _ => none

/-- Decoding a JSON value into a `[]byte` that holds `cur`: a string is read as
base64, an array element by element. -/
def storeBytes (cur : Bytes) : JValue → Option Bytes
  | JValue.null => some cur
  | JValue.string s => base64Decode s
  | JValue.array items => storeEach storeUint8 items
  | _ => none

/-- Decoding a JSON value into a `[]string` that holds `cur`. -/
def storeStrings (cur : List Bytes) : JValue → Option (List Bytes)
  | JValue.null => some cur
  | JValue.array items => storeEach (storeString []) items
  | _ => none

/-- The function `simpleLetterEqualFold`, the key comparison for a field name
made of letters other than `k` and `s`. -/
def simpleLetterEqualFold (name key : Bytes) : Bool :=
  name.length == key.length &&
    (List.zipWith (fun a b => a.toNat % 32 == b.toNat % 32 && a.toNat / 64 == b.toNat / 64)
      name key).all id

/-- The function `equalFoldRight`, the key comparison for a field name of
letters among which `k` or `s`: the key may write them as U+212A and
U+017F. -/
def equalFoldRight : Nat → Bytes → Bytes → Bool
  | _, [], t => t.isEmpty
  | 0, _ :: _, _ => false
  | _ + 1, _ :: _, [] => false
  | fuel + 1, sb :: s, tb :: t =>
    if tb.toNat < 0x80 then
      (sb == tb || (sb.toNat % 32 == tb.toNat % 32 && sb.toNat / 64 == tb.toNat / 64
        && tb.toNat / 64 == 1 && 1 ≤ tb.toNat % 32 && tb.toNat % 32 ≤ 26))
        && equalFoldRight fuel s t
    else
      let (tr, size) := decodeRune (tb :: t)
      ((sb.toNat % 32 == 19 && tr == 0x17F) || (sb.toNat % 32 == 11 && tr == 0x212A))
        && equalFoldRight fuel s (t.drop (size - 1))

/-- Decoding a JSON value into a `Ping`. -/
def storePing (cur : Ping) : JValue → Option Ping
  | JValue.null => some cur
  | JValue.object members =>
    members.foldlM (fun (p : Ping) (m : Bytes × JValue) =>
      if simpleLetterEqualFold (ascii "Nonce") m.1 then
        (storeUint32 p.Nonce m.2).map (fun n => { Nonce := n })
      else some p) cur
  | _ => none

/-- Decoding a JSON value into a `Pong`. -/
def storePong (cur : Pong) : JValue → Option Pong
  | JValue.null => some cur
  | JValue.object members =>
    members.foldlM (fun (p : Pong) (m : Bytes × JValue) =>
      if simpleLetterEqualFold (ascii "Nonce") m.1 then
        (storeUint32 p.Nonce m.2).map (fun n => { Nonce := n })
      else some p) cur
  | _ => none

/-- Decoding a JSON value into a `Discover`. -/
def storeDiscover (cur : Discover) : JValue → Option Discover
  | JValue.null => some cur
  | JValue.object _ => some cur
  | _ => none

/-- Decoding a JSON value into a `Peers`. -/
def storePeers (cur : Peers) : JValue → Option Peers
  | JValue.null => some cur
  | JValue.object members =>
    members.foldlM (fun (p : Peers) (m : Bytes × JValue) =>
      if equalFoldRight 9 (ascii "Addresses") m.1 then
        (storeStrings p.Addresses m.2).map (fun a => { Addresses := a })
      else some p) cur
  | _ => none

/-- The JSON text of a supported value (`Marshal`); the codec hands no other
value to the encoder. -/
def marshal : Value → Option Bytes
  | Value.ping p => some (ascii "\x7b\"Nonce\":" ++ formatUint p.Nonce.toNat ++ ascii "\x7d")
  | Value.pong p => some (ascii "\x7b\"Nonce\":" ++ formatUint p.Nonce.toNat ++ ascii "\x7d")
  | Value.discover _ => some (ascii "\x7b\x7d")
  | Value.peers p =>
    some (ascii "\x7b\"Addresses\":[" ++ List.intercalate [0x2C] (p.Addresses.map quote) ++ ascii "]\x7d")
  | Value.string s => some (quote s)
  | Value.bytes b => some ([0x22] ++ base64Encode b ++ [0x22])
  | Value.other _ => none

/-- The package `encoding/json` of the Go library, modelled after its
documentation for the six supported types: `Encoder.Encode` writes the JSON
text and a newline, `Decoder.Decode` reads the first JSON value of the stream
into a zero variable of the type. -/
def goJSON : JSON where
  Encode v := (marshal v).map (fun text => text ++ [0x0A])
  DecodePing r := (readValue r).bind (storePing { Nonce := 0 })
  DecodePong r := (readValue r).bind (storePong { Nonce := 0 })
  DecodeDiscover r := (readValue r).bind (storeDiscover {})
  DecodePeers r := (readValue r).bind (storePeers { Addresses := [] })
  DecodeString r := (readValue r).bind (storeString [])
  DecodeBytes r := (readValue r).bind (storeBytes [])


/-- A byte that a JSON string literal holds as it is and that base64 does not
skip. -/
def plainByte (c : UInt8) : Prop :=
  c ≠ 0x0D ∧ c ≠ 0x0A ∧ c ≠ 0x22 ∧ c ≠ 0x5C ∧ 0x20 ≤ c.toNat ∧ c.toNat < 0x80

instance (c : UInt8) : Decidable (plainByte c) := by
  unfold plainByte
  infer_instance

/-- The value is of one of the six supported variants and its strings (a
`string` value, the addresses of a `Peers`) are valid UTF-8. -/
def Value.validUTF8 : Value → Bool
  | Value.ping _ => true
  | Value.pong _ => true
  | Value.discover _ => true
  | Value.peers p => p.Addresses.all utf8Valid
  | Value.string s => utf8Valid s
  | Value.bytes _ => true
  | Value.other _ => false

/-! ## Address book (`src/book.go`) -/

/-- One record of the address book (`type entry struct`). The counters start at
zero and are only ever incremented, hence natural numbers. -/
structure entry where
  addr : String
  active : Bool
  success : Nat
  failure : Nat
deriving DecidableEq, Repr

/-- Rounding of a rational to the nearest integer, a tie going to the even
integer: the rounding of a binary64 significand. -/
def roundHalfEven (m : ℚ) : ℤ :=
  let f := ⌊m⌋
  if m - f < 1 / 2 then f
  else if 1 / 2 < m - f then f + 1
  else if f % 2 = 0 then f else f + 1

/-- The `float64` (IEEE 754 binary64) value of an exact result `q`, as a
rational: with `2 ^ e ≤ |q| < 2 ^ (e + 1)` the significand `q * 2 ^ (52 - e)` is
rounded to the nearest integer, ties to even. It is the rounding of the
conversion `float64(x)` of an `int` and of a division of two `float64`s. The
bounds of the exponent (overflow from 2^1024 on, subnormal numbers below
2^-1022) are left out: the counters of a record are `int`s, below 2^63, so
that every value that `score` computes is 0 or lies between 2^-70 and 2^63. -/
def roundFloat64 (q : ℚ) : ℚ :=
  if q = 0 then 0
  else
    let e := Int.log 2 |q|
    (roundHalfEven (q * 2 ^ (52 - e)) : ℚ) * 2 ^ (e - 52)

/-- The method `entry.score`. A `float64` is given by its exact rational value;
`float64(e.success)`, `float64(e.failure)` and the two divisions are each
rounded by `roundFloat64`, and the constants 0, 1 and 100 are binary64
numbers. -/
def entry.score (e : entry) : ℚ :=
  if e.active then 0
  else if e.failure = 0 then 1
  else
    let score := roundFloat64 (roundFloat64 (e.success : ℚ) / roundFloat64 (e.failure : ℚ))
    max (roundFloat64 (score / 100)) 1

/-- The error variables of `book.go`. -/
inductive BookError where
  | errAddrInvalid
  | errAddrUnknown
  | errBookEmpty
deriving DecidableEq, Repr

/-- The struct `SimpleBook`. The map `entries` is a list of records keyed by
their `addr` (the key under which `NewSimpleBook` and `Add` store a record is
always its own `addr`); the order of the list is the order in which the loop
of `slice` visits the map in the run under consideration. -/
structure SimpleBook where
  entries : List entry
  sampleSize : Nat
deriving DecidableEq, Repr

/-- The variable `DefaultBook`. -/
def DefaultBook : SimpleBook :=
  { entries := [], sampleSize := 10 }

/-- The map read `s.entries[addr]`. -/
def SimpleBook.lookup (s : SimpleBook) (addr : String) : Option entry :=
  s.entries.find? (fun e => e.addr == addr)

/-- The map write `entries[addr] = &entry{addr: addr}` on the list of records:
an existing record under the key is replaced, otherwise a record is added. -/
def storeFresh (addr : String) : List entry → List entry
  | [] => [{ addr := addr, active := false, success := 0, failure := 0 }]
  | e :: es =>
    if e.addr = addr then
      { addr := addr, active := false, success := 0, failure := 0 } :: es
    else e :: storeFresh addr es

/-- The function `NewSimpleBook`; `sampleSize` keeps its zero value. -/
def NewSimpleBook (addrs : List String) : SimpleBook :=
  { entries := addrs.foldl (fun es addr => storeFresh addr es) [], sampleSize := 0 }

/-- The method `SimpleBook.Add`. -/
def SimpleBook.Add (s : SimpleBook) (addr : String) : SimpleBook :=
  { s with entries := storeFresh addr s.entries }

/-- An update through the pointer stored under `addr`: `f` is applied to the
record of that key, every other record is left as it is. -/
def modifyAt (addr : String) (f : entry → entry) (es : List entry) : List entry :=
  es.map (fun e => if e.addr = addr then f e else e)

/-- The method `SimpleBook.Connected`. -/
def SimpleBook.Connected (s : SimpleBook) (addr : String) : SimpleBook :=
  match s.lookup addr with
  | none => s
  | some _ => { s with entries := modifyAt addr (fun e => { e with success := e.success + 1 }) s.entries }

/-- The method `SimpleBook.Disconnected`. -/
def SimpleBook.Disconnected (s : SimpleBook) (addr : String) : SimpleBook :=
  match s.lookup addr with
  | none => s
  | some _ => { s with entries := modifyAt addr (fun e => { e with active := false }) s.entries }

/-- The method `SimpleBook.Dropped`. -/
def SimpleBook.Dropped (s : SimpleBook) (addr : String) : SimpleBook :=
  match s.lookup addr with
  | none => s
  | some _ =>
    { s with entries :=
        modifyAt addr (fun e => { e with active := false, failure := e.failure + 1 }) s.entries }

/-- The method `SimpleBook.Failed`. -/
def SimpleBook.Failed (s : SimpleBook) (addr : String) : SimpleBook :=
  match s.lookup addr with
  | none => s
  | some _ =>
    { s with entries :=
        modifyAt addr (fun e => { e with active := false, failure := e.failure + 1 }) s.entries }

/-- The method `SimpleBook.slice`. -/
def SimpleBook.slice (s : SimpleBook) : List entry :=
  s.entries

/-- The method `byPriority.Less` on two records. -/
def byPriority.Less (a b : entry) : Bool :=
  decide (a.score < b.score)

/-- The inner loop of the insertion sort of package `sort`: the record `x` at
index `j` is swapped with its left neighbour while `Less(j, j-1)` holds. The
records left of `x` are given nearest first. -/
def bubbleDown (x : entry) : List entry → List entry
  | [] => [x]
  | y :: ys => if byPriority.Less x y then y :: bubbleDown x ys else x :: y :: ys

/-- The outer loop of the insertion sort; `done` is the sorted prefix, last
index first. -/
def insertionLoop : List entry → List entry → List entry
  | done, [] => done.reverse
  | done, x :: rest => insertionLoop (bubbleDown x done) rest

/-- The call `sort.Sort(byPriority(entries))`: the slice in ascending order of
`Less`, by the insertion sort that `sort.Sort` comes down to on a slice of at
most six elements. -/
def sortByPriority (entries : List entry) : List entry :=
  insertionLoop [] entries

/-- The method `SimpleBook.Get`: the returned pair and the book after the
call. -/
def SimpleBook.Get (s : SimpleBook) : Except BookError String × SimpleBook :=
  let entries := s.slice
  if entries.length = 0 then (Except.error BookError.errBookEmpty, s)
  else
    match sortByPriority entries with
    | [] => (Except.error BookError.errBookEmpty, s)
    | e :: _ =>
      (Except.ok e.addr,
        { s with entries := modifyAt e.addr (fun x => { x with active := true }) s.entries })

/-- A run-time panic of the Go runtime. -/
inductive Panic where
  | indexOutOfRange
  | divideByZero
deriving DecidableEq, Repr

/-- How a call of `Sample` ends: it returns a slice of addresses, returns an
error, stops with a run-time panic, or is still inside its selection loop when
the given random draws are used up. -/
inductive Outcome where
  | returned (addrs : List String)
  | failed (err : BookError)
  | panicked (p : Panic)
  | looping
deriving DecidableEq, Repr

/-- The statement `entries[last], entries[i] = entries[i], entries[last]`. -/
def swapAt (arr : List entry) (last i : Nat) : List entry :=
  match arr.get? i, arr.get? last with
  | some a, some b => (arr.set last a).set i b
  | _, _ => arr

/-- The first loop of `Sample`, `for i, entry := range entries`, from index `i`
on, with `todo` iterations left. `arr` is the backing array that the ranged
slice and the variable `entries` share and `len` the current length of
`entries`. The result is `none` when an index expression is out of range. -/
def filterLoop : Nat → Nat → List entry → Nat → Option (List entry × Nat)
  | 0, _, arr, len => some (arr, len)
  | todo + 1, i, arr, len =>
    match arr.get? i with
    | none => some (arr, len)
    | some e =>
      if e.score = 0 then
        if len = 0 ∨ len ≤ i then none
        else filterLoop todo (i + 1) (swapAt arr (len - 1) i) (len - 1)
      else filterLoop todo (i + 1) arr len

/-- The set insertion `selected[entry.addr] = struct{}{}`; the list keeps the
keys of the map. -/
def insertKey (addr : String) (selected : List String) : List String :=
  if addr ∈ selected then selected else selected ++ [addr]

/-- The selection loop `for { ... }` of `Sample`. Every iteration uses one draw
`(rand.Int(), rand.Float64())`. -/
def selectLoop (entries : List entry) (sampleSize : Nat) :
    List String → List (Nat × ℚ) → Outcome
  | _, [] => Outcome.looping
  | selected, (n, x) :: draws =>
    if entries.length = 0 then Outcome.panicked Panic.divideByZero
    else
      match entries.get? (n % entries.length) with
      | none => Outcome.panicked Panic.indexOutOfRange
      | some e =>
        let selected' := if e.score > x then insertKey e.addr selected else selected
        if selected'.length = sampleSize then
          Outcome.returned (List.replicate sampleSize "" ++ selected')
        else selectLoop entries sampleSize selected' draws

/-- The method `SimpleBook.Sample`, run on the given random draws. The order in
which a `range` visits a map is not fixed from one loop to the next: the list
`s.entries` is the order of the loop in `slice`, and `first` (taken modulo the
number of records) is the position of the record that the loop
`for addr := range s.entries` visits first. The map `selected` is returned in
the order of insertion. -/
def SimpleBook.Sample (s : SimpleBook) (first : Nat) (draws : List (Nat × ℚ)) : Outcome :=
  let all := s.slice
  match filterLoop all.length 0 all all.length with
  | none => Outcome.panicked Panic.indexOutOfRange
  | some (arr, len) =>
    let entries := arr.take len
    if entries.length ≤ s.sampleSize then
      match s.entries.get? (first % s.entries.length) with
      | some e => Outcome.returned [e.addr]
      | none => selectLoop entries s.sampleSize [] draws
    else selectLoop entries s.sampleSize [] draws

/-! ## Node (`src/network/node.go`) -/

/-- A value of type `interface{}` as it travels through the node: a pointer to
one of the four message structs (of a `Peers` its `Addresses`), an `int`, a
`time.Time`, or a value of some other dynamic type, of which only the type name
is kept. -/
inductive Dynamic where
  | ping (p : Ping)
  | pong (p : Pong)
  | discover (d : Discover)
  | peers (addresses : List String)
  | int (i : Nat)
  | time
  | other (typeName : String)
deriving DecidableEq, Repr

/-- Modelled from the spec: the peer handle `peer`, declared outside `src/`.
`node.go` reads its `addr` and `nonce` and sends on its channel `outgoing`,
which `init` makes with capacity 16; the list holds the pending messages. -/
structure peer where
  addr : String
  nonce : Bytes
  outgoing : List Dynamic
deriving DecidableEq, Repr

/-- Modelled from the spec: the events `Connected` and `Disconnected` and the
struct `Message`, declared outside `src/`, as the subscriber receives them. -/
inductive Event where
  | Connected (address : String)
  | Disconnected (address : String)
  | Message (address : String) (value : Dynamic)
deriving DecidableEq, Repr

/-- The errors that `Send` and `Broadcast` return. -/
inductive NodeError where
  | peerNotFound
  | peerStalling
deriving DecidableEq, Repr

/-- The capacity of the channel `outgoing` (`make(chan interface{}, 16)`). -/
def outgoingCap : Nat := 16

/-- The struct `Node`, with the parts of its surroundings that its methods act
on. `peers` is the registry, a map from address to peer handle, as the list of
its handles in the order of `slice`; `book` is the address book, and
`blacklist` the addresses handed to `book.Blacklist`, which `book.go` does not
have; `subscriber` holds the events that wait in the subscriber channel, of
capacity `subscriberCap`; `closedConns` are the remote addresses of the
connections that `drop` closed and `closedPeers` the handles that `disconnect`
closed. -/
structure Node where
  nonce : Bytes
  network : Bytes
  book : SimpleBook
  blacklist : List String
  subscriber : List Event
  subscriberCap : Nat
  server : Bool
  address : String
  minPeers : Nat
  maxPeers : Nat
  count : Int
  peers : List peer
  closedConns : List String
  closedPeers : List peer
deriving DecidableEq, Repr

/-- Modelled from the spec: the method `registry.has`. -/
def registry.has (peers : List peer) (addr : String) : Bool :=
  peers.any (fun p => p.addr == addr)

/-- Modelled from the spec: the method `registry.get`. -/
def registry.get (peers : List peer) (addr : String) : Option peer :=
  peers.find? (fun p => p.addr == addr)

/-- Modelled from the spec: the method `registry.count`. -/
def registry.count (peers : List peer) : Nat :=
  peers.length

/-- Modelled from the spec: the method `registry.slice`, a snapshot of all
handles. -/
def registry.slice (peers : List peer) : List peer :=
  peers

/-- Modelled from the spec: the method `registry.add`, the map write
`peers[addr] = p`. -/
def registry.add (addr : String) (p : peer) : List peer → List peer
  | [] => [p]
  | q :: qs => if q.addr = addr then p :: qs else q :: registry.add addr p qs

/-- Modelled from the spec: the method `registry.remove`, the map delete. -/
def registry.remove (peers : List peer) (addr : String) : List peer :=
  peers.filter (fun p => p.addr != addr)

/-- A send on the channel `outgoing` of the handle registered under `addr`. -/
def registry.enqueue (peers : List peer) (addr : String) (msg : Dynamic) : List peer :=
  peers.map (fun p => if p.addr = addr then { p with outgoing := p.outgoing ++ [msg] } else p)

/-- Modelled from the spec: the method `Blacklist` of the book, which `book.go`
does not have; the address is recorded. -/
def Node.Blacklist (node : Node) (addr : String) : Node :=
  { node with blacklist := addr :: node.blacklist }

/-- The method `Node.onConnecting`. -/
def Node.onConnecting (node : Node) : Node :=
  { node with count := node.count + 1 }

/-- The method `Node.event`: a send on the subscriber channel that does not
block; the event is dropped when the channel is full. -/
def Node.event (node : Node) (e : Event) : Node :=
  if node.subscriber.length < node.subscriberCap then
    { node with subscriber := node.subscriber ++ [e] }
  else node

/-- The method `Node.disconnect`. -/
def Node.disconnect (node : Node) (p : peer) : Node :=
  let node1 := { node with peers := registry.remove node.peers p.addr }
  let node2 := { node1 with closedPeers := p :: node1.closedPeers }
  let node3 := { node2 with book := node2.book.Dropped p.addr }
  let node4 := { node3 with count := node3.count - 1 }
  node4.event (Event.Disconnected p.addr)

/-- The method `Node.drop`, on a connection with the given remote address. -/
def Node.drop (node : Node) (addr : String) : Node :=
  let node1 := { node with count := node.count - 1 }
  let node2 := { node1 with closedConns := addr :: node1.closedConns }
  let node3 := { node2 with book := node2.book.Dropped addr }
  node3.Blacklist addr

/-- The method `Node.Send`: the returned error (`none` for `nil`) and the node
after the call. -/
def Node.Send (node : Node) (addr : String) (msg : Dynamic) : Option NodeError × Node :=
  if ¬ registry.has node.peers addr then (some NodeError.peerNotFound, node)
  else
    match registry.get node.peers addr with
    | none => (some NodeError.peerNotFound, node)
    | some p =>
      if p.outgoing.length < outgoingCap then
        (none, { node with peers := registry.enqueue node.peers addr msg })
      else
        let node1 := { node with book := node.book.Failed addr }
        (some NodeError.peerStalling, node1.disconnect p)

/-- The loop of `Node.Broadcast` over the snapshot of the registry. -/
def Node.broadcastLoop (msg : Dynamic) : List peer → Node → Option NodeError × Node
  | [], node => (none, node)
  | q :: qs, node =>
    match registry.get node.peers q.addr with
    | none => Node.broadcastLoop msg qs node
    | some p =>
      if p.outgoing.length < outgoingCap then
        Node.broadcastLoop msg qs { node with peers := registry.enqueue node.peers p.addr msg }
      else
        let node1 := { node with book := node.book.Failed p.addr }
        (some NodeError.peerStalling, node1.disconnect p)

/-- The method `Node.Broadcast`. -/
def Node.Broadcast (node : Node) (msg : Dynamic) : Option NodeError × Node :=
  Node.broadcastLoop msg (registry.slice node.peers) node

/-- The method `Node.Peers`. -/
def Node.Peers (node : Node) : List String :=
  (registry.slice node.peers).map (fun p => p.addr)

/-- The method `Node.share`. -/
def Node.share (node : Node) (addr : String) (addrs : List String) : Option NodeError × Node :=
  node.Send addr (Dynamic.peers addrs)

/-- The method `Node.known`. -/
def Node.known (node : Node) (nonce : Bytes) : Bool :=
  (registry.slice node.peers).any (fun p => nonce == p.nonce)

/-- The callback `acceptConnection` that `NewNode` installs. -/
def Node.acceptConnection (node : Node) (nonce : Bytes) : Bool :=
  decide (registry.count node.peers > node.maxPeers) && !node.known nonce

/-- The method `Node.onConnected`. -/
def Node.onConnected (node : Node) (p : peer) : Node :=
  let node1 := { node with peers := registry.add p.addr p node.peers }
  let node2 := { node1 with book := node1.book.Connected p.addr }
  let node3 := if node2.server then (node2.share p.addr [node2.address]).2 else node2
  node3.event (Event.Connected p.addr)

/-- The method `Node.init`, on a connection with the given remote address. -/
def Node.init (node : Node) (addr : String) (nonce : Bytes) : Node :=
  let p : peer := { addr := addr, nonce := nonce, outgoing := [] }
  let node1 := { node with peers := registry.add addr p node.peers }
  let node2 := { node1 with book := node1.book.Connected addr }
  let node3 := if node2.server then (node2.share addr [node2.address]).2 else node2
  node3.event (Event.Connected p.addr)

/-- The method `Node.handshake`, on a connection with the given remote address.
`written` tells whether `conn.Write(syn)` succeeds and `ack` is the buffer after
`conn.Read(ack)`, `none` when the read fails. -/
def Node.handshake (node : Node) (addr : String) (written : Bool) (ack : Option Bytes) : Node :=
  let node1 := { node with count := node.count + 1 }
  if ¬ written then node1.drop addr
  else
    match ack with
    | none => node1.drop addr
    | some ack =>
      let code := ack.take node1.network.length
      let nonce := ack.drop node1.network.length
      if code ≠ node1.network ∨ nonce = node1.nonce ∨ node1.known nonce = true then
        node1.drop addr
      else node1.init addr nonce

/-- The method `Node.ping`, with the result of `rand.Uint32()`. -/
def Node.ping (node : Node) (p : peer) (rnd : UInt32) : Node :=
  (node.Send p.addr (Dynamic.ping { Nonce := rnd })).2

/-- The method `Node.processPing`. -/
def Node.processPing (node : Node) (address : String) (ping : Ping) : Node :=
  (node.Send address (Dynamic.pong { Nonce := ping.Nonce })).2

/-- The method `Node.processDiscover`. The method `Sample(10, Any(),
RandomSort())` of the book is not in `src/`; `sample` is what it returns. -/
def Node.processDiscover (node : Node) (address : String)
    (sample : Except BookError (List String)) : Node :=
  match sample with
  | Except.error _ => node
  | Except.ok addrs => (node.share address addrs).2

/-- The method `Node.processPeers`. -/
def Node.processPeers (node : Node) (addresses : List String) : Node :=
  addresses.foldl (fun (n : Node) addr =>
    let n1 := { n with book := n.book.Add addr }
    if registry.has n1.peers addr then { n1 with book := n1.book.Connected addr } else n1) node

/-- The method `Node.process` on the message `Message{Address, Value}`. -/
def Node.process (node : Node) (address : String) (value : Dynamic)
    (sample : Except BookError (List String)) : Node :=
  match value with
  | Dynamic.ping p => node.processPing address p
  | Dynamic.pong _ => node
  | Dynamic.discover _ => node.processDiscover address sample
  | Dynamic.peers addresses => node.processPeers addresses
  | _ => node.event (Event.Message address value)

/-- A case of the `reflect.Select` of `manage`: the channel `incoming` or the
heartbeat timer `hb.C` of a peer handle. -/
inductive SelectCase where
  | incoming (p : peer)
  | heartbeat (p : peer)
deriving DecidableEq, Repr

/-- The two loops of `Node.manage` that build the slices `peers` and `cases`
from the snapshot of the registry. The first ranges over the snapshot and
appends to `peers` and to `cases`, the second ranges over `peers` as the first
has left it. -/
def Node.manageCases (snapshot : List peer) : List peer × List SelectCase :=
  let first := snapshot.foldl
    (fun (acc : List peer × List SelectCase) p =>
      (acc.1 ++ [p], acc.2 ++ [SelectCase.incoming p])) (snapshot, [])
  (first.1, first.1.foldl (fun cases p => cases ++ [SelectCase.heartbeat p]) first.2)

/-- The body of the inner loop of `Node.manage` once `reflect.Select` has
returned `i, val, ok`, with the slice `peers` of the loop; `none` stands for an
index out of range. `rnd` is the result of `rand.Uint32()` and `sample` that of
the book's `Sample`. -/
def Node.manageSelected (node : Node) (peers : List peer) (i : Nat) (val : Dynamic) (ok : Bool)
    (rnd : UInt32) (sample : Except BookError (List String)) : Except Panic Node :=
  if ¬ ok then
    match peers.get? i with
    | none => Except.error Panic.indexOutOfRange
    | some p => Except.ok (node.disconnect p)
  else if val = Dynamic.time then
    if peers.length = 0 then Except.error Panic.divideByZero
    else
      match peers.get? (i % peers.length) with
      | none => Except.error Panic.indexOutOfRange
      | some p => Except.ok (node.ping p rnd)
  else
    match peers.get? i with
    | none => Except.error Panic.indexOutOfRange
    | some p => Except.ok (node.process p.addr (Dynamic.int i) sample)

/-- The method `Node.discover`; `tick` tells whether the ticker `discovery` has
a tick ready. -/
def Node.discover (node : Node) (tick : Bool) : Node :=
  if ¬ tick then node else (node.Broadcast (Dynamic.discover {})).2

/-- The method `Node.add`. The method `Sample(1, IsActive(false),
ByPrioritySort())` of the book is not in `src/`; `sample` is what it returns.
A dialed connection is handed to `handshake` on a goroutine of its own. -/
def Node.add (node : Node) (sample : Except BookError (List String)) (tick : Bool) :
    Except Panic Node :=
  match sample with
  | Except.error _ => Except.ok (node.discover tick)
  | Except.ok [] => Except.error Panic.indexOutOfRange
  | Except.ok (_ :: _) => Except.ok node

/-- The method `Node.remove`, with the result of `rand.Int()`. -/
def Node.remove (node : Node) (rnd : Nat) : Except Panic Node :=
  if registry.count node.peers = 0 then Except.error Panic.divideByZero
  else
    match (registry.slice node.peers).get? (rnd % registry.count node.peers) with
    | none => Except.ok node
    | some p => Except.ok (node.disconnect p)

/-- The conversion `uint(x)` of an `int32`. -/
def toUint (x : Int) : Nat :=
  if 0 ≤ x then x.toNat else (2 ^ 64 + x).toNat

/-- One round of the loop of `Node.check`. -/
def Node.check (node : Node) (sample : Except BookError (List String)) (tick : Bool)
    (rnd : Nat) : Except Panic Node :=
  let count := toUint node.count
  let added := if count < node.minPeers then node.add sample tick else Except.ok node
  match added with
  | Except.error p => Except.error p
  | Except.ok node1 => if count > node.maxPeers then node1.remove rnd else Except.ok node1

/-- The node that `NewNode` returns: no peer, counter 0, its own address on the
blacklist. -/
def NewNode (nonce network : Bytes) (book : SimpleBook) (subscriberCap : Nat) (server : Bool)
    (address : String) (minPeers maxPeers : Nat) : Node :=
  Node.Blacklist
    { nonce := nonce, network := network, book := book, blacklist := [], subscriber := [],
      subscriberCap := subscriberCap, server := server, address := address,
      minPeers := minPeers, maxPeers := maxPeers, count := 0, peers := [], closedConns := [],
      closedPeers := [] } address

/-! ## Books used as concrete inputs -/

/-- The book of the address `a` after `Get` and `Connected`: `a` is active with
one success. -/
def bookConnectedA : SimpleBook :=
  ((NewSimpleBook ["a"]).Get.2).Connected "a"

/-- A book with sample size 10 that holds an active `a` with two successes and
one failure. -/
def bookActiveA : SimpleBook :=
  { entries := [{ addr := "a", active := true, success := 2, failure := 1 }], sampleSize := 10 }

/-- A book with sample size 10 that holds an idle `a` with one failure and an
active `b` with four successes. -/
def bookIdleAActiveB : SimpleBook :=
  { entries := [{ addr := "a", active := false, success := 0, failure := 1 },
      { addr := "b", active := true, success := 4, failure := 0 }],
    sampleSize := 10 }

/-- The default book after `Add` of `a` and of `b`: sample size 10, two
candidates. -/
def bookTwoIdle : SimpleBook :=
  (DefaultBook.Add "a").Add "b"

/-- A book with sample size 1 and the two candidates `a` and `b`. -/
def bookSampleOne : SimpleBook :=
  { entries := [{ addr := "a", active := false, success := 0, failure := 0 },
      { addr := "b", active := false, success := 0, failure := 0 }],
    sampleSize := 1 }

/-- The default book after `Add` of `a` and a `Get`, which selects `a`: its only
record is active. -/
def bookOnlyActive : SimpleBook :=
  (DefaultBook.Add "a").Get.2

/-- A book with sample size 10 in which `slice` visits the candidate `b` before
the active `a`. -/
def bookIdleBActiveA : SimpleBook :=
  { entries := [{ addr := "b", active := false, success := 0, failure := 0 },
      { addr := "a", active := true, success := 1, failure := 0 }],
    sampleSize := 10 }

/-- The book of the addresses `a` and `b` after one `Get`, which selects `a`:
`a` is active, `b` is a candidate. -/
def bookAfterGet : SimpleBook :=
  (NewSimpleBook ["a", "b"]).Get.2

/-- A book of two candidates: `a` without history (score 1) and `b` with 1000
successes and one failure (score 10). -/
def bookBetterB : SimpleBook :=
  { entries := [{ addr := "a", active := false, success := 0, failure := 0 },
      { addr := "b", active := false, success := 1000, failure := 1 }],
    sampleSize := 10 }

/-- A book with sample size 10 whose two records are both active. -/
def bookBothActive : SimpleBook :=
  { entries := [{ addr := "a", active := true, success := 0, failure := 0 },
      { addr := "b", active := true, success := 0, failure := 0 }],
    sampleSize := 10 }

/-! ## Nodes used as concrete inputs -/

/-- A node in server mode as `NewNode` returns it: nonce `01 01`, magic `AA`,
the empty default book, room for 8 events, at most 2 peers. -/
def nodeServer : Node :=
  NewNode [1, 1] [0xAA] DefaultBook 8 true "me:1" 1 2

/-- A node that is no server as `NewNode` returns it: nonce `01 01`, magic `AA`,
the empty default book, room for 8 events, at most 1 peer. -/
def nodeClient : Node :=
  NewNode [1, 1] [0xAA] DefaultBook 8 false "me:1" 1 1

/-- The node `nodeClient` after outbound handshakes with `a:1` and `b:1` have
succeeded. -/
def nodeTwoPeers : Node :=
  (nodeClient.handshake "a:1" true (some [0xAA, 2, 2])).handshake "b:1" true (some [0xAA, 3, 3])

/-- The node after `times` calls of `Send(addr, msg)`. -/
def sendTimes (node : Node) (addr : String) (msg : Dynamic) : Nat → Node
  | 0 => node
  | times + 1 => ((sendTimes node addr msg times).Send addr msg).2

/-- The node `nodeClient` after an inbound connection from `b:1` has been
reported by `onConnecting` and `onConnected` and 16 messages have been sent to
it: the queue of `b:1` is full, and the book has no entry for `b:1`. -/
def nodeInboundFull : Node :=
  sendTimes (nodeClient.onConnecting.onConnected { addr := "b:1", nonce := [2, 2], outgoing := [] })
    "b:1" (Dynamic.pong { Nonce := 0 }) 16

/-- A node with room for one event after an outbound handshake with `a:1` has
succeeded: the event `Connected` fills the subscriber channel. -/
def nodeSubscriberFull : Node :=
  (NewNode [1, 1] [0xAA] DefaultBook 1 false "me:1" 1 2).handshake "a:1" true (some [0xAA, 2, 2])

/-- A node whose book knows `a:1`, after an outbound handshake with `a:1` has
succeeded and 16 messages have been sent to it: the queue of `a:1` is full. -/
def nodeOutboundFull : Node :=
  sendTimes
    ((NewNode [1, 1] [0xAA] (NewSimpleBook ["a:1"]) 8 false "me:1" 1 2).handshake "a:1" true
      (some [0xAA, 2, 2]))
    "a:1" (Dynamic.pong { Nonce := 0 }) 16

/-- The node `nodeClient` after an outbound handshake with `a:1` has
succeeded. -/
def nodeOnePeer : Node :=
  nodeClient.handshake "a:1" true (some [0xAA, 2, 2])

/-- The node `nodeTwoPeers` after 17 calls of `Send` to `a:1`: the first 16
fill the queue of `a:1` and the last one finds it full and disconnects
`a:1`. -/
def nodeStalled : Node :=
  ((sendTimes nodeTwoPeers "a:1" (Dynamic.pong { Nonce := 0 }) 16).Send "a:1"
    (Dynamic.pong { Nonce := 0 })).2

/-- The node `nodeClient` (at most 1 peer) while two handshakes are in flight:
`onConnecting` has run twice and no peer is registered. -/
def nodeTwoAttempts : Node :=
  nodeClient.onConnecting.onConnecting

/-! ## Lemmas: the JSON model reproduces its own texts -/

theorem ofNat_toNat_byte (b : UInt8) : UInt8.ofNat b.toNat = b := by
  cases b
  simp [UInt8.ofNat, UInt8.toNat]

theorem toNat_lt_byte (b : UInt8) : b.toNat < 256 :=
  b.toBitVec.isLt

theorem inRange_iff (lo hi : Nat) (b : UInt8) :
    inRange lo hi b = true ↔ lo ≤ b.toNat ∧ b.toNat ≤ hi := by
  simp [inRange]

theorem ofNat_eq_of_toNat (n : Nat) (b : UInt8) (h : n = b.toNat) : UInt8.ofNat n = b := by
  rw [h, ofNat_toNat_byte]

/-- What `decodeRune` gives on a lead byte from `0x80` on: an error of width 1,
or a rune from `0x80` on of width `k + 1` that `encodeRune` writes back as the
same bytes and that depends on these bytes only. -/
theorem decodeRune_multibyte (b : UInt8) (rest : Bytes) (hb : 0x80 ≤ b.toNat) :
    decodeRune (b :: rest) = (0xFFFD, 1)
      ∨ ∃ k, 1 ≤ k ∧ k ≤ rest.length
        ∧ (decodeRune (b :: rest)).2 = k + 1
        ∧ encodeRune (decodeRune (b :: rest)).1 = b :: rest.take k
        ∧ ∀ Y, decodeRune (b :: (rest.take k ++ Y)) = decodeRune (b :: rest) := by
  have hlt := toNat_lt_byte b
  unfold decodeRune
  simp only []
  rw [if_neg (by omega)]
  by_cases h2 : 0xC2 ≤ b.toNat ∧ b.toNat ≤ 0xDF
  · rw [if_pos h2]
    cases rest with
    | nil => left; rfl
    | cons b1 r =>
      by_cases h3 : inRange 0x80 0xBF b1 = true
      · right
        have h3' := (inRange_iff _ _ _).1 h3
        refine ⟨1, le_rfl, by simp, ?_, ?_, ?_⟩
        · simp [h3]
        · simp only [h3, if_true, encodeRune]
          rw [if_neg (by omega), if_pos (by omega)]
          simp only [List.take, List.cons.injEq, and_true]
          exact ⟨ofNat_eq_of_toNat _ _ (by omega), ofNat_eq_of_toNat _ _ (by omega)⟩
        · intro Y
          simp [h3, h2, decodeRune]
          omega
      · left
        simp [h3]
  · rw [if_neg h2]
    by_cases h4 : 0xE0 ≤ b.toNat ∧ b.toNat ≤ 0xEF
    · rw [if_pos h4]
      match rest with
      | [] => left; rfl
      | [_] => left; rfl
      | b1 :: b2 :: r =>
        by_cases h5 : inRange (if b.toNat = 0xE0 then 0xA0 else 0x80)
            (if b.toNat = 0xED then 0x9F else 0xBF) b1 = true ∧ inRange 0x80 0xBF b2 = true
        · right
          have h5a := (inRange_iff _ _ _).1 h5.1
          have h5b := (inRange_iff _ _ _).1 h5.2
          refine ⟨2, by norm_num, by simp, ?_, ?_, ?_⟩
          · simp [h5]
          · simp only [h5, and_self, if_true, encodeRune]
            split_ifs at h5a <;>
            · rw [if_neg (by omega), if_neg (by omega), if_neg (by omega), if_pos (by omega)]
              simp only [List.take, List.cons.injEq, and_true]
              exact ⟨ofNat_eq_of_toNat _ _ (by omega), ofNat_eq_of_toNat _ _ (by omega),
                ofNat_eq_of_toNat _ _ (by omega)⟩
          · intro Y
            simp [h5, h4, h2, decodeRune]
            omega
        · left
          simp [h5]
    · rw [if_neg h4]
      by_cases h6 : 0xF0 ≤ b.toNat ∧ b.toNat ≤ 0xF4
      · rw [if_pos h6]
        match rest with
        | [] => left; rfl
        | [_] => left; rfl
        | [_, _] => left; rfl
        | b1 :: b2 :: b3 :: r =>
          by_cases h7 : inRange (if b.toNat = 0xF0 then 0x90 else 0x80)
              (if b.toNat = 0xF4 then 0x8F else 0xBF) b1 = true ∧ inRange 0x80 0xBF b2 = true
              ∧ inRange 0x80 0xBF b3 = true
          · right
            have h7a := (inRange_iff _ _ _).1 h7.1
            have h7b := (inRange_iff _ _ _).1 h7.2.1
            have h7c := (inRange_iff _ _ _).1 h7.2.2
            refine ⟨3, by norm_num, by simp, ?_, ?_, ?_⟩
            · simp [h7]
            · simp only [h7, and_self, if_true, encodeRune]
              split_ifs at h7a <;>
              · rw [if_neg (by omega), if_neg (by omega), if_neg (by omega), if_neg (by omega)]
                simp only [List.take, List.cons.injEq, and_true]
                exact ⟨ofNat_eq_of_toNat _ _ (by omega), ofNat_eq_of_toNat _ _ (by omega),
                  ofNat_eq_of_toNat _ _ (by omega), ofNat_eq_of_toNat _ _ (by omega)⟩
            · intro Y
              simp [h7, h6, h4, h2, decodeRune]
              omega
          · left
            simp [h7]
      · left
        rw [if_neg h6]

theorem scanString_escapeByte_ofNat (n : Nat) (hn : n < 0x80) (fuel : Nat) (X : Bytes) :
    scanString (fuel + 1) (escapeByte (UInt8.ofNat n) ++ X)
      = (scanString fuel X).map (fun p => (UInt8.ofNat n :: p.1, p.2)) := by
  interval_cases n <;> rfl

theorem scanString_escapeByte (b : UInt8) (hb : b.toNat < 0x80) (fuel : Nat) (X : Bytes) :
    scanString (fuel + 1) (escapeByte b ++ X)
      = (scanString fuel X).map (fun p => (b :: p.1, p.2)) := by
  have h := scanString_escapeByte_ofNat b.toNat hb fuel X
  rwa [ofNat_toNat_byte] at h

theorem scanString_raw (b : UInt8) (hb : 0x80 ≤ b.toNat) (fuel : Nat) (tail : Bytes) :
    scanString (fuel + 1) (b :: tail)
      = (scanString fuel (tail.drop ((decodeRune (b :: tail)).2 - 1))).map
          (fun p => (encodeRune (decodeRune (b :: tail)).1 ++ p.1, p.2)) := by
  have h1 : b ≠ 0x22 := by
    intro h; rw [h] at hb; exact absurd hb (by decide)
  have h2 : b ≠ 0x5C := by
    intro h; rw [h] at hb; exact absurd hb (by decide)
  conv_lhs => unfold scanString
  simp only [h1, h2, if_false]
  rw [if_neg (by omega), if_neg (by omega)]

theorem escapeByte_length_pos (b : UInt8) : 0 < (escapeByte b).length := by
  unfold escapeByte
  split_ifs <;> simp [ascii]

theorem scanString_quoteLoop (n : Nat) :
    ∀ (s : Bytes), s.length ≤ n → ∀ (fv fq F : Nat) (X : Bytes), s.length ≤ fv →
      s.length ≤ fq → (quoteLoop fq s).length < F → validLoop fv s = true →
      scanString F (quoteLoop fq s ++ 0x22 :: X) = some (s, X) := by
  induction n with
  | zero =>
    intro s hs fv fq F X _ _ hF _
    have : s = [] := List.length_eq_zero.1 (by omega)
    subst this
    obtain ⟨F', rfl⟩ : ∃ F', F = F' + 1 := ⟨F - 1, by omega⟩
    cases fq <;> simp [quoteLoop, scanString]
  | succ n ih =>
    intro s hs fv fq F X hfv hfq hF hv
    cases s with
    | nil =>
      obtain ⟨F', rfl⟩ : ∃ F', F = F' + 1 := ⟨F - 1, by omega⟩
      cases fq <;> simp [quoteLoop, scanString]
    | cons b rest =>
      simp only [List.length_cons] at hs hfv hfq
      obtain ⟨F', rfl⟩ : ∃ F', F = F' + 1 := ⟨F - 1, by omega⟩
      obtain ⟨fv', rfl⟩ : ∃ fv', fv = fv' + 1 := ⟨fv - 1, by omega⟩
      obtain ⟨fq', rfl⟩ : ∃ fq', fq = fq' + 1 := ⟨fq - 1, by omega⟩
      by_cases hb : b.toNat < 0x80
      · have hdr : decodeRune (b :: rest) = (b.toNat, 1) := by simp [decodeRune, hb]
        have hv' : validLoop fv' rest = true := by
          simp only [validLoop, hdr, Bool.and_eq_true] at hv
          simpa using hv.2
        have hq : quoteLoop (fq' + 1) (b :: rest) = escapeByte b ++ quoteLoop fq' rest := by
          simp [quoteLoop, hb]
        have hpos := escapeByte_length_pos b
        rw [hq, List.length_append] at hF
        rw [hq, List.append_assoc, scanString_escapeByte b hb,
          ih rest (by omega) fv' fq' F' X (by omega) (by omega) (by omega) hv']
        rfl
      · have hb' : 0x80 ≤ b.toNat := by omega
        rcases decodeRune_multibyte b rest hb' with herr | ⟨k, hk1, hk2, hsz, henc, hext⟩
        · simp [validLoop, herr] at hv
        · have hdr : decodeRune (b :: rest) = ((decodeRune (b :: rest)).1, k + 1) :=
            Prod.ext rfl hsz
          generalize (decodeRune (b :: rest)).1 = c at hdr henc
          have hlen : (rest.take k).length = k := by simp [hk2]
          have hdroplen : (rest.drop k).length ≤ n := by simp; omega
          have hv' : validLoop fv' (rest.drop k) = true := by
            simp only [validLoop, hdr, Bool.and_eq_true] at hv
            simpa using hv.2
          have hrec := fun F0 (hF0 : (quoteLoop fq' (rest.drop k)).length < F0) =>
            ih (rest.drop k) hdroplen fv' fq' F0 X (by simp; omega) (by simp; omega) hF0 hv'
          have hjoin : b :: rest.take k ++ rest.drop k = b :: rest := by
            simp [List.take_append_drop]
          have hq : quoteLoop (fq' + 1) (b :: rest)
              = if c = 0x2028 ∨ c = 0x2029 then
                  ascii "\\u202" ++ [hexDigit (c % 16)] ++ quoteLoop fq' (rest.drop k)
                else (b :: rest).take (k + 1) ++ quoteLoop fq' (rest.drop k) := by
            simp only [quoteLoop, hdr]
            rw [if_neg hb, if_neg (by omega)]
            simp
          rw [hq] at hF ⊢
          by_cases hc : c = 0x2028 ∨ c = 0x2029
          · rw [if_pos hc] at hF ⊢
            have hstep : ∀ Y, scanString (F' + 1)
                (ascii "\\u202" ++ [hexDigit (c % 16)] ++ Y)
                  = (scanString F' Y).map (fun p => (encodeRune c ++ p.1, p.2)) := by
              intro Y
              rcases hc with hc | hc <;> subst hc <;> rfl
            have h5 : (ascii "\\u202").length = 5 := rfl
            simp only [List.length_append, h5, List.length_singleton] at hF
            rw [List.append_assoc, hstep, hrec F' (by omega)]
            simp [henc, hjoin]
          · rw [if_neg hc] at hF ⊢
            have htail : (b :: rest).take (k + 1) ++ quoteLoop fq' (rest.drop k) ++ 0x22 :: X
                = b :: (rest.take k ++ (quoteLoop fq' (rest.drop k) ++ 0x22 :: X)) := by
              simp
            simp only [List.length_append, List.take_succ_cons, List.length_cons] at hF
            rw [htail, scanString_raw b hb', hext, hdr]
            simp only [Nat.add_sub_cancel]
            rw [List.drop_left' hlen, hrec F' (by omega)]
            simp [henc, hjoin]

/-- Reading the JSON text of a valid UTF-8 string as a JSON value gives the
string. -/
theorem parseValue_quote (s : Bytes) (hv : utf8Valid s = true) (fuel : Nat)
    (X : Bytes) : parseValue (fuel + 1) (quote s ++ X) = some (JValue.string s, X) := by
  have h := scanString_quoteLoop s.length s le_rfl s.length s.length
    ((quoteLoop s.length s ++ 0x22 :: X).length + 1) X le_rfl le_rfl (by simp; omega) hv
  have hq : quote s ++ X = 0x22 :: (quoteLoop s.length s ++ 0x22 :: X) := by simp [quote]
  rw [hq, parseValue]
  simp only [List.length_append, List.length_cons] at h
  simp [skipSpace, isSpace, List.dropWhile, h]

theorem isDigit_iff (c : UInt8) : isDigit c = true ↔ 48 ≤ c.toNat ∧ c.toNat ≤ 57 := by
  simp [isDigit]

theorem toNat_ofNat_small (n : Nat) (h : n < 256) : (UInt8.ofNat n).toNat = n := by
  simp [UInt8.ofNat, UInt8.toNat, Nat.mod_eq_of_lt h]

/-- The digits that `digitsLoop` writes in front of `acc` are digits, the first
of them is not `0` unless the number is 0, and read back from the value `0`
they give the number. -/
theorem digitsLoop_spec (fuel : Nat) :
    ∀ (n : Nat) (acc : Bytes), n < fuel →
      ∃ d ds, digitsLoop fuel n acc = d :: (ds ++ acc)
        ∧ isDigit d = true ∧ (0 < n → d ≠ 0x30) ∧ ds.all isDigit = true
        ∧ (d :: ds).foldl (fun a c => a * 10 + (c.toNat - 48)) 0 = n := by
  induction fuel with
  | zero => intro n acc h; omega
  | succ fuel ih =>
    intro n acc h
    unfold digitsLoop
    by_cases h10 : n < 10
    · rw [if_pos h10]
      refine ⟨UInt8.ofNat (48 + n), [], rfl, ?_, ?_, rfl, ?_⟩
      · rw [isDigit_iff, toNat_ofNat_small _ (by omega)]; omega
      · intro hn heq
        have := congrArg UInt8.toNat heq
        rw [toNat_ofNat_small _ (by omega)] at this
        have h48 : (0x30 : UInt8).toNat = 48 := rfl
        omega
      · simp [toNat_ofNat_small (48 + n) (by omega)]
    · rw [if_neg h10]
      obtain ⟨d, ds, heq, hd, hnz, hds, hval⟩ :=
        ih (n / 10) (UInt8.ofNat (48 + n % 10) :: acc) (by omega)
      refine ⟨d, ds ++ [UInt8.ofNat (48 + n % 10)], ?_, hd, ?_, ?_, ?_⟩
      · rw [heq]; simp
      · intro _; exact hnz (by omega)
      · have : isDigit (UInt8.ofNat (48 + n % 10)) = true := by
          rw [isDigit_iff, toNat_ofNat_small _ (by omega)]; omega
        simp [hds, this]
      · rw [← List.cons_append, List.foldl_append, hval]
        simp [toNat_ofNat_small (48 + n % 10) (by omega)]
        omega

theorem takeWhile_digits (ds : Bytes) (hds : ds.all isDigit = true) (c : UInt8)
    (hc : isDigit c = false) (X : Bytes) :
    (ds ++ c :: X).takeWhile isDigit = ds ∧ (ds ++ c :: X).dropWhile isDigit = c :: X := by
  induction ds with
  | nil => simp [List.takeWhile, List.dropWhile, hc]
  | cons d ds ih =>
    simp only [List.all_cons, Bool.and_eq_true] at hds
    simp [List.takeWhile, List.dropWhile, hds.1, ih hds.2]

/-- The scanner reads the digits of `formatUint n` in front of a closing brace
as one number literal. -/
theorem scanNumber_formatUint (n : Nat) (X : Bytes) :
    scanNumber (formatUint n ++ 0x7D :: X) = some (formatUint n, 0x7D :: X) := by
  obtain ⟨d, ds, heq, hd, hnz, hds, -⟩ := digitsLoop_spec (n + 1) n [] (by omega)
  unfold formatUint
  rw [heq]
  simp only [List.append_nil]
  have hd' := (isDigit_iff d).1 hd
  have hminus : d ≠ 0x2D := by
    intro h; rw [h] at hd'; exact absurd hd' (by decide)
  by_cases h0 : n = 0
  · subst h0
    have : d :: ds = [0x30] := by rw [← List.append_nil ds, ← heq]; rfl
    rw [this]
    rfl
  · have hz := hnz (by omega)
    have htw := takeWhile_digits (d :: ds) (by simp [hd, hds]) 0x7D (by decide) X
    unfold scanNumber
    simp only [List.cons_append] at htw
    simp [hminus, hz, scanDigits, htw.1, htw.2, scanFraction, scanExponent]

theorem byte_ne_of_toNat (c : UInt8) (k : Nat) (hk : k < 256) (h : c.toNat ≠ k) :
    c ≠ UInt8.ofNat k := by
  intro heq
  rw [heq, toNat_ofNat_small k hk] at h
  exact h rfl

/-- A number literal that starts with a digit is read as a JSON number. -/
theorem parseValue_number (fuel : Nat) (d : UInt8) (tail lit X : Bytes)
    (hd : isDigit d = true) (hscan : scanNumber (d :: tail) = some (lit, X)) :
    parseValue (fuel + 1) (d :: tail) = some (JValue.number lit, X) := by
  have hd' := (isDigit_iff d).1 hd
  have h20 : d ≠ 0x20 := byte_ne_of_toNat d 0x20 (by norm_num) (by omega)
  have h09 : d ≠ 0x09 := byte_ne_of_toNat d 0x09 (by norm_num) (by omega)
  have h0D : d ≠ 0x0D := byte_ne_of_toNat d 0x0D (by norm_num) (by omega)
  have h0A : d ≠ 0x0A := byte_ne_of_toNat d 0x0A (by norm_num) (by omega)
  have h7B : d ≠ 0x7B := byte_ne_of_toNat d 0x7B (by norm_num) (by omega)
  have h5B : d ≠ 0x5B := byte_ne_of_toNat d 0x5B (by norm_num) (by omega)
  have h22 : d ≠ 0x22 := byte_ne_of_toNat d 0x22 (by norm_num) (by omega)
  have hsp : skipSpace (d :: tail) = d :: tail := by
    have hs : isSpace d = false := by
      simp [isSpace, beq_eq_false_iff_ne.2 h20, beq_eq_false_iff_ne.2 h09,
        beq_eq_false_iff_ne.2 h0D, beq_eq_false_iff_ne.2 h0A]
    simp [skipSpace, List.dropWhile, hs]
  rw [parseValue, hsp]
  simp [h7B, h5B, h22, hd, hscan]

/-- The JSON value read from the text that `marshal` gives for a `Ping` or a
`Pong` with nonce `n`. -/
theorem parseValue_nonce (fuel n : Nat) (X : Bytes) :
    parseValue (fuel + 3) (ascii "\x7b\"Nonce\":" ++ formatUint n ++ ascii "\x7d" ++ X)
      = some (JValue.object [(ascii "Nonce", JValue.number (formatUint n))], X) := by
  obtain ⟨d, ds, heq, hd, -, -, -⟩ := digitsLoop_spec (n + 1) n [] (by omega)
  have hnum := scanNumber_formatUint n X
  have hfmt : formatUint n = d :: ds := by unfold formatUint; rw [heq]; simp
  rw [hfmt] at hnum ⊢
  have hpv := parseValue_number fuel d (ds ++ 0x7D :: X) (d :: ds) (0x7D :: X) hd
    (by simpa using hnum)
  have htext : ascii "\x7b\"Nonce\":" ++ d :: ds ++ ascii "\x7d" ++ X
      = 0x7B :: 0x22 :: 0x4E :: 0x6F :: 0x6E :: 0x63 :: 0x65 :: 0x22 :: 0x3A
        :: d :: (ds ++ 0x7D :: X) := by
    simp [ascii]
  rw [htext]
  rw [parseValue]
  simp [skipSpace, isSpace, List.dropWhile, parseMembers, scanString, simpleEscape, hpv,
    ascii, UInt8.size]

theorem parseUint_formatUint (bits n : Nat) (h : n < 2 ^ bits) :
    parseUint bits (formatUint n) = some n := by
  obtain ⟨d, ds, heq, hd, -, hds, hval⟩ := digitsLoop_spec (n + 1) n [] (by omega)
  have hfmt : formatUint n = d :: ds := by unfold formatUint; rw [heq]; simp
  unfold parseUint
  rw [hfmt]
  have hall : (d :: ds).all isDigit = true := by simp [hd, hds]
  rw [if_pos hall]
  simp only [hval]
  rw [if_pos h]

theorem ofNat_toNat_uint32 (x : UInt32) : UInt32.ofNat x.toNat = x := by
  cases x
  simp [UInt32.ofNat, UInt32.toNat]

theorem storeUint32_formatUint (cur x : UInt32) :
    storeUint32 cur (JValue.number (formatUint x.toNat)) = some x := by
  simp only [storeUint32]
  rw [parseUint_formatUint 32 x.toNat x.toBitVec.isLt]
  simp [ofNat_toNat_uint32]

/-- The JSON of the Go library reproduces every `Ping`. -/
theorem goJSON_reproduces_ping (p : Ping) : goJSON.reproduces (Value.ping p) = true := by
  have hlen : ∃ f, (ascii "\x7b\"Nonce\":" ++ formatUint p.Nonce.toNat ++ ascii "\x7d"
      ++ [0x0A]).length + 1 = f + 3 := ⟨_, by simp [ascii]; rfl⟩
  obtain ⟨f, hf⟩ := hlen
  have hfold : simpleLetterEqualFold (ascii "Nonce") (ascii "Nonce") = true := by decide
  simp only [JSON.reproduces, goJSON, marshal, Option.map_some', readValue, hf,
    parseValue_nonce, Option.bind, storePing, List.foldlM, hfold, if_true,
    storeUint32_formatUint]
  simp

/-- The JSON of the Go library reproduces every `Pong`. -/
theorem goJSON_reproduces_pong (p : Pong) : goJSON.reproduces (Value.pong p) = true := by
  have hlen : ∃ f, (ascii "\x7b\"Nonce\":" ++ formatUint p.Nonce.toNat ++ ascii "\x7d"
      ++ [0x0A]).length + 1 = f + 3 := ⟨_, by simp [ascii]; rfl⟩
  obtain ⟨f, hf⟩ := hlen
  have hfold : simpleLetterEqualFold (ascii "Nonce") (ascii "Nonce") = true := by decide
  simp only [JSON.reproduces, goJSON, marshal, Option.map_some', readValue, hf,
    parseValue_nonce, Option.bind, storePong, List.foldlM, hfold, if_true,
    storeUint32_formatUint]
  simp

/-- The JSON of the Go library reproduces every `Discover`. -/
theorem goJSON_reproduces_discover (d : Discover) :
    goJSON.reproduces (Value.discover d) = true := by
  cases d
  decide

/-- The JSON of the Go library reproduces every string that is valid UTF-8. -/
theorem goJSON_reproduces_string (s : Bytes) (hv : utf8Valid s = true) :
    goJSON.reproduces (Value.string s) = true := by
  simp only [JSON.reproduces, goJSON, marshal, Option.map_some', readValue,
    parseValue_quote s hv, Option.bind, storeString]
  simp

theorem base64Value_base64Char (n : Nat) (h : n < 64) : base64Value (base64Char n) = some n := by
  interval_cases n <;> rfl

theorem base64Char_plain (n : Nat) (h : n < 64) :
    base64Char n ≠ 0x3D ∧ base64Char n ≠ 0x0D ∧ base64Char n ≠ 0x0A ∧ base64Char n ≠ 0x22
      ∧ base64Char n ≠ 0x5C ∧ 0x20 ≤ (base64Char n).toNat ∧ (base64Char n).toNat < 0x80 := by
  interval_cases n <;> decide

theorem base64Quanta_encode (b : Bytes) : base64Quanta (base64Encode b) = some b := by
  induction b using base64Encode.induct with
  | case1 => rfl
  | case2 a =>
    have ha := toNat_lt_byte a
    have h0 := base64Value_base64Char (a.toNat / 4) (by omega)
    have h1 := base64Value_base64Char (a.toNat % 4 * 16) (by omega)
    simp only [base64Encode, base64Quanta, h0, h1, if_true]
    simp only [Option.some.injEq, List.cons.injEq, and_true]
    exact ofNat_eq_of_toNat _ _ (by omega)
  | case3 a b =>
    have ha := toNat_lt_byte a
    have hb := toNat_lt_byte b
    have h0 := base64Value_base64Char (a.toNat / 4) (by omega)
    have h1 := base64Value_base64Char (a.toNat % 4 * 16 + b.toNat / 16) (by omega)
    have h2 := base64Value_base64Char (b.toNat % 16 * 4) (by omega)
    have hne := (base64Char_plain (b.toNat % 16 * 4) (by omega)).1
    simp only [base64Encode, base64Quanta, h0, h1, h2, hne, if_true, if_false]
    simp only [Option.some.injEq, List.cons.injEq, and_true]
    exact ⟨ofNat_eq_of_toNat _ _ (by omega), ofNat_eq_of_toNat _ _ (by omega)⟩
  | case4 a b c rest ih =>
    have ha := toNat_lt_byte a
    have hb := toNat_lt_byte b
    have hc := toNat_lt_byte c
    have h0 := base64Value_base64Char (a.toNat / 4) (by omega)
    have h1 := base64Value_base64Char (a.toNat % 4 * 16 + b.toNat / 16) (by omega)
    have h2 := base64Value_base64Char (b.toNat % 16 * 4 + c.toNat / 64) (by omega)
    have h3 := base64Value_base64Char (c.toNat % 64) (by omega)
    have hne := (base64Char_plain (c.toNat % 64) (by omega)).1
    have hnil : ([] : Bytes).append (base64Encode rest) = base64Encode rest := rfl
    simp only [base64Encode, List.cons_append, List.nil_append, base64Quanta, h0, h1, h2, h3,
      hne, if_false, hnil, ih]
    simp only [Option.some.injEq, List.cons.injEq, and_true]
    exact ⟨ofNat_eq_of_toNat _ _ (by omega), ofNat_eq_of_toNat _ _ (by omega),
      ofNat_eq_of_toNat _ _ (by omega)⟩

theorem plainByte_base64Char (n : Nat) (h : n < 64) : plainByte (base64Char n) :=
  (base64Char_plain n h).2

theorem plainByte_pad : plainByte 0x3D := by
  unfold plainByte
  decide

theorem base64Encode_plain (b : Bytes) : ∀ c ∈ base64Encode b, plainByte c := by
  induction b using base64Encode.induct with
  | case1 => intro c hc; simp [base64Encode] at hc
  | case2 a =>
    have ha := toNat_lt_byte a
    intro c hc
    simp only [base64Encode, List.mem_cons, List.mem_singleton, List.not_mem_nil, or_false] at hc
    rcases hc with h | h | h | h <;> subst h
    · exact plainByte_base64Char _ (by omega)
    · exact plainByte_base64Char _ (by omega)
    · exact plainByte_pad
    · exact plainByte_pad
  | case3 a b =>
    have ha := toNat_lt_byte a
    have hb := toNat_lt_byte b
    intro c hc
    simp only [base64Encode, List.mem_cons, List.mem_singleton, List.not_mem_nil, or_false] at hc
    rcases hc with h | h | h | h <;> subst h
    · exact plainByte_base64Char _ (by omega)
    · exact plainByte_base64Char _ (by omega)
    · exact plainByte_base64Char _ (by omega)
    · exact plainByte_pad
  | case4 a b c rest ih =>
    have ha := toNat_lt_byte a
    have hb := toNat_lt_byte b
    have hc := toNat_lt_byte c
    intro x hx
    simp only [base64Encode, List.mem_append, List.mem_cons, List.mem_singleton,
      List.not_mem_nil, or_false] at hx
    rcases hx with (h | h | h | h) | h
    · subst h; exact plainByte_base64Char _ (by omega)
    · subst h; exact plainByte_base64Char _ (by omega)
    · subst h; exact plainByte_base64Char _ (by omega)
    · subst h; exact plainByte_base64Char _ (by omega)
    · exact ih x h

theorem scanString_plain (s : Bytes) (hs : ∀ c ∈ s, plainByte c) :
    ∀ (F : Nat) (X : Bytes), s.length < F → scanString F (s ++ 0x22 :: X) = some (s, X) := by
  induction s with
  | nil =>
    intro F X hF
    obtain ⟨F', rfl⟩ : ∃ F', F = F' + 1 := ⟨F - 1, by simp at hF; omega⟩
    simp [scanString]
  | cons c t ih =>
    intro F X hF
    simp only [List.length_cons] at hF
    obtain ⟨F', rfl⟩ : ∃ F', F = F' + 1 := ⟨F - 1, by omega⟩
    obtain ⟨-, -, h22, h5C, h20, h80⟩ := hs c (by simp)
    rw [List.cons_append]
    conv_lhs => unfold scanString
    simp only [h22, h5C, if_false]
    rw [if_neg (by omega), if_pos h80, ih (fun x hx => hs x (by simp [hx])) F' X (by omega)]
    rfl

theorem base64Decode_encode (b : Bytes) : base64Decode (base64Encode b) = some b := by
  unfold base64Decode
  have hf : (base64Encode b).filter (fun c => c != 0x0D && c != 0x0A) = base64Encode b := by
    rw [List.filter_eq_self]
    intro c hc
    obtain ⟨h1, h2, -⟩ := base64Encode_plain b c hc
    simp [h1, h2]
  rw [hf, base64Quanta_encode]

/-- The JSON of the Go library reproduces every `[]byte`. -/
theorem goJSON_reproduces_bytes (b : Bytes) : goJSON.reproduces (Value.bytes b) = true := by
  have hscan := scanString_plain (base64Encode b) (base64Encode_plain b)
    ((base64Encode b).length + 2 + 1) [0x0A] (by omega)
  have hparse : parseValue (([0x22] ++ base64Encode b ++ [0x22] ++ [0x0A]).length + 1)
      ([0x22] ++ base64Encode b ++ [0x22] ++ [0x0A])
        = some (JValue.string (base64Encode b), [0x0A]) := by
    have htext : [0x22] ++ base64Encode b ++ [0x22] ++ [0x0A]
        = 0x22 :: (base64Encode b ++ 0x22 :: [0x0A]) := by simp
    rw [htext, parseValue]
    simp [skipSpace, isSpace, List.dropWhile, hscan]
  simp only [JSON.reproduces, goJSON, marshal, Option.map_some', readValue, hparse,
    Option.bind, storeBytes, base64Decode_encode]
  simp

theorem skipSpace_of_not_space (c : UInt8) (t : Bytes) (h : isSpace c = false) :
    skipSpace (c :: t) = c :: t := by
  simp [skipSpace, List.dropWhile, h]

/-- The elements of a JSON array of the texts of valid UTF-8 strings. -/
theorem parseItems_quotes (addrs : List Bytes) (hv : ∀ a ∈ addrs, utf8Valid a = true)
    (hne : addrs ≠ []) :
    ∀ (fuel : Nat) (X : Bytes), addrs.length < fuel →
      parseItems fuel (List.intercalate [0x2C] (addrs.map quote) ++ 0x5D :: X)
        = some (addrs.map JValue.string, X) := by
  induction addrs with
  | nil => exact absurd rfl hne
  | cons a t ih =>
    intro fuel X hfuel
    simp only [List.length_cons] at hfuel
    obtain ⟨f, rfl⟩ : ∃ f, fuel = f + 2 := ⟨fuel - 2, by omega⟩
    have ha := hv a (by simp)
    cases t with
    | nil =>
      have htext : List.intercalate [0x2C] ([a].map quote) ++ 0x5D :: X
          = quote a ++ 0x5D :: X := by
        simp [List.intercalate]
      rw [htext, parseItems, parseValue_quote a ha f (0x5D :: X)]
      simp [skipSpace_of_not_space 0x5D X (by decide)]
    | cons b t =>
      have htext : List.intercalate [0x2C] ((a :: b :: t).map quote) ++ 0x5D :: X
          = quote a ++ 0x2C :: (List.intercalate [0x2C] ((b :: t).map quote) ++ 0x5D :: X) := by
        simp [List.intercalate]
      have hrec := ih (fun x hx => hv x (by simp [hx])) (by simp) (f + 1) X
        (by simp only [List.length_cons] at hfuel ⊢; omega)
      rw [htext, parseItems, parseValue_quote a ha f]
      simp only [skipSpace_of_not_space 0x2C _ (by decide : isSpace 0x2C = false), hrec]
      rfl

theorem storeEach_storeString (addrs : List Bytes) :
    storeEach (storeString []) (addrs.map JValue.string) = some addrs := by
  induction addrs with
  | nil => rfl
  | cons a t ih => simp [storeEach, storeString, ih]

theorem quote_length_pos (s : Bytes) : 0 < (quote s).length := by
  simp [quote]

theorem intercalate_quote_length (addrs : List Bytes) :
    addrs.length ≤ (List.intercalate [0x2C] (addrs.map quote)).length := by
  induction addrs with
  | nil => simp
  | cons a t ih =>
    have ha := quote_length_pos a
    cases t with
    | nil => simp [List.intercalate]; omega
    | cons b t =>
      have h : List.intercalate [0x2C] ((a :: b :: t).map quote)
          = quote a ++ 0x2C :: List.intercalate [0x2C] ((b :: t).map quote) := by
        simp [List.intercalate]
      rw [h]
      simp only [List.length_append, List.length_cons] at ih ⊢
      omega

/-- The JSON value read from the text that `marshal` gives for a `Peers`. -/
theorem parseValue_addresses (addrs : List Bytes) (hv : ∀ a ∈ addrs, utf8Valid a = true)
    (fuel : Nat) (hfuel : addrs.length < fuel) (X : Bytes) :
    parseValue (fuel + 3)
        (ascii "\x7b\"Addresses\":[" ++ List.intercalate [0x2C] (addrs.map quote)
          ++ ascii "]\x7d" ++ X)
      = some (JValue.object [(ascii "Addresses", JValue.array (addrs.map JValue.string))], X) := by
  have hinner : parseValue (fuel + 1)
      (0x5B :: (List.intercalate [0x2C] (addrs.map quote) ++ 0x5D :: 0x7D :: X))
        = some (JValue.array (addrs.map JValue.string), 0x7D :: X) := by
    rw [parseValue]
    cases addrs with
    | nil => simp [skipSpace, isSpace, List.dropWhile, List.intercalate]
    | cons a t =>
      have hitems := parseItems_quotes (a :: t) hv (by simp) fuel (0x7D :: X) hfuel
      have hhead : ∃ tail, List.intercalate [0x2C] ((a :: t).map quote) ++ 0x5D :: 0x7D :: X
          = 0x22 :: tail := by
        cases t <;> exact ⟨_, by simp [List.intercalate, quote]; rfl⟩
      obtain ⟨tail, htail⟩ := hhead
      rw [htail] at hitems ⊢
      simp [skipSpace, isSpace, List.dropWhile, hitems]
  have htext : ascii "\x7b\"Addresses\":[" ++ List.intercalate [0x2C] (addrs.map quote)
        ++ ascii "]\x7d" ++ X
      = 0x7B :: 0x22 :: 0x41 :: 0x64 :: 0x64 :: 0x72 :: 0x65 :: 0x73 :: 0x73 :: 0x65 :: 0x73
        :: 0x22 :: 0x3A
        :: 0x5B :: (List.intercalate [0x2C] (addrs.map quote) ++ 0x5D :: 0x7D :: X) := by
    simp [ascii]
  rw [htext, parseValue]
  simp [skipSpace, isSpace, List.dropWhile, parseMembers, scanString, simpleEscape, hinner,
    ascii, UInt8.size]

/-- The JSON of the Go library reproduces every `Peers` whose addresses are
valid UTF-8. -/
theorem goJSON_reproduces_peers (p : Peers) (hv : ∀ a ∈ p.Addresses, utf8Valid a = true) :
    goJSON.reproduces (Value.peers p) = true := by
  obtain ⟨addrs⟩ := p
  have hlen : ∃ f, addrs.length < f ∧
      (ascii "\x7b\"Addresses\":[" ++ List.intercalate [0x2C] (addrs.map quote)
        ++ ascii "]\x7d" ++ [0x0A]).length + 1 = f + 3 := by
    have h := intercalate_quote_length addrs
    refine ⟨(List.intercalate [0x2C] (addrs.map quote)).length + 15, by omega, ?_⟩
    have h1 : (ascii "\x7b\"Addresses\":[").length = 14 := rfl
    have h2 : (ascii "]\x7d").length = 2 := rfl
    simp only [List.length_append, h1, h2, List.length_singleton]
    omega
  obtain ⟨f, hf1, hf2⟩ := hlen
  have hfold : equalFoldRight 9 (ascii "Addresses") (ascii "Addresses") = true := by decide
  simp only [JSON.reproduces, goJSON, marshal, Option.map_some', readValue, hf2,
    parseValue_addresses addrs hv f hf1, Option.bind, storePeers, List.foldlM, hfold, if_true,
    storeStrings, storeEach_storeString]
  simp

/-- The JSON of the Go library reproduces every value of a supported variant
whose strings are valid UTF-8. -/
theorem goJSON_reproduces (v : Value) (h : v.validUTF8 = true) :
    goJSON.reproduces v = true := by
  cases v with
  | ping p => exact goJSON_reproduces_ping p
  | pong p => exact goJSON_reproduces_pong p
  | discover d => exact goJSON_reproduces_discover d
  | peers p =>
    refine goJSON_reproduces_peers p (fun a ha => ?_)
    simp only [Value.validUTF8, List.all_eq_true] at h
    exact h a ha
  | string s => exact goJSON_reproduces_string s h
  | bytes b => exact goJSON_reproduces_bytes b
  | other t => simp [Value.validUTF8] at h

/-! ## Theorems: codec -/

/-- C1, as stated, fails: with the JSON of the Go library the string with the
one byte `0xFF` (not valid UTF-8) is encoded as the escape for U+FFFD, and `Decode` of
the bytes written returns the three-byte string `EF BF BD`, not the string that was
encoded. -/
theorem codec_roundtrip_loses_invalid_utf8 :
    SimpleCodec.Encode goJSON [] (Value.string [0xFF])
        = ([4, 0x22, 0x5C, 0x75, 0x66, 0x66, 0x66, 0x64, 0x22, 0x0A], none)
      ∧ SimpleCodec.Decode goJSON [4, 0x22, 0x5C, 0x75, 0x66, 0x66, 0x66, 0x64, 0x22, 0x0A]
        = Except.ok (Value.string [0xEF, 0xBF, 0xBD])
      ∧ Value.string [0xEF, 0xBF, 0xBD] ≠ Value.string [0xFF] := by
  decide

/-- For every JSON layer, every sink and every value `v` that the JSON layer
reproduces, `Encode` succeeds, writes the type byte and the JSON text behind
what the sink held, and `Decode` of exactly the bytes written returns `v`. -/
theorem codec_roundtrip_of_reproduces (J : JSON) (w : Bytes) (v : Value)
    (h : J.reproduces v = true) :
    ∃ written, SimpleCodec.Encode J w v = (w ++ written, none)
      ∧ SimpleCodec.Decode J written = Except.ok v := by
  unfold JSON.reproduces at h
  cases hE : J.Encode v with
  | none => simp [hE] at h
  | some data =>
    rw [hE] at h
    cases v with
    | other t => simp at h
    | ping p =>
      have hd : J.DecodePing data = some p := by simpa using h
      exact ⟨MsgPing :: data, by simp [SimpleCodec.Encode, typeCode, hE],
        by simp [SimpleCodec.Decode, hd]⟩
    | pong p =>
      have hd : J.DecodePong data = some p := by simpa using h
      exact ⟨MsgPong :: data, by simp [SimpleCodec.Encode, typeCode, hE],
        by simp [SimpleCodec.Decode, hd, MsgPing, MsgPong]⟩
    | discover d =>
      have hd : J.DecodeDiscover data = some d := by simpa using h
      exact ⟨MsgDiscover :: data, by simp [SimpleCodec.Encode, typeCode, hE],
        by simp [SimpleCodec.Decode, hd, MsgPing, MsgPong, MsgDiscover]⟩
    | peers p =>
      have hd : J.DecodePeers data = some p := by simpa using h
      exact ⟨MsgPeers :: data, by simp [SimpleCodec.Encode, typeCode, hE],
        by simp [SimpleCodec.Decode, hd, MsgPing, MsgPong, MsgDiscover, MsgPeers]⟩
    | string x =>
      have hd : J.DecodeString data = some x := by simpa using h
      exact ⟨MsgString :: data, by simp [SimpleCodec.Encode, typeCode, hE],
        by simp [SimpleCodec.Decode, hd, MsgPing, MsgPong, MsgDiscover, MsgPeers, MsgString]⟩
    | bytes b =>
      have hd : J.DecodeBytes data = some b := by simpa using h
      exact ⟨MsgBytes :: data, by simp [SimpleCodec.Encode, typeCode, hE],
        by simp [SimpleCodec.Decode, hd, MsgPing, MsgPong, MsgDiscover, MsgPeers, MsgString,
          MsgBytes]⟩

/-- C1, amended: with the JSON of the Go library, for every sink and every
value `v` of one of the six supported variants whose strings (a `string` value,
the addresses of a `Peers`) are valid UTF-8, `Encode` succeeds and writes its
bytes behind what the sink held, and `Decode` of exactly the bytes written
returns `v`. -/
theorem codec_roundtrip (w : Bytes) (v : Value) (h : v.validUTF8 = true) :
    ∃ written, SimpleCodec.Encode goJSON w v = (w ++ written, none)
      ∧ SimpleCodec.Decode goJSON written = Except.ok v :=
  codec_roundtrip_of_reproduces goJSON w v (goJSON_reproduces v h)

/-- C1, witness: the string `ok` and the addresses `a:1` and `é` (two bytes)
are valid UTF-8, so the codec returns the string and the `Peers` of the two
addresses. -/
theorem codec_roundtrip_witness :
    (Value.validUTF8 (Value.string [0x6F, 0x6B]) = true
      ∧ ∃ written, SimpleCodec.Encode goJSON [] (Value.string [0x6F, 0x6B]) = ([] ++ written, none)
        ∧ SimpleCodec.Decode goJSON written = Except.ok (Value.string [0x6F, 0x6B]))
    ∧ (Value.validUTF8 (Value.peers { Addresses := [[0x61, 0x3A, 0x31], [0xC3, 0xA9]] }) = true
      ∧ ∃ written, SimpleCodec.Encode goJSON [1, 2]
          (Value.peers { Addresses := [[0x61, 0x3A, 0x31], [0xC3, 0xA9]] })
          = ([1, 2] ++ written, none)
        ∧ SimpleCodec.Decode goJSON written
          = Except.ok (Value.peers { Addresses := [[0x61, 0x3A, 0x31], [0xC3, 0xA9]] })) :=
  ⟨⟨by decide, codec_roundtrip [] (Value.string [0x6F, 0x6B]) (by decide)⟩,
    ⟨by decide, codec_roundtrip [1, 2]
      (Value.peers { Addresses := [[0x61, 0x3A, 0x31], [0xC3, 0xA9]] }) (by decide)⟩⟩

/-- C2: for every JSON layer, `Encode` of a value of no supported type returns
an error and leaves the sink as it was, and `Decode` of a stream whose first
byte is none of the six type bytes returns an error, whatever bytes follow. -/
theorem codec_rejects_unknown (J : JSON) :
    (∀ (w : Bytes) (typeName : String),
        SimpleCodec.Encode J w (Value.other typeName) = (w, some CodecError.unknownType))
      ∧ (∀ (code : UInt8) (rest : Bytes),
        code ∉ [MsgPing, MsgPong, MsgDiscover, MsgPeers, MsgString, MsgBytes] →
          SimpleCodec.Decode J (code :: rest) = Except.error CodecError.invalidCode) := by
  refine ⟨fun w t => rfl, fun code rest h => ?_⟩
  simp only [List.mem_cons, List.mem_singleton, not_or, List.not_mem_nil, or_false] at h
  obtain ⟨h0, h1, h2, h3, h4, h5⟩ := h
  simp [SimpleCodec.Decode, h0, h1, h2, h3, h4, h5]

/-- C2, witness: with the JSON of the Go library, a value of type `int` is
refused without a byte written, and the type byte 6 is refused in front of a
well-formed JSON text. -/
theorem codec_rejects_unknown_witness :
    SimpleCodec.Encode goJSON [9] (Value.other "int") = ([9], some CodecError.unknownType)
      ∧ SimpleCodec.Decode goJSON [6, 0x7B, 0x7D, 0x0A] = Except.error CodecError.invalidCode :=
  ⟨(codec_rejects_unknown goJSON).1 [9] "int",
    (codec_rejects_unknown goJSON).2 6 [0x7B, 0x7D, 0x0A] (by decide)⟩

/-! ## Lemmas: rounding to binary64 -/

/-- `roundHalfEven m` is the floor of `m` or the integer above it. -/
theorem roundHalfEven_cases (m : ℚ) :
    (roundHalfEven m = ⌊m⌋ ∧ m - ⌊m⌋ ≤ 1 / 2)
      ∨ (roundHalfEven m = ⌊m⌋ + 1 ∧ 1 / 2 ≤ m - ⌊m⌋) := by
  unfold roundHalfEven
  simp only
  split_ifs with h1 h2 h3
  · exact Or.inl ⟨rfl, le_of_lt h1⟩
  · exact Or.inr ⟨rfl, le_of_lt h2⟩
  · exact Or.inl ⟨rfl, not_lt.1 h2⟩
  · exact Or.inr ⟨rfl, not_lt.1 h1⟩

/-- An integer below `m` is below `roundHalfEven m`. -/
theorem le_roundHalfEven (m : ℚ) (z : ℤ) (h : (z : ℚ) ≤ m) : z ≤ roundHalfEven m := by
  have hz : z ≤ ⌊m⌋ := Int.le_floor.2 h
  rcases roundHalfEven_cases m with ⟨h1, -⟩ | ⟨h1, -⟩ <;> omega

/-- An integer above `m` is above `roundHalfEven m`. -/
theorem roundHalfEven_le (m : ℚ) (z : ℤ) (h : m ≤ (z : ℚ)) : roundHalfEven m ≤ z := by
  rcases roundHalfEven_cases m with ⟨h1, -⟩ | ⟨h1, h2⟩
  · rw [h1]
    have hle : (⌊m⌋ : ℚ) ≤ z := le_trans (Int.floor_le m) h
    exact_mod_cast hle
  · rw [h1]
    have hlt : (⌊m⌋ : ℚ) < z := by linarith
    have : ⌊m⌋ < z := by exact_mod_cast hlt
    omega

/-- The distance of `roundHalfEven m` from `m` is at most one half. -/
theorem roundHalfEven_near (m : ℚ) : |(roundHalfEven m : ℚ) - m| ≤ 1 / 2 := by
  have hfl := Int.floor_le m
  have hlt := Int.lt_floor_add_one m
  rw [abs_le]
  rcases roundHalfEven_cases m with ⟨h1, h2⟩ | ⟨h1, h2⟩
  · rw [h1]; constructor <;> linarith
  · rw [h1]; push_cast; constructor <;> linarith

/-- Rounding to the nearest integer is monotone. -/
theorem roundHalfEven_mono (m1 m2 : ℚ) (h : m1 ≤ m2) : roundHalfEven m1 ≤ roundHalfEven m2 := by
  have hfl : ⌊m1⌋ ≤ ⌊m2⌋ := Int.floor_mono h
  rcases lt_or_eq_of_le hfl with hlt | heq
  · have h2 : ⌊m2⌋ ≤ roundHalfEven m2 := le_roundHalfEven m2 _ (Int.floor_le m2)
    rcases roundHalfEven_cases m1 with ⟨h1, -⟩ | ⟨h1, -⟩ <;> omega
  · unfold roundHalfEven
    simp only
    rw [heq]
    have hcast : ((⌊m1⌋ : ℤ) : ℚ) = ((⌊m2⌋ : ℤ) : ℚ) := by rw [heq]
    split_ifs <;> first | omega | (exfalso; linarith)

/-- Every power of 2 is positive. -/
theorem two_zpow_pos (k : ℤ) : (0 : ℚ) < 2 ^ k :=
  zpow_pos (by norm_num) k

/-- The exponent of a positive rational: `2 ^ e ≤ q < 2 ^ (e + 1)`. -/
theorem log_spec (q : ℚ) (hq : 0 < q) :
    (2 : ℚ) ^ Int.log 2 q ≤ q ∧ q < (2 : ℚ) ^ (Int.log 2 q + 1) := by
  have h1 := Int.zpow_log_le_self (b := 2) (by norm_num) hq
  have h2 := Int.lt_zpow_succ_log_self (b := 2) (by norm_num) q
  simp only [Nat.cast_ofNat] at h1 h2
  exact ⟨h1, h2⟩

/-- The exponent is the only `e` with `2 ^ e ≤ q < 2 ^ (e + 1)`. -/
theorem log_unique (q : ℚ) (e : ℤ) (hq : 0 < q) (h1 : (2 : ℚ) ^ e ≤ q)
    (h2 : q < (2 : ℚ) ^ (e + 1)) : Int.log 2 q = e := by
  have hle : e ≤ Int.log 2 q := by
    rw [← Int.zpow_le_iff_le_log (by norm_num) hq]
    simpa using h1
  have hlt : Int.log 2 q < e + 1 := by
    rw [← Int.lt_zpow_iff_log_lt (by norm_num) hq]
    simpa using h2
  omega

/-- The result of `roundFloat64` on a positive rational. -/
theorem roundFloat64_pos (q : ℚ) (hq : 0 < q) :
    roundFloat64 q
      = (roundHalfEven (q * 2 ^ (52 - Int.log 2 q)) : ℚ) * 2 ^ (Int.log 2 q - 52) := by
  unfold roundFloat64
  rw [if_neg (ne_of_gt hq), abs_of_pos hq]

/-- The scaled significand of a positive rational lies between 2^52 and 2^53. -/
theorem significand_range (q : ℚ) (hq : 0 < q) :
    ((2 ^ 52 : ℤ) : ℚ) ≤ q * 2 ^ (52 - Int.log 2 q)
      ∧ q * 2 ^ (52 - Int.log 2 q) ≤ ((2 ^ 53 : ℤ) : ℚ) := by
  obtain ⟨h1, h2⟩ := log_spec q hq
  have hp := two_zpow_pos (52 - Int.log 2 q)
  have e1 : (2 : ℚ) ^ Int.log 2 q * 2 ^ (52 - Int.log 2 q) = ((2 ^ 52 : ℤ) : ℚ) := by
    rw [← zpow_add₀ (by norm_num : (2 : ℚ) ≠ 0)]
    rw [show Int.log 2 q + (52 - Int.log 2 q) = 52 by ring]
    norm_num
  have e2 : (2 : ℚ) ^ (Int.log 2 q + 1) * 2 ^ (52 - Int.log 2 q) = ((2 ^ 53 : ℤ) : ℚ) := by
    rw [← zpow_add₀ (by norm_num : (2 : ℚ) ≠ 0)]
    rw [show Int.log 2 q + 1 + (52 - Int.log 2 q) = 53 by ring]
    norm_num
  constructor
  · rw [← e1]
    exact mul_le_mul_of_nonneg_right h1 (le_of_lt hp)
  · rw [← e2]
    exact mul_le_mul_of_nonneg_right (le_of_lt h2) (le_of_lt hp)

/-- The binary64 number nearest to a positive rational lies in the same binade. -/
theorem roundFloat64_bounds (q : ℚ) (hq : 0 < q) :
    (2 : ℚ) ^ Int.log 2 q ≤ roundFloat64 q ∧ roundFloat64 q ≤ (2 : ℚ) ^ (Int.log 2 q + 1) := by
  obtain ⟨h1, h2⟩ := significand_range q hq
  have hp := two_zpow_pos (Int.log 2 q - 52)
  have hlo : ((2 ^ 52 : ℤ) : ℚ) ≤ (roundHalfEven (q * 2 ^ (52 - Int.log 2 q)) : ℚ) := by
    exact_mod_cast le_roundHalfEven _ _ h1
  have hhi : (roundHalfEven (q * 2 ^ (52 - Int.log 2 q)) : ℚ) ≤ ((2 ^ 53 : ℤ) : ℚ) := by
    exact_mod_cast roundHalfEven_le _ _ h2
  have e1 : ((2 ^ 52 : ℤ) : ℚ) * 2 ^ (Int.log 2 q - 52) = (2 : ℚ) ^ Int.log 2 q := by
    rw [show ((2 ^ 52 : ℤ) : ℚ) = (2 : ℚ) ^ (52 : ℤ) by norm_num,
      ← zpow_add₀ (by norm_num : (2 : ℚ) ≠ 0)]
    congr 1; ring
  have e2 : ((2 ^ 53 : ℤ) : ℚ) * 2 ^ (Int.log 2 q - 52) = (2 : ℚ) ^ (Int.log 2 q + 1) := by
    rw [show ((2 ^ 53 : ℤ) : ℚ) = (2 : ℚ) ^ (53 : ℤ) by norm_num,
      ← zpow_add₀ (by norm_num : (2 : ℚ) ≠ 0)]
    congr 1; ring
  rw [roundFloat64_pos q hq]
  constructor
  · rw [← e1]
    exact mul_le_mul_of_nonneg_right hlo (le_of_lt hp)
  · rw [← e2]
    exact mul_le_mul_of_nonneg_right hhi (le_of_lt hp)

/-- Zero is rounded to zero. -/
theorem roundFloat64_zero : roundFloat64 0 = 0 := by
  unfold roundFloat64
  rw [if_pos rfl]

/-- A positive rational is rounded to a positive number. -/
theorem roundFloat64_pos_of_pos (q : ℚ) (hq : 0 < q) : 0 < roundFloat64 q :=
  lt_of_lt_of_le (two_zpow_pos _) (roundFloat64_bounds q hq).1

/-- A rational that is not negative is rounded to such a number. -/
theorem roundFloat64_nonneg (q : ℚ) (hq : 0 ≤ q) : 0 ≤ roundFloat64 q := by
  rcases eq_or_lt_of_le hq with h | h
  · rw [← h, roundFloat64_zero]
  · exact le_of_lt (roundFloat64_pos_of_pos q h)

/-- Rounding to binary64 is monotone on the rationals that are not negative. -/
theorem roundFloat64_mono (x y : ℚ) (hx : 0 ≤ x) (h : x ≤ y) :
    roundFloat64 x ≤ roundFloat64 y := by
  rcases eq_or_lt_of_le hx with h0 | hpos
  · rw [← h0, roundFloat64_zero]
    exact roundFloat64_nonneg y (le_trans hx h)
  · have hy : 0 < y := lt_of_lt_of_le hpos h
    have hlog : Int.log 2 x ≤ Int.log 2 y := Int.log_mono_right hpos h
    rcases lt_or_eq_of_le hlog with hlt | heq
    · have h1 := (roundFloat64_bounds x hpos).2
      have h2 := (roundFloat64_bounds y hy).1
      have h3 : (2 : ℚ) ^ (Int.log 2 x + 1) ≤ (2 : ℚ) ^ Int.log 2 y :=
        zpow_le_zpow_right₀ (by norm_num) (by omega)
      exact le_trans h1 (le_trans h3 h2)
    · rw [roundFloat64_pos x hpos, roundFloat64_pos y hy, heq]
      have hp := two_zpow_pos (Int.log 2 y - 52)
      have hq := two_zpow_pos (52 - Int.log 2 y)
      have hm : roundHalfEven (x * 2 ^ (52 - Int.log 2 y))
          ≤ roundHalfEven (y * 2 ^ (52 - Int.log 2 y)) :=
        roundHalfEven_mono _ _ (mul_le_mul_of_nonneg_right h (le_of_lt hq))
      exact mul_le_mul_of_nonneg_right (by exact_mod_cast hm) (le_of_lt hp)

/-- The relative error of rounding to binary64 is at most 2^-53. -/
theorem roundFloat64_error (q : ℚ) (hq : 0 ≤ q) :
    |roundFloat64 q - q| ≤ q * 2 ^ (-53 : ℤ) := by
  rcases eq_or_lt_of_le hq with h0 | hpos
  · rw [← h0, roundFloat64_zero]; simp
  · obtain ⟨h1, -⟩ := log_spec q hpos
    have hp := two_zpow_pos (Int.log 2 q - 52)
    have hscale : q = q * 2 ^ (52 - Int.log 2 q) * 2 ^ (Int.log 2 q - 52) := by
      rw [mul_assoc, ← zpow_add₀ (by norm_num : (2 : ℚ) ≠ 0)]
      rw [show 52 - Int.log 2 q + (Int.log 2 q - 52) = 0 by ring]
      simp
    have hnear := roundHalfEven_near (q * 2 ^ (52 - Int.log 2 q))
    have hdiff : roundFloat64 q - q
        = ((roundHalfEven (q * 2 ^ (52 - Int.log 2 q)) : ℚ) - q * 2 ^ (52 - Int.log 2 q))
          * 2 ^ (Int.log 2 q - 52) := by
      rw [roundFloat64_pos q hpos, sub_mul, ← hscale]
    rw [hdiff, abs_mul, abs_of_pos hp]
    have hhalf : (1 / 2 : ℚ) * 2 ^ (Int.log 2 q - 52) = 2 ^ Int.log 2 q * 2 ^ (-53 : ℤ) := by
      rw [← zpow_add₀ (by norm_num : (2 : ℚ) ≠ 0)]
      rw [show Int.log 2 q + -53 = -1 + (Int.log 2 q - 52) by ring,
        zpow_add₀ (by norm_num : (2 : ℚ) ≠ 0)]
      norm_num
    calc |(roundHalfEven (q * 2 ^ (52 - Int.log 2 q)) : ℚ) - q * 2 ^ (52 - Int.log 2 q)|
          * 2 ^ (Int.log 2 q - 52)
        ≤ 1 / 2 * 2 ^ (Int.log 2 q - 52) := mul_le_mul_of_nonneg_right hnear (le_of_lt hp)
      _ = 2 ^ Int.log 2 q * 2 ^ (-53 : ℤ) := hhalf
      _ ≤ q * 2 ^ (-53 : ℤ) := mul_le_mul_of_nonneg_right h1 (le_of_lt (two_zpow_pos _))

/-- How to evaluate `roundFloat64`: with `2 ^ e ≤ q < 2 ^ (e + 1)` and an
integer `n` nearer than one half to `q * 2 ^ (52 - e)` the result is
`n * 2 ^ (e - 52)`. -/
theorem roundFloat64_eq (q : ℚ) (e n : ℤ) (hq : 0 < q) (h1 : (2 : ℚ) ^ e ≤ q)
    (h2 : q < (2 : ℚ) ^ (e + 1)) (h3 : |(n : ℚ) - q * 2 ^ (52 - e)| < 1 / 2) :
    roundFloat64 q = (n : ℚ) * 2 ^ (e - 52) := by
  rw [roundFloat64_pos q hq, log_unique q e hq h1 h2]
  have hnear := roundHalfEven_near (q * 2 ^ (52 - e))
  have hlt : |((roundHalfEven (q * 2 ^ (52 - e)) - n : ℤ) : ℚ)| < 1 := by
    push_cast
    rw [abs_lt] at h3 ⊢
    rw [abs_le] at hnear
    constructor <;> linarith [hnear.1, hnear.2, h3.1, h3.2]
  have hz : |roundHalfEven (q * 2 ^ (52 - e)) - n| < 1 := by
    have := hlt
    rw [← Int.cast_abs] at this
    exact_mod_cast this
  have : roundHalfEven (q * 2 ^ (52 - e)) = n := by
    rw [abs_lt] at hz
    omega
  rw [this]


/-- A binary64 number in the binade of `e` is rounded to itself. -/
theorem roundFloat64_exact (q : ℚ) (e n : ℤ) (hq : 0 < q) (h1 : (2 : ℚ) ^ e ≤ q)
    (h2 : q < (2 : ℚ) ^ (e + 1)) (h3 : q * 2 ^ (52 - e) = (n : ℚ)) : roundFloat64 q = q := by
  rw [roundFloat64_eq q e n hq h1 h2 (by rw [h3]; norm_num), ← h3, mul_assoc,
    ← zpow_add₀ (by norm_num : (2 : ℚ) ≠ 0)]
  rw [show 52 - e + (e - 52) = 0 by ring]
  simp

/-- Rounding to binary64 keeps a value that is not negative within the factors
`1 - 2^-53` and `1 + 2^-53`. -/
theorem roundFloat64_between (q : ℚ) (hq : 0 ≤ q) :
    (1 - 1 / 2 ^ 53) * q ≤ roundFloat64 q ∧ roundFloat64 q ≤ (1 + 1 / 2 ^ 53) * q := by
  have h := roundFloat64_error q hq
  have hu : (2 : ℚ) ^ (-53 : ℤ) = 1 / 2 ^ 53 := by norm_num
  rw [hu, abs_le] at h
  constructor <;> linarith [h.1, h.2]

/-- The score of a record that is not active and has a failure, as the nested
roundings compute it. -/
theorem score_rounded (e : entry) (ha : e.active = false) (hf : e.failure ≠ 0) :
    e.score
      = max (roundFloat64 (roundFloat64
          (roundFloat64 (e.success : ℚ) / roundFloat64 (e.failure : ℚ)) / 100)) 1 := by
  unfold entry.score
  simp [ha, hf]

/-- The value that `score` rounds last is within the factors `1 - 2^-50` and
`1 + 2^-50` of the exact quotient `success / failure / 100`. -/
theorem quotient_between (s f : ℕ) (hf : f ≠ 0) :
    (1 - 1 / 2 ^ 50) * ((s : ℚ) / (f : ℚ) / 100)
        ≤ roundFloat64 (roundFloat64 (roundFloat64 (s : ℚ) / roundFloat64 (f : ℚ)) / 100)
      ∧ roundFloat64 (roundFloat64 (roundFloat64 (s : ℚ) / roundFloat64 (f : ℚ)) / 100)
        ≤ (1 + 1 / 2 ^ 50) * ((s : ℚ) / (f : ℚ) / 100) := by
  have hs0 : (0 : ℚ) ≤ (s : ℚ) := Nat.cast_nonneg s
  have hf0 : (0 : ℚ) < (f : ℚ) := by exact_mod_cast Nat.pos_of_ne_zero hf
  obtain ⟨a1, a2⟩ := roundFloat64_between (s : ℚ) hs0
  obtain ⟨b1, b2⟩ := roundFloat64_between (f : ℚ) (le_of_lt hf0)
  have ha0 : 0 ≤ roundFloat64 (s : ℚ) := roundFloat64_nonneg _ hs0
  have hb0 : 0 < roundFloat64 (f : ℚ) := roundFloat64_pos_of_pos _ hf0
  have hx0 : (0 : ℚ) ≤ (s : ℚ) / (f : ℚ) := div_nonneg hs0 (le_of_lt hf0)
  have hq0 : 0 ≤ roundFloat64 (s : ℚ) / roundFloat64 (f : ℚ) := div_nonneg ha0 (le_of_lt hb0)
  -- the quotient of the two converted counters
  have q2 : roundFloat64 (s : ℚ) / roundFloat64 (f : ℚ) ≤ (1 + 3 / 2 ^ 53) * ((s : ℚ) / (f : ℚ)) := by
    rw [div_le_iff₀ hb0]
    have h1 : (s : ℚ) / (f : ℚ) * ((1 - 1 / 2 ^ 53) * (f : ℚ)) = (1 - 1 / 2 ^ 53) * (s : ℚ) := by
      field_simp
      ring
    have h2 : (1 + 3 / 2 ^ 53) * ((s : ℚ) / (f : ℚ)) * ((1 - 1 / 2 ^ 53) * (f : ℚ))
        ≤ (1 + 3 / 2 ^ 53) * ((s : ℚ) / (f : ℚ)) * roundFloat64 (f : ℚ) :=
      mul_le_mul_of_nonneg_left b1 (mul_nonneg (by norm_num) hx0)
    have h3 : (1 + 1 / 2 ^ 53 : ℚ) * (s : ℚ)
        ≤ (1 + 3 / 2 ^ 53) * (1 - 1 / 2 ^ 53) * (s : ℚ) :=
      mul_le_mul_of_nonneg_right (by norm_num) hs0
    calc roundFloat64 (s : ℚ) ≤ (1 + 1 / 2 ^ 53) * (s : ℚ) := a2
      _ ≤ (1 + 3 / 2 ^ 53) * (1 - 1 / 2 ^ 53) * (s : ℚ) := h3
      _ = (1 + 3 / 2 ^ 53) * ((s : ℚ) / (f : ℚ)) * ((1 - 1 / 2 ^ 53) * (f : ℚ)) := by
        rw [mul_assoc, mul_assoc, h1]
      _ ≤ _ := h2
  have q1 : (1 - 3 / 2 ^ 53) * ((s : ℚ) / (f : ℚ)) ≤ roundFloat64 (s : ℚ) / roundFloat64 (f : ℚ) := by
    rw [le_div_iff₀ hb0]
    have h1 : (s : ℚ) / (f : ℚ) * ((1 + 1 / 2 ^ 53) * (f : ℚ)) = (1 + 1 / 2 ^ 53) * (s : ℚ) := by
      field_simp
      ring
    have h2 : (1 - 3 / 2 ^ 53) * ((s : ℚ) / (f : ℚ)) * roundFloat64 (f : ℚ)
        ≤ (1 - 3 / 2 ^ 53) * ((s : ℚ) / (f : ℚ)) * ((1 + 1 / 2 ^ 53) * (f : ℚ)) :=
      mul_le_mul_of_nonneg_left b2 (mul_nonneg (by norm_num) hx0)
    have h3 : (1 - 3 / 2 ^ 53) * (1 + 1 / 2 ^ 53) * (s : ℚ)
        ≤ (1 - 1 / 2 ^ 53 : ℚ) * (s : ℚ) :=
      mul_le_mul_of_nonneg_right (by norm_num) hs0
    calc (1 - 3 / 2 ^ 53) * ((s : ℚ) / (f : ℚ)) * roundFloat64 (f : ℚ)
        ≤ (1 - 3 / 2 ^ 53) * ((s : ℚ) / (f : ℚ)) * ((1 + 1 / 2 ^ 53) * (f : ℚ)) := h2
      _ = (1 - 3 / 2 ^ 53) * (1 + 1 / 2 ^ 53) * (s : ℚ) := by
        rw [mul_assoc, mul_assoc, h1]
      _ ≤ (1 - 1 / 2 ^ 53) * (s : ℚ) := h3
      _ ≤ roundFloat64 (s : ℚ) := a1
  -- the rounded quotient
  obtain ⟨c1, c2⟩ := roundFloat64_between _ hq0
  have hc0 : 0 ≤ roundFloat64 (roundFloat64 (s : ℚ) / roundFloat64 (f : ℚ)) :=
    roundFloat64_nonneg _ hq0
  have r2 : roundFloat64 (roundFloat64 (s : ℚ) / roundFloat64 (f : ℚ))
      ≤ (1 + 5 / 2 ^ 53) * ((s : ℚ) / (f : ℚ)) := by
    calc roundFloat64 (roundFloat64 (s : ℚ) / roundFloat64 (f : ℚ))
        ≤ (1 + 1 / 2 ^ 53) * (roundFloat64 (s : ℚ) / roundFloat64 (f : ℚ)) := c2
      _ ≤ (1 + 1 / 2 ^ 53) * ((1 + 3 / 2 ^ 53) * ((s : ℚ) / (f : ℚ))) :=
        mul_le_mul_of_nonneg_left q2 (by norm_num)
      _ = (1 + 1 / 2 ^ 53) * (1 + 3 / 2 ^ 53) * ((s : ℚ) / (f : ℚ)) := by ring
      _ ≤ (1 + 5 / 2 ^ 53) * ((s : ℚ) / (f : ℚ)) :=
        mul_le_mul_of_nonneg_right (by norm_num) hx0
  have r1 : (1 - 5 / 2 ^ 53) * ((s : ℚ) / (f : ℚ))
      ≤ roundFloat64 (roundFloat64 (s : ℚ) / roundFloat64 (f : ℚ)) := by
    calc (1 - 5 / 2 ^ 53) * ((s : ℚ) / (f : ℚ))
        ≤ (1 - 1 / 2 ^ 53) * (1 - 3 / 2 ^ 53) * ((s : ℚ) / (f : ℚ)) :=
        mul_le_mul_of_nonneg_right (by norm_num) hx0
      _ = (1 - 1 / 2 ^ 53) * ((1 - 3 / 2 ^ 53) * ((s : ℚ) / (f : ℚ))) := by ring
      _ ≤ (1 - 1 / 2 ^ 53) * (roundFloat64 (s : ℚ) / roundFloat64 (f : ℚ)) :=
        mul_le_mul_of_nonneg_left q1 (by norm_num)
      _ ≤ _ := c1
  -- the division by 100 and its rounding
  have hd0 : 0 ≤ roundFloat64 (roundFloat64 (s : ℚ) / roundFloat64 (f : ℚ)) / 100 :=
    div_nonneg hc0 (by norm_num)
  obtain ⟨d1, d2⟩ := roundFloat64_between _ hd0
  have hy0 : (0 : ℚ) ≤ (s : ℚ) / (f : ℚ) / 100 := div_nonneg hx0 (by norm_num)
  constructor
  · calc (1 - 1 / 2 ^ 50) * ((s : ℚ) / (f : ℚ) / 100)
        ≤ (1 - 1 / 2 ^ 53) * (1 - 5 / 2 ^ 53) * ((s : ℚ) / (f : ℚ) / 100) :=
        mul_le_mul_of_nonneg_right (by norm_num) hy0
      _ = (1 - 1 / 2 ^ 53) * ((1 - 5 / 2 ^ 53) * ((s : ℚ) / (f : ℚ)) / 100) := by ring
      _ ≤ (1 - 1 / 2 ^ 53)
          * (roundFloat64 (roundFloat64 (s : ℚ) / roundFloat64 (f : ℚ)) / 100) :=
        mul_le_mul_of_nonneg_left (div_le_div_of_nonneg_right r1 (by norm_num)) (by norm_num)
      _ ≤ _ := d1
  · calc roundFloat64 (roundFloat64 (roundFloat64 (s : ℚ) / roundFloat64 (f : ℚ)) / 100)
        ≤ (1 + 1 / 2 ^ 53)
          * (roundFloat64 (roundFloat64 (s : ℚ) / roundFloat64 (f : ℚ)) / 100) := d2
      _ ≤ (1 + 1 / 2 ^ 53) * ((1 + 5 / 2 ^ 53) * ((s : ℚ) / (f : ℚ)) / 100) :=
        mul_le_mul_of_nonneg_left (div_le_div_of_nonneg_right r2 (by norm_num)) (by norm_num)
      _ = (1 + 1 / 2 ^ 53) * (1 + 5 / 2 ^ 53) * ((s : ℚ) / (f : ℚ) / 100) := by ring
      _ ≤ (1 + 1 / 2 ^ 50) * ((s : ℚ) / (f : ℚ) / 100) :=
        mul_le_mul_of_nonneg_right (by norm_num) hy0


/-- The score of a record with 1000 successes and one failure is 10: every
operation is exact. -/
theorem score_thousand_one (addr : String) :
    entry.score { addr := addr, active := false, success := 1000, failure := 1 } = 10 := by
  have h1 : roundFloat64 1 = 1 :=
    roundFloat64_exact 1 0 (2 ^ 52) (by norm_num) (by norm_num) (by norm_num) (by norm_num)
  have h2 : roundFloat64 1000 = 1000 :=
    roundFloat64_exact 1000 9 (1000 * 2 ^ 43) (by norm_num) (by norm_num) (by norm_num)
      (by norm_num)
  have h3 : roundFloat64 10 = 10 :=
    roundFloat64_exact 10 3 (10 * 2 ^ 49) (by norm_num) (by norm_num) (by norm_num)
      (by norm_num)
  rw [score_rounded _ rfl (by simp)]
  simp only [Nat.cast_ofNat, Nat.cast_one, h1, h2, div_one]
  rw [show (1000 : ℚ) / 100 = 10 by norm_num, h3]
  norm_num

/-! ## Theorems: score -/

/-- C3, as stated, fails: the score of a record that is not active, with 1000
successes and 3 failures, is the binary64 number 3752999689475413 / 2^50, and
not the exact rational `max (1000 / 3 / 100) 1 = 10 / 3`: the quotient
`1000 / 3` is rounded to 5864062014805333 / 2^44 and its hundredth is rounded
again. -/
theorem score_is_rounded :
    entry.score { addr := "a", active := false, success := 1000, failure := 3 }
        = 3752999689475413 / 2 ^ 50
      ∧ max ((1000 : ℚ) / 3 / 100) 1 = 10 / 3
      ∧ entry.score { addr := "a", active := false, success := 1000, failure := 3 }
        ≠ max ((1000 : ℚ) / 3 / 100) 1 := by
  have h3 : roundFloat64 3 = 3 :=
    roundFloat64_exact 3 1 (3 * 2 ^ 51) (by norm_num) (by norm_num) (by norm_num) (by norm_num)
  have h1000 : roundFloat64 1000 = 1000 :=
    roundFloat64_exact 1000 9 (1000 * 2 ^ 43) (by norm_num) (by norm_num) (by norm_num)
      (by norm_num)
  have hq : roundFloat64 (1000 / 3) = 5864062014805333 / 2 ^ 44 := by
    rw [roundFloat64_eq (1000 / 3) 8 5864062014805333 (by norm_num) (by norm_num) (by norm_num)
      (by norm_num [abs_lt])]
    norm_num
  have hd : roundFloat64 (5864062014805333 / 2 ^ 44 / 100) = 3752999689475413 / 2 ^ 50 := by
    rw [roundFloat64_eq (5864062014805333 / 2 ^ 44 / 100) 1 7505999378950826 (by norm_num)
      (by norm_num) (by norm_num) (by norm_num [abs_lt])]
    norm_num
  have hs : entry.score { addr := "a", active := false, success := 1000, failure := 3 }
      = 3752999689475413 / 2 ^ 50 := by
    rw [score_rounded _ rfl (by decide)]
    simp only [Nat.cast_ofNat, h3, h1000, hq, hd]
    norm_num
  have hm : max ((1000 : ℚ) / 3 / 100) 1 = 10 / 3 := by norm_num
  refine ⟨hs, hm, ?_⟩
  rw [hs, hm]
  norm_num

/-- C3, amended: the score of a record is 0 when it is active, otherwise 1
when its failure count is 0, otherwise the larger of 1 and the binary64 result
of `float64(success) / float64(failure) / 100`, in which both conversions and
both divisions are rounded to the nearest binary64 number; this score differs
from the exact rational `max (success / failure / 100) 1` by at most the
2^50-th part of it. The score is never negative, and at least 1 when the
record is not active. -/
theorem score_definition (e : entry) :
    (e.active = true → e.score = 0)
      ∧ (e.active = false → e.failure = 0 → e.score = 1)
      ∧ (e.active = false → e.failure ≠ 0 →
        e.score
            = max (roundFloat64 (roundFloat64
                (roundFloat64 (e.success : ℚ) / roundFloat64 (e.failure : ℚ)) / 100)) 1
          ∧ |e.score - max ((e.success : ℚ) / (e.failure : ℚ) / 100) 1|
            ≤ max ((e.success : ℚ) / (e.failure : ℚ) / 100) 1 / 2 ^ 50)
      ∧ 0 ≤ e.score
      ∧ (e.active = false → 1 ≤ e.score) := by
  have hone : e.active = false → 1 ≤ e.score := by
    intro h
    by_cases hf : e.failure = 0
    · unfold entry.score
      simp [h, hf]
    · rw [score_rounded e h hf]
      exact le_max_right _ _
  refine ⟨fun h => ?_, fun h hf => ?_, fun h hf => ⟨score_rounded e h hf, ?_⟩, ?_, hone⟩
  · unfold entry.score
    simp [h]
  · unfold entry.score
    simp [h, hf]
  · rw [score_rounded e h hf]
    obtain ⟨h1, h2⟩ := quotient_between e.success e.failure hf
    have hx0 : (0 : ℚ) ≤ (e.success : ℚ) / (e.failure : ℚ) / 100 :=
      div_nonneg (div_nonneg (Nat.cast_nonneg _) (Nat.cast_nonneg _)) (by norm_num)
    have hclose : |roundFloat64 (roundFloat64
          (roundFloat64 (e.success : ℚ) / roundFloat64 (e.failure : ℚ)) / 100)
        - (e.success : ℚ) / (e.failure : ℚ) / 100|
        ≤ (e.success : ℚ) / (e.failure : ℚ) / 100 / 2 ^ 50 := by
      rw [abs_le]
      constructor <;> linarith [h1, h2]
    calc |max (roundFloat64 (roundFloat64
            (roundFloat64 (e.success : ℚ) / roundFloat64 (e.failure : ℚ)) / 100)) 1
          - max ((e.success : ℚ) / (e.failure : ℚ) / 100) 1|
        ≤ |roundFloat64 (roundFloat64
            (roundFloat64 (e.success : ℚ) / roundFloat64 (e.failure : ℚ)) / 100)
          - (e.success : ℚ) / (e.failure : ℚ) / 100| := abs_max_sub_max_le_abs _ _ _
      _ ≤ (e.success : ℚ) / (e.failure : ℚ) / 100 / 2 ^ 50 := hclose
      _ ≤ max ((e.success : ℚ) / (e.failure : ℚ) / 100) 1 / 2 ^ 50 :=
        div_le_div_of_nonneg_right (le_max_left _ _) (by norm_num)
  · cases h : e.active with
    | true =>
      unfold entry.score
      simp [h]
    | false => exact le_trans zero_le_one (hone h)

/-- C3, witness: a record with 300 successes and 2 failures that is not active
has a score of at least 1 that is within the 2^50-th part of 3/2. -/
theorem score_definition_witness :
    1 ≤ entry.score { addr := "a", active := false, success := 300, failure := 2 }
      ∧ |entry.score { addr := "a", active := false, success := 300, failure := 2 }
          - max (((300 : ℕ) : ℚ) / ((2 : ℕ) : ℚ) / 100) 1|
        ≤ max (((300 : ℕ) : ℚ) / ((2 : ℕ) : ℚ) / 100) 1 / 2 ^ 50 :=
  ⟨(score_definition { addr := "a", active := false, success := 300, failure := 2 }).2.2.2.2 rfl,
    ((score_definition { addr := "a", active := false, success := 300, failure := 2 }).2.2.1 rfl
      (by decide)).2⟩

/-- C4, as stated, fails in part (b) at `failure1 = 0`: of two records that are
not active and have 1000 successes each, the one without a failure has score 1
and the one with one failure has score 10. -/
theorem score_rises_with_first_failure :
    entry.active { addr := "a", active := false, success := 1000, failure := 0 }
        = entry.active { addr := "a", active := false, success := 1000, failure := 1 }
      ∧ entry.success { addr := "a", active := false, success := 1000, failure := 0 }
        = entry.success { addr := "a", active := false, success := 1000, failure := 1 }
      ∧ entry.failure { addr := "a", active := false, success := 1000, failure := 0 }
        ≤ entry.failure { addr := "a", active := false, success := 1000, failure := 1 }
      ∧ entry.score { addr := "a", active := false, success := 1000, failure := 0 } = 1
      ∧ entry.score { addr := "a", active := false, success := 1000, failure := 1 } = 10
      ∧ ¬ (entry.score { addr := "a", active := false, success := 1000, failure := 0 }
        ≥ entry.score { addr := "a", active := false, success := 1000, failure := 1 }) := by
  have h0 : entry.score { addr := "a", active := false, success := 1000, failure := 0 } = 1 := by
    simp [entry.score]
  have h1 : entry.score { addr := "a", active := false, success := 1000, failure := 1 } = 10 :=
    score_thousand_one "a"
  refine ⟨rfl, rfl, Nat.zero_le 1, h0, h1, ?_⟩
  rw [h0, h1]
  norm_num

/-- C4, amended: for two records with the same active flag, (a) with the same
failure count and `success1 ≤ success2` the score of the first is at most that
of the second, and (b) with the same success count and
`1 ≤ failure1 ≤ failure2` the score of the first is at least that of the
second. -/
theorem score_monotone (e1 e2 : entry) (hact : e1.active = e2.active) :
    (e1.failure = e2.failure → e1.success ≤ e2.success → e1.score ≤ e2.score)
      ∧ (e1.success = e2.success → 1 ≤ e1.failure → e1.failure ≤ e2.failure →
        e2.score ≤ e1.score) := by
  constructor
  · intro hf hs
    unfold entry.score
    rw [hact, hf]
    split_ifs
    · exact le_rfl
    · exact le_rfl
    · have h : (e1.success : ℚ) ≤ (e2.success : ℚ) := by exact_mod_cast hs
      have hconv : roundFloat64 (e1.success : ℚ) ≤ roundFloat64 (e2.success : ℚ) :=
        roundFloat64_mono _ _ (Nat.cast_nonneg _) h
      have hden : 0 ≤ roundFloat64 (e2.failure : ℚ) := roundFloat64_nonneg _ (Nat.cast_nonneg _)
      have hnum : 0 ≤ roundFloat64 (e1.success : ℚ) := roundFloat64_nonneg _ (Nat.cast_nonneg _)
      have hquot : roundFloat64 (roundFloat64 (e1.success : ℚ) / roundFloat64 (e2.failure : ℚ))
          ≤ roundFloat64 (roundFloat64 (e2.success : ℚ) / roundFloat64 (e2.failure : ℚ)) :=
        roundFloat64_mono _ _ (div_nonneg hnum hden) (div_le_div_of_nonneg_right hconv hden)
      have hq0 : 0 ≤ roundFloat64 (roundFloat64 (e1.success : ℚ) / roundFloat64 (e2.failure : ℚ)) :=
        roundFloat64_nonneg _ (div_nonneg hnum hden)
      exact max_le_max
        (roundFloat64_mono _ _ (div_nonneg hq0 (by norm_num))
          (div_le_div_of_nonneg_right hquot (by norm_num))) le_rfl
  · intro hs h1 h12
    have hf1 : e1.failure ≠ 0 := by omega
    have hf2 : e2.failure ≠ 0 := by omega
    unfold entry.score
    rw [hact, hs]
    simp only [hf1, hf2, if_false]
    split_ifs
    · exact le_rfl
    · have hpos : (0 : ℚ) < (e1.failure : ℚ) := by exact_mod_cast (by omega : 0 < e1.failure)
      have hle : (e1.failure : ℚ) ≤ (e2.failure : ℚ) := by exact_mod_cast h12
      have hnum : 0 ≤ roundFloat64 (e2.success : ℚ) := roundFloat64_nonneg _ (Nat.cast_nonneg _)
      have hd1 : 0 < roundFloat64 (e1.failure : ℚ) := roundFloat64_pos_of_pos _ hpos
      have hd12 : roundFloat64 (e1.failure : ℚ) ≤ roundFloat64 (e2.failure : ℚ) :=
        roundFloat64_mono _ _ (le_of_lt hpos) hle
      have hd2 : 0 ≤ roundFloat64 (e2.failure : ℚ) := le_trans (le_of_lt hd1) hd12
      have hquot : roundFloat64 (roundFloat64 (e2.success : ℚ) / roundFloat64 (e2.failure : ℚ))
          ≤ roundFloat64 (roundFloat64 (e2.success : ℚ) / roundFloat64 (e1.failure : ℚ)) :=
        roundFloat64_mono _ _ (div_nonneg hnum hd2) (div_le_div_of_nonneg_left hnum hd1 hd12)
      have hq0 : 0 ≤ roundFloat64 (roundFloat64 (e2.success : ℚ) / roundFloat64 (e2.failure : ℚ)) :=
        roundFloat64_nonneg _ (div_nonneg hnum hd2)
      exact max_le_max
        (roundFloat64_mono _ _ (div_nonneg hq0 (by norm_num))
          (div_le_div_of_nonneg_right hquot (by norm_num))) le_rfl

/-- C4, witness: more successes at two failures do not lower the score, and a
third failure after two does not raise it. -/
theorem score_monotone_witness :
    entry.score { addr := "a", active := false, success := 100, failure := 2 }
        ≤ entry.score { addr := "b", active := false, success := 900, failure := 2 }
      ∧ entry.score { addr := "b", active := false, success := 900, failure := 3 }
        ≤ entry.score { addr := "a", active := false, success := 900, failure := 2 } :=
  ⟨(score_monotone { addr := "a", active := false, success := 100, failure := 2 }
      { addr := "b", active := false, success := 900, failure := 2 } rfl).1 rfl (by decide),
    (score_monotone { addr := "a", active := false, success := 900, failure := 2 }
      { addr := "b", active := false, success := 900, failure := 3 } rfl).2 rfl (by decide)
      (by decide)⟩

/-! ## Theorems: `Add` and `Connected` -/

/-- Reading the key that `storeFresh` wrote gives the fresh record. -/
theorem find_storeFresh_same (addr : String) (es : List entry) :
    (storeFresh addr es).find? (fun e => e.addr == addr)
      = some { addr := addr, active := false, success := 0, failure := 0 } := by
  induction es with
  | nil => simp [storeFresh]
  | cons e es ih =>
    unfold storeFresh
    by_cases h : e.addr = addr
    · simp [h]
    · simp [h, List.find?_cons, ih]

/-- Reading another key than the one `storeFresh` wrote gives what it gave
before. -/
theorem find_storeFresh_other (addr a : String) (h : a ≠ addr) (es : List entry) :
    (storeFresh addr es).find? (fun e => e.addr == a) = es.find? (fun e => e.addr == a) := by
  induction es with
  | nil => simp [storeFresh, List.find?_cons, Ne.symm h]
  | cons e es ih =>
    unfold storeFresh
    by_cases he : e.addr = addr
    · have hne : ¬ e.addr = a := fun h2 => h (h2 ▸ he)
      simp [he, List.find?_cons, Ne.symm h, hne]
    · simp only [he, if_false, List.find?_cons, ih]

/-- Reading the key `addr` after `modifyAt addr f`, for an `f` that keeps the
key, gives `f` of what was there. -/
theorem find_modifyAt_same (addr : String) (f : entry → entry) (hf : ∀ e, (f e).addr = e.addr)
    (es : List entry) :
    (modifyAt addr f es).find? (fun e => e.addr == addr)
      = (es.find? (fun e => e.addr == addr)).map f := by
  induction es with
  | nil => rfl
  | cons e es ih =>
    unfold modifyAt at ih ⊢
    by_cases h : e.addr = addr
    · simp [List.find?_cons, h, hf]
    · simp [List.find?_cons, h, ih]

/-- Reading another key than `addr` after `modifyAt addr f` gives what it gave
before. -/
theorem find_modifyAt_other (addr a : String) (h : a ≠ addr) (f : entry → entry)
    (hf : ∀ e, (f e).addr = e.addr) (es : List entry) :
    (modifyAt addr f es).find? (fun e => e.addr == a) = es.find? (fun e => e.addr == a) := by
  induction es with
  | nil => rfl
  | cons e es ih =>
    unfold modifyAt at ih ⊢
    by_cases he : e.addr = addr
    · have hne : ¬ e.addr = a := fun h2 => h (h2 ▸ he)
      have hne2 : ¬ (f e).addr = a := by rw [hf]; exact hne
      have hb1 : ((f e).addr == a) = false := by simpa using hne2
      have hb2 : (e.addr == a) = false := by simpa using hne
      simp only [List.map_cons, if_pos he, List.find?_cons, hb1, hb2]
      exact ih
    · simp [List.find?_cons, he, ih]

/-- C5, as stated, fails: in the book made of the address `a`, selected by `Get`
and then reported connected, the record of `a` is active with one success;
`Add` of `a` replaces it by a record that is not active and has no success. -/
theorem Add_resets_known_address :
    bookConnectedA.lookup "a"
        = some { addr := "a", active := true, success := 1, failure := 0 }
      ∧ (bookConnectedA.Add "a").lookup "a"
        = some { addr := "a", active := false, success := 0, failure := 0 } := by
  decide

/-- C5, amended: after `Add(addr)` the record of `addr` is not active and has
`success = failure = 0`, whether or not `addr` had a record before; the record
of every other address and the sample size are as before. -/
theorem Add_stores_fresh_entry (s : SimpleBook) (addr : String) :
    (s.Add addr).lookup addr
        = some { addr := addr, active := false, success := 0, failure := 0 }
      ∧ (∀ a : String, a ≠ addr → (s.Add addr).lookup a = s.lookup a)
      ∧ (s.Add addr).sampleSize = s.sampleSize :=
  ⟨find_storeFresh_same addr s.entries,
    fun a h => find_storeFresh_other addr a h s.entries, rfl⟩

/-- C5, witness: `Add` of `b` to a book that knows an active `a` creates the
record of `b` and keeps that of `a`. -/
theorem Add_stores_fresh_entry_witness :
    (bookActiveA.Add "b").lookup "b"
        = some { addr := "b", active := false, success := 0, failure := 0 }
      ∧ (bookActiveA.Add "b").lookup "a"
        = some { addr := "a", active := true, success := 2, failure := 1 } :=
  ⟨(Add_stores_fresh_entry bookActiveA "b").1,
    ((Add_stores_fresh_entry bookActiveA "b").2.1 "a" (by decide)).trans (by decide)⟩

/-- C6, as stated, fails: in the book made of the address `a` the record of `a`
is not active, and after `Connected` of `a` it has one success and is still
not active. -/
theorem Connected_leaves_entry_idle :
    (NewSimpleBook ["a"]).lookup "a"
        = some { addr := "a", active := false, success := 0, failure := 0 }
      ∧ ((NewSimpleBook ["a"]).Connected "a").lookup "a"
        = some { addr := "a", active := false, success := 1, failure := 0 } := by
  decide

/-- C6, amended: `Connected(addr)` on a known address raises the success count
of its record by one and leaves its active flag, its failure count, the record
of every other address and the sample size as they were; on an address without
a record it leaves the book as it was. -/
theorem Connected_counts_success (s : SimpleBook) (addr : String) :
    (∀ e : entry, s.lookup addr = some e →
        (s.Connected addr).lookup addr = some { e with success := e.success + 1 })
      ∧ (∀ a : String, a ≠ addr → (s.Connected addr).lookup a = s.lookup a)
      ∧ (s.Connected addr).sampleSize = s.sampleSize
      ∧ (s.lookup addr = none → s.Connected addr = s) := by
  refine ⟨?_, ?_, ?_, ?_⟩
  · intro e he
    unfold SimpleBook.Connected
    rw [he]
    unfold SimpleBook.lookup at he ⊢
    show (modifyAt addr (fun e => { e with success := e.success + 1 }) s.entries).find? _ = _
    rw [find_modifyAt_same addr (fun e => { e with success := e.success + 1 }) (fun _ => rfl), he]
    rfl
  · intro a ha
    unfold SimpleBook.Connected
    cases hl : s.lookup addr with
    | none => rfl
    | some e =>
      unfold SimpleBook.lookup
      exact find_modifyAt_other addr a ha (fun e => { e with success := e.success + 1 })
        (fun _ => rfl) s.entries
  · unfold SimpleBook.Connected
    cases s.lookup addr <;> rfl
  · intro h
    unfold SimpleBook.Connected
    rw [h]

/-- C6, witness: `Connected` of `a` in a book that holds `a` (idle, one
failure) and `b` counts one success for `a` and keeps `b`; `Connected` of the
unknown `c` changes nothing. -/
theorem Connected_counts_success_witness :
    (bookIdleAActiveB.Connected "a").lookup "a"
        = some { addr := "a", active := false, success := 1, failure := 1 }
      ∧ (bookIdleAActiveB.Connected "a").lookup "b"
        = some { addr := "b", active := true, success := 4, failure := 0 }
      ∧ bookIdleAActiveB.Connected "c" = bookIdleAActiveB :=
  ⟨(Connected_counts_success bookIdleAActiveB "a").1
      { addr := "a", active := false, success := 0, failure := 1 } (by decide),
    ((Connected_counts_success bookIdleAActiveB "a").2.1 "b" (by decide)).trans (by decide),
    (Connected_counts_success bookIdleAActiveB "c").2.2.2 (by decide)⟩

/-! ## Theorems: `Sample` and `Get` -/

/-- C7, the code at two failing inputs: with sample size 10 and the two
candidates `a` and `b`, `Sample` returns one address, the one its second loop
visits first, not both; with sample size 1 and the same candidates it returns
two elements, the first of which is the empty string. -/
theorem Sample_wrong_size :
    bookTwoIdle.sampleSize = 10
      ∧ bookTwoIdle.entries.map (fun e => (e.addr, e.active)) = [("a", false), ("b", false)]
      ∧ (∀ draws, bookTwoIdle.Sample 0 draws = Outcome.returned ["a"])
      ∧ (∀ draws, bookTwoIdle.Sample 1 draws = Outcome.returned ["b"])
      ∧ (∀ first, bookSampleOne.Sample first [(0, 0)] = Outcome.returned ["", "a"])
      ∧ (∀ first, bookSampleOne.Sample first [(1, 0)] = Outcome.returned ["", "b"]) := by
  refine ⟨rfl, by decide, fun draws => ?_, fun draws => ?_, fun first => ?_, fun first => ?_⟩
  · rfl
  · rfl
  · rfl
  · rfl

/-- C8, the code at two failing inputs: in the default book after `Add` of `a`
and a `Get` the only record, `a`, is active and has score 0, and `Sample`
returns `a`; in a book of the candidate `b` and the active `a`, `Sample`
returns `a` when its second loop visits `a` first. -/
theorem Sample_returns_active :
    bookOnlyActive.lookup "a"
        = some { addr := "a", active := true, success := 0, failure := 0 }
      ∧ entry.score { addr := "a", active := true, success := 0, failure := 0 } = 0
      ∧ (∀ first draws, bookOnlyActive.Sample first draws = Outcome.returned ["a"])
      ∧ bookIdleBActiveA.lookup "a"
        = some { addr := "a", active := true, success := 1, failure := 0 }
      ∧ (∀ draws, bookIdleBActiveA.Sample 1 draws = Outcome.returned ["a"]) := by
  refine ⟨by decide, rfl, fun first draws => ?_, by decide, fun draws => ?_⟩
  · show (match [({ addr := "a", active := true, success := 0, failure := 0 } : entry)].get?
        (first % 1) with
      | some e => Outcome.returned [e.addr]
      | none => _) = _
    rw [Nat.mod_one]
    rfl
  · rfl

/-- The result of `Get` on a book that is not empty, from the sorted slice. -/
theorem Get_of_sorted (s : SimpleBook) (e : entry) (rest : List entry)
    (hne : s.slice.length ≠ 0) (h : sortByPriority s.slice = e :: rest) :
    s.Get
      = (Except.ok e.addr,
          { s with entries := modifyAt e.addr (fun x => { x with active := true }) s.entries }) := by
  unfold SimpleBook.Get
  simp only [hne, if_false]
  rw [h]

/-- C9, the code at two failing inputs: after a first `Get` on the book of `a`
and `b` has made `a` active, a second `Get` returns `a` again (score 0) and not
the candidate `b` (score 1); and of the candidates `a` (score 1) and `b`
(score 10) `Get` returns `a`. -/
theorem Get_returns_lowest_score :
    bookAfterGet.entries
        = [{ addr := "a", active := true, success := 0, failure := 0 },
          { addr := "b", active := false, success := 0, failure := 0 }]
      ∧ bookAfterGet.Get = (Except.ok "a", bookAfterGet)
      ∧ entry.score { addr := "a", active := true, success := 0, failure := 0 }
        < entry.score { addr := "b", active := false, success := 0, failure := 0 }
      ∧ bookBetterB.Get.1 = Except.ok "a"
      ∧ entry.score { addr := "a", active := false, success := 0, failure := 0 }
        < entry.score { addr := "b", active := false, success := 1000, failure := 1 } := by
  have ha : entry.score { addr := "a", active := false, success := 0, failure := 0 } = 1 := by
    simp [entry.score]
  have hb : entry.score { addr := "b", active := false, success := 1000, failure := 1 } = 10 :=
    score_thousand_one "b"
  have hless : byPriority.Less { addr := "b", active := false, success := 1000, failure := 1 }
      { addr := "a", active := false, success := 0, failure := 0 } = false := by
    unfold byPriority.Less
    rw [ha, hb]
    norm_num
  have hsort : sortByPriority bookBetterB.slice
      = [{ addr := "a", active := false, success := 0, failure := 0 },
        { addr := "b", active := false, success := 1000, failure := 1 }] := by
    unfold sortByPriority bookBetterB SimpleBook.slice
    simp only [insertionLoop, bubbleDown, hless, Bool.false_eq_true, if_false,
      List.reverse_cons, List.reverse_nil, List.nil_append, List.singleton_append]
  refine ⟨by decide, by decide, by decide, ?_, ?_⟩
  · rw [Get_of_sorted bookBetterB _ _ (by decide) hsort]
  · rw [ha, hb]
    norm_num

/-- The selection loop of `Sample` never ends with a returned error. -/
theorem selectLoop_not_failed (entries : List entry) (sampleSize : Nat) (err : BookError) :
    ∀ (draws : List (Nat × ℚ)) (selected : List String),
      selectLoop entries sampleSize selected draws ≠ Outcome.failed err := by
  intro draws
  induction draws with
  | nil => intro selected h; simp [selectLoop] at h
  | cons d draws ih =>
    intro selected
    obtain ⟨n, x⟩ := d
    unfold selectLoop
    split_ifs with h0
    · simp
    · cases entries.get? (n % entries.length) with
      | none => simp
      | some e =>
        simp only
        split_ifs
        all_goals first
          | exact ih _
          | exact fun h => Outcome.noConfusion h

/-- C10, the code at failing inputs: on the empty default book `Sample` stops
with a division by zero at its first draw, while `Get` returns `errBookEmpty`;
on a book whose two records are active `Sample` stops with an index out of
range and `Get` returns the address `a` without error; on the book whose one
record is active `Get` returns its address without error; and on no book and
no draws does `Sample` return an error. -/
theorem no_candidate_not_reported :
    (∀ first n x draws,
        DefaultBook.Sample first ((n, x) :: draws) = Outcome.panicked Panic.divideByZero)
      ∧ DefaultBook.Get = (Except.error BookError.errBookEmpty, DefaultBook)
      ∧ (∀ first draws,
        bookBothActive.Sample first draws = Outcome.panicked Panic.indexOutOfRange)
      ∧ bookBothActive.Get.1 = Except.ok "a"
      ∧ bookOnlyActive.Get = (Except.ok "a", bookOnlyActive)
      ∧ (∀ (s : SimpleBook) first draws err, s.Sample first draws ≠ Outcome.failed err) := by
  refine ⟨fun first n x draws => ?_, by decide, fun first draws => ?_, by decide, by decide, ?_⟩
  · simp [SimpleBook.Sample, DefaultBook, SimpleBook.slice, filterLoop, selectLoop]
  · rfl
  · intro s first draws err
    unfold SimpleBook.Sample
    simp only
    cases filterLoop s.slice.length 0 s.slice s.slice.length with
    | none => simp
    | some p =>
      obtain ⟨arr, len⟩ := p
      simp only
      split_ifs
      · cases s.entries.get? (first % s.entries.length) with
        | none => exact selectLoop_not_failed _ _ _ _ _
        | some e => simp
      · exact selectLoop_not_failed _ _ _ _ _

/-! ## Lemmas: registry -/

/-- Reading the key that `registry.add` wrote gives the handle. -/
theorem get_add_same (addr : String) (p : peer) (hp : p.addr = addr) (peers : List peer) :
    registry.get (registry.add addr p peers) addr = some p := by
  unfold registry.get
  induction peers with
  | nil => simp [registry.add, hp]
  | cons q qs ih =>
    unfold registry.add
    by_cases h : q.addr = addr
    · simp [h, hp]
    · simp [h, List.find?_cons, ih]

/-- A handle that `registry.get` finds under `addr` has the address `addr`. -/
theorem get_addr (peers : List peer) (addr : String) (p : peer)
    (h : registry.get peers addr = some p) : p.addr = addr := by
  have := List.find?_some h
  simpa using this

/-- A key that `registry.get` finds is a key that `registry.has` knows. -/
theorem has_of_get (peers : List peer) (addr : String) (p : peer)
    (h : registry.get peers addr = some p) : registry.has peers addr = true := by
  unfold registry.has
  rw [List.any_eq_true]
  exact ⟨p, List.mem_of_find?_eq_some h, by simpa using get_addr peers addr p h⟩

/-- Reading the key `addr` after a send on its channel gives the handle with
the message at the tail of its queue. -/
theorem get_enqueue_same (peers : List peer) (addr : String) (msg : Dynamic) :
    registry.get (registry.enqueue peers addr msg) addr
      = (registry.get peers addr).map (fun p => { p with outgoing := p.outgoing ++ [msg] }) := by
  unfold registry.get registry.enqueue
  induction peers with
  | nil => rfl
  | cons q qs ih =>
    by_cases h : q.addr = addr
    · simp [List.find?_cons, h]
    · simp [List.find?_cons, h, ih]

/-- Reading another key than `addr` after a send on the channel of `addr`
gives what it gave before. -/
theorem get_enqueue_other (peers : List peer) (addr a : String) (h : a ≠ addr) (msg : Dynamic) :
    registry.get (registry.enqueue peers addr msg) a = registry.get peers a := by
  unfold registry.get registry.enqueue
  induction peers with
  | nil => rfl
  | cons q qs ih =>
    by_cases hq : q.addr = addr
    · have hne : ¬ q.addr = a := fun h2 => h (h2 ▸ hq)
      have hb : (q.addr == a) = false := by simpa using hne
      simp only [List.map_cons, if_pos hq, List.find?_cons, hb]
      exact ih
    · simp [List.find?_cons, hq, ih]

/-- The method `Node.event` changes the subscriber channel only. -/
theorem event_frame (node : Node) (e : Event) :
    (node.event e).peers = node.peers ∧ (node.event e).book = node.book
      ∧ (node.event e).count = node.count ∧ (node.event e).blacklist = node.blacklist
      ∧ (node.event e).closedConns = node.closedConns
      ∧ (node.event e).closedPeers = node.closedPeers := by
  unfold Node.event
  split_ifs <;> simp

/-- A send to a registered peer whose queue has room puts the message at the
tail of the queue and changes nothing else. -/
theorem Send_room (node : Node) (addr : String) (msg : Dynamic) (p : peer)
    (hp : registry.get node.peers addr = some p) (hroom : p.outgoing.length < outgoingCap) :
    node.Send addr msg = (none, { node with peers := registry.enqueue node.peers addr msg }) := by
  unfold Node.Send
  simp [has_of_get _ _ _ hp, hp, hroom]

/-- What `Node.init` leaves: the registry holds the remote address with the
nonce, `book.Connected` has been applied, and the counter, the closed
connections and the blacklist are as before. -/
theorem init_spec (node : Node) (addr : String) (nonce : Bytes) :
    (∃ queue, registry.get (node.init addr nonce).peers addr
        = some { addr := addr, nonce := nonce, outgoing := queue })
      ∧ (node.init addr nonce).book = node.book.Connected addr
      ∧ (node.init addr nonce).count = node.count
      ∧ (node.init addr nonce).closedConns = node.closedConns
      ∧ (node.init addr nonce).blacklist = node.blacklist := by
  have hget := get_add_same addr { addr := addr, nonce := nonce, outgoing := [] } rfl node.peers
  have hhas := has_of_get _ _ _ hget
  obtain ⟨h1, h2, h3, h4, h5, -⟩ := event_frame
    (if node.server = true then
      (Node.share { node with
          peers := registry.add addr { addr := addr, nonce := nonce, outgoing := [] } node.peers,
          book := node.book.Connected addr } addr [node.address]).2
    else { node with
          peers := registry.add addr { addr := addr, nonce := nonce, outgoing := [] } node.peers,
          book := node.book.Connected addr })
    (Event.Connected addr)
  have hinit : node.init addr nonce =
      Node.event (if node.server = true then
      (Node.share { node with
          peers := registry.add addr { addr := addr, nonce := nonce, outgoing := [] } node.peers,
          book := node.book.Connected addr } addr [node.address]).2
    else { node with
          peers := registry.add addr { addr := addr, nonce := nonce, outgoing := [] } node.peers,
          book := node.book.Connected addr })
    (Event.Connected addr) := rfl
  rw [hinit, h1, h2, h3, h4, h5]
  by_cases hs : node.server = true
  · simp only [hs, if_true, Node.share]
    rw [Send_room _ addr _ { addr := addr, nonce := nonce, outgoing := [] } hget
      (by simp [outgoingCap])]
    refine ⟨⟨[Dynamic.peers [node.address]], ?_⟩, rfl, rfl, rfl, rfl⟩
    simp only
    rw [get_enqueue_same, hget]
    rfl
  · simp only [hs, if_false]
    exact ⟨⟨[], hget⟩, rfl, rfl, rfl, rfl⟩

/-- After `registry.remove` the address is no key of the registry. -/
theorem has_remove (peers : List peer) (addr : String) :
    registry.has (registry.remove peers addr) addr = false := by
  unfold registry.has registry.remove
  rw [Bool.eq_false_iff]
  intro h
  rw [List.any_eq_true] at h
  obtain ⟨q, hq, hqa⟩ := h
  have := (List.mem_filter.1 hq).2
  simp at this hqa
  exact this hqa

/-- What `Node.disconnect` leaves. -/
theorem disconnect_spec (node : Node) (p : peer) :
    (node.disconnect p).peers = registry.remove node.peers p.addr
      ∧ (node.disconnect p).closedPeers = p :: node.closedPeers
      ∧ (node.disconnect p).book = node.book.Dropped p.addr
      ∧ (node.disconnect p).count = node.count - 1
      ∧ (node.disconnect p).subscriber
        = (if node.subscriber.length < node.subscriberCap then
            node.subscriber ++ [Event.Disconnected p.addr]
          else node.subscriber)
      ∧ (node.disconnect p).blacklist = node.blacklist
      ∧ (node.disconnect p).closedConns = node.closedConns := by
  unfold Node.disconnect Node.event
  simp only
  split_ifs <;> simp

/-- `Failed` and then `Dropped` on an address with an entry leave the entry
idle with two more failures. -/
theorem lookup_Failed_Dropped (s : SimpleBook) (addr : String) (e : entry)
    (he : s.lookup addr = some e) :
    ((s.Failed addr).Dropped addr).lookup addr
      = some { e with active := false, failure := e.failure + 2 } := by
  have h1 : (s.Failed addr).lookup addr
      = some { e with active := false, failure := e.failure + 1 } := by
    unfold SimpleBook.Failed
    rw [he]
    unfold SimpleBook.lookup at he ⊢
    simp only
    rw [find_modifyAt_same addr _ (by intro x; rfl), he]
    rfl
  unfold SimpleBook.Dropped
  rw [h1]
  unfold SimpleBook.lookup at h1 ⊢
  simp only
  rw [find_modifyAt_same addr _ (by intro x; rfl), h1]
  rfl

/-- `Failed` and then `Dropped` on an address without an entry leave the book
as it was. -/
theorem Failed_Dropped_unknown (s : SimpleBook) (addr : String) (he : s.lookup addr = none) :
    (s.Failed addr).Dropped addr = s := by
  have h1 : s.Failed addr = s := by unfold SimpleBook.Failed; rw [he]
  rw [h1]
  unfold SimpleBook.Dropped
  rw [he]

/-! ## Theorems: handshake -/

/-- The method `known` answers `true` exactly when a handle of the registry
has the nonce. -/
theorem known_iff (node : Node) (nonce : Bytes) :
    node.known nonce = true ↔ ∃ p ∈ node.peers, p.nonce = nonce := by
  unfold Node.known registry.slice
  rw [List.any_eq_true]
  constructor
  · rintro ⟨p, hp, heq⟩
    exact ⟨p, hp, (beq_iff_eq.1 heq).symm⟩
  · rintro ⟨p, hp, heq⟩
    exact ⟨p, hp, beq_iff_eq.2 heq.symm⟩

/-- C11: an outbound handshake whose write and read succeed with the reply
`code ++ nonce` (`code` as long as the network magic) promotes the connection
when `code` is the local magic, `nonce` is not the local nonce and no handle of
the registry has `nonce`: the registry then holds the remote address with that
nonce, `book.Connected` has been applied and no connection is closed. In every
other case, as when a handle of the registry has `nonce`, the registry and the
counter are as before the handshake, the connection is closed, and
`book.Dropped` and `book.Blacklist` have been applied to the remote address. -/
theorem handshake_decision (node : Node) (addr : String) (code nonce : Bytes)
    (hlen : code.length = node.network.length) :
    (code = node.network ∧ nonce ≠ node.nonce ∧ (∀ p ∈ node.peers, p.nonce ≠ nonce) →
        (∃ queue, registry.get (node.handshake addr true (some (code ++ nonce))).peers addr
            = some { addr := addr, nonce := nonce, outgoing := queue })
          ∧ (node.handshake addr true (some (code ++ nonce))).book = node.book.Connected addr
          ∧ (node.handshake addr true (some (code ++ nonce))).count = node.count + 1
          ∧ (node.handshake addr true (some (code ++ nonce))).closedConns = node.closedConns
          ∧ (node.handshake addr true (some (code ++ nonce))).blacklist = node.blacklist)
      ∧ (¬ (code = node.network ∧ nonce ≠ node.nonce ∧ (∀ p ∈ node.peers, p.nonce ≠ nonce)) →
        (node.handshake addr true (some (code ++ nonce))).peers = node.peers
          ∧ (node.handshake addr true (some (code ++ nonce))).count = node.count
          ∧ (node.handshake addr true (some (code ++ nonce))).closedConns
            = addr :: node.closedConns
          ∧ (node.handshake addr true (some (code ++ nonce))).book = node.book.Dropped addr
          ∧ (node.handshake addr true (some (code ++ nonce))).blacklist
            = addr :: node.blacklist) := by
  have htake : (code ++ nonce).take node.network.length = code := by
    rw [← hlen]; simp
  have hdrop : (code ++ nonce).drop node.network.length = nonce := by
    rw [← hlen]; simp
  have hknown : Node.known { node with count := node.count + 1 } nonce = node.known nonce := rfl
  have hreg : node.known nonce = false ↔ ∀ p ∈ node.peers, p.nonce ≠ nonce := by
    rw [← Bool.not_eq_true, known_iff]
    constructor
    · intro h p hp heq
      exact h ⟨p, hp, heq⟩
    · rintro h ⟨p, hp, heq⟩
      exact h p hp heq
  constructor
  · rintro ⟨hcode, hnonce, hfree⟩
    have hk : node.known nonce = false := hreg.2 hfree
    have hrun : node.handshake addr true (some (code ++ nonce))
        = Node.init { node with count := node.count + 1 } addr nonce := by
      simp only [Node.handshake, htake, hdrop, hknown]
      simp [hcode, hnonce, hk]
    rw [hrun]
    exact init_spec { node with count := node.count + 1 } addr nonce
  · intro hcond
    have hrun : node.handshake addr true (some (code ++ nonce))
        = Node.drop { node with count := node.count + 1 } addr := by
      simp only [Node.handshake, htake, hdrop, hknown]
      have : code ≠ node.network ∨ nonce = node.nonce ∨ node.known nonce = true := by
        by_cases h1 : code = node.network
        · by_cases h2 : nonce = node.nonce
          · exact Or.inr (Or.inl h2)
          · right; right
            cases hk : node.known nonce with
            | true => rfl
            | false => exact absurd ⟨h1, h2, hreg.1 hk⟩ hcond
        · exact Or.inl h1
      simp [this]
    rw [hrun]
    refine ⟨rfl, ?_, rfl, rfl, rfl⟩
    simp [Node.drop, Node.Blacklist]

/-- C11, witness: on the node whose registry holds `a:1` with the nonce
`02 02`, the reply `AA 03 03` promotes the connection to `b:1`; the reply
`AA 02 02`, the nonce of the registered peer, the reply `BB 03 03` with a
foreign magic and the reply `AA 01 01` with the local nonce each get the
connection to `c:1` dropped and blacklisted, the registry staying as it was;
on a fresh server node the reply `AA 02 02` promotes the connection to `a:1`. -/
theorem handshake_decision_witness :
    (registry.get (nodeOnePeer.handshake "b:1" true (some [0xAA, 3, 3])).peers "b:1"
        = some { addr := "b:1", nonce := [3, 3], outgoing := [] }
      ∧ (nodeOnePeer.handshake "b:1" true (some [0xAA, 3, 3])).count = nodeOnePeer.count + 1
      ∧ (nodeOnePeer.handshake "b:1" true (some [0xAA, 3, 3])).closedConns = [])
    ∧ ((nodeOnePeer.handshake "c:1" true (some [0xAA, 2, 2])).peers = nodeOnePeer.peers
      ∧ (nodeOnePeer.handshake "c:1" true (some [0xAA, 2, 2])).count = nodeOnePeer.count
      ∧ (nodeOnePeer.handshake "c:1" true (some [0xAA, 2, 2])).closedConns = ["c:1"]
      ∧ (nodeOnePeer.handshake "c:1" true (some [0xAA, 2, 2])).blacklist = ["c:1", "me:1"])
    ∧ (nodeOnePeer.handshake "c:1" true (some [0xBB, 3, 3])).peers = nodeOnePeer.peers
    ∧ (nodeOnePeer.handshake "c:1" true (some [0xAA, 1, 1])).peers = nodeOnePeer.peers
    ∧ (nodeServer.handshake "a:1" true (some [0xAA, 2, 2])).book
      = nodeServer.book.Connected "a:1" :=
  ⟨⟨by decide,
      ((handshake_decision nodeOnePeer "b:1" [0xAA] [3, 3] rfl).1
        ⟨rfl, by decide, by decide⟩).2.2.1,
      ((handshake_decision nodeOnePeer "b:1" [0xAA] [3, 3] rfl).1
        ⟨rfl, by decide, by decide⟩).2.2.2.1⟩,
    ⟨((handshake_decision nodeOnePeer "c:1" [0xAA] [2, 2] rfl).2 (by decide)).1,
      ((handshake_decision nodeOnePeer "c:1" [0xAA] [2, 2] rfl).2 (by decide)).2.1,
      ((handshake_decision nodeOnePeer "c:1" [0xAA] [2, 2] rfl).2 (by decide)).2.2.1,
      ((handshake_decision nodeOnePeer "c:1" [0xAA] [2, 2] rfl).2 (by decide)).2.2.2.2⟩,
    ((handshake_decision nodeOnePeer "c:1" [0xBB] [3, 3] rfl).2 (by decide)).1,
    ((handshake_decision nodeOnePeer "c:1" [0xAA] [1, 1] rfl).2 (by decide)).1,
    ((handshake_decision nodeServer "a:1" [0xAA] [2, 2] rfl).1 ⟨rfl, by decide, by decide⟩).2.1⟩

/-- C12, the code at a failing input: with two peers registered and
`maxPeers = 1` the callback `acceptConnection` returns `true` for a nonce that
no peer has, and on the fresh node with an empty registry it returns `false`;
on every node it returns `true` exactly when the registry holds more than
`maxPeers` peers and none of them has the nonce. -/
theorem acceptConnection_above_capacity :
    registry.count nodeTwoPeers.peers = 2 ∧ nodeTwoPeers.maxPeers = 1
      ∧ nodeTwoPeers.known [4, 4] = false
      ∧ nodeTwoPeers.acceptConnection [4, 4] = true
      ∧ nodeClient.acceptConnection [4, 4] = false
      ∧ (∀ (node : Node) (nonce : Bytes), node.acceptConnection nonce = true ↔
          (node.maxPeers < registry.count node.peers ∧ node.known nonce = false)) := by
  refine ⟨by decide, by decide, by decide, by decide, by decide, fun node nonce => ?_⟩
  simp [Node.acceptConnection]

/-! ## Theorems: `Send` and `disconnect` -/

/-- C13: `Send` to an address that is no key of the registry returns an error
and leaves the node as it was: registry, queues, counter, book and subscriber
channel. -/
theorem Send_unknown (node : Node) (addr : String) (msg : Dynamic)
    (h : registry.has node.peers addr = false) :
    node.Send addr msg = (some NodeError.peerNotFound, node) := by
  simp [Node.Send, h]

/-- C13, witness: on the node with the peers `a:1` and `b:1` a `Send` to `c:1`
fails and changes nothing. -/
theorem Send_unknown_witness :
    nodeTwoPeers.Send "c:1" (Dynamic.ping { Nonce := 5 })
      = (some NodeError.peerNotFound, nodeTwoPeers) :=
  Send_unknown nodeTwoPeers "c:1" (Dynamic.ping { Nonce := 5 }) (by decide)

/-- C14, as stated, fails: on the node where `b:1` connected inbound and has 16
messages pending, the book has no entry for `b:1`; `Send` to `b:1` returns an
error and removes `b:1` from the registry, and the book is as before: no
failure is counted for `b:1`. -/
theorem Send_stall_unknown_to_book :
    (registry.get nodeInboundFull.peers "b:1").map (fun p => p.outgoing.length) = some 16
      ∧ nodeInboundFull.book.lookup "b:1" = none
      ∧ (nodeInboundFull.Send "b:1" (Dynamic.ping { Nonce := 5 })).1
        = some NodeError.peerStalling
      ∧ registry.has (nodeInboundFull.Send "b:1" (Dynamic.ping { Nonce := 5 })).2.peers "b:1"
        = false
      ∧ (nodeInboundFull.Send "b:1" (Dynamic.ping { Nonce := 5 })).2.book = nodeInboundFull.book
      ∧ (nodeInboundFull.Send "b:1" (Dynamic.ping { Nonce := 5 })).2.book.lookup "b:1" = none := by
  decide

/-- C14, amended: for a registered address whose handle is `p`, a `Send` while
the queue of `p` holds fewer than 16 messages returns `nil`, puts the message
at the tail of the queue (a second message behind the first) and changes
nothing else; a `Send` while the queue is full returns an error, removes the
address from the registry, closes the handle with its queue as it was, offers
a `Disconnected` event to the subscriber and applies `Failed` and `Dropped` to
the book, which raises the failure count of the address by two when the book
has an entry for it and leaves the book as it was when it has none. -/
theorem Send_registered (node : Node) (addr : String) (msg : Dynamic) (p : peer)
    (hp : registry.get node.peers addr = some p) :
    (p.outgoing.length < outgoingCap →
        node.Send addr msg = (none, { node with peers := registry.enqueue node.peers addr msg })
          ∧ registry.get (node.Send addr msg).2.peers addr
            = some { p with outgoing := p.outgoing ++ [msg] }
          ∧ (∀ a : String, a ≠ addr →
            registry.get (node.Send addr msg).2.peers a = registry.get node.peers a)
          ∧ (p.outgoing.length + 1 < outgoingCap → ∀ m2 : Dynamic,
            ((node.Send addr msg).2.Send addr m2).1 = none
              ∧ registry.get ((node.Send addr msg).2.Send addr m2).2.peers addr
                = some { p with outgoing := p.outgoing ++ [msg, m2] }))
      ∧ (outgoingCap ≤ p.outgoing.length →
        (node.Send addr msg).1 = some NodeError.peerStalling
          ∧ registry.has (node.Send addr msg).2.peers addr = false
          ∧ (node.Send addr msg).2.closedPeers = p :: node.closedPeers
          ∧ (node.Send addr msg).2.subscriber
            = (if node.subscriber.length < node.subscriberCap then
                node.subscriber ++ [Event.Disconnected addr]
              else node.subscriber)
          ∧ (node.Send addr msg).2.count = node.count - 1
          ∧ (node.Send addr msg).2.book = (node.book.Failed addr).Dropped addr
          ∧ (∀ e : entry, node.book.lookup addr = some e →
            (node.Send addr msg).2.book.lookup addr
              = some { e with active := false, failure := e.failure + 2 })
          ∧ (node.book.lookup addr = none → (node.Send addr msg).2.book = node.book)) := by
  have haddr := get_addr _ _ _ hp
  constructor
  · intro hroom
    have hsend := Send_room node addr msg p hp hroom
    have hget1 : registry.get (registry.enqueue node.peers addr msg) addr
        = some { p with outgoing := p.outgoing ++ [msg] } := by
      rw [get_enqueue_same, hp]; rfl
    rw [hsend]
    refine ⟨rfl, hget1, fun a ha => get_enqueue_other _ _ _ ha _, fun hroom2 m2 => ?_⟩
    have hsend2 := Send_room { node with peers := registry.enqueue node.peers addr msg } addr m2
      { p with outgoing := p.outgoing ++ [msg] } hget1 (by simp; omega)
    rw [hsend2]
    refine ⟨rfl, ?_⟩
    simp only
    rw [get_enqueue_same, hget1]
    simp
  · intro hfull
    have hsend : node.Send addr msg
        = (some NodeError.peerStalling,
            Node.disconnect { node with book := node.book.Failed addr } p) := by
      unfold Node.Send
      simp [has_of_get _ _ _ hp, hp, Nat.not_lt.2 hfull]
    obtain ⟨h1, h2, h3, h4, h5, -, -⟩ :=
      disconnect_spec { node with book := node.book.Failed addr } p
    rw [hsend]
    simp only
    rw [h1, h2, h3, h4, h5, haddr]
    refine ⟨trivial, has_remove _ _, rfl, rfl, rfl, rfl, fun e he => ?_, fun he => ?_⟩
    · exact lookup_Failed_Dropped node.book addr e he
    · exact Failed_Dropped_unknown node.book addr he

/-- C14, witness: a `Send` to `a:1` on the node with the peers `a:1` and `b:1`
queues the message; on the node where the queue of `a:1`, known to the book,
is full, a `Send` removes `a:1` and the book counts two failures for it. -/
theorem Send_registered_witness :
    registry.get (nodeTwoPeers.Send "a:1" (Dynamic.ping { Nonce := 5 })).2.peers "a:1"
        = some { addr := "a:1", nonce := [2, 2], outgoing := [Dynamic.ping { Nonce := 5 }] }
      ∧ registry.has (nodeOutboundFull.Send "a:1" (Dynamic.ping { Nonce := 5 })).2.peers "a:1"
        = false
      ∧ (nodeOutboundFull.Send "a:1" (Dynamic.ping { Nonce := 5 })).2.book.lookup "a:1"
        = some { addr := "a:1", active := false, success := 1, failure := 2 } :=
  ⟨((Send_registered nodeTwoPeers "a:1" (Dynamic.ping { Nonce := 5 })
        { addr := "a:1", nonce := [2, 2], outgoing := [] } (by decide)).1 (by decide)).2.1,
    ((Send_registered nodeOutboundFull "a:1" (Dynamic.ping { Nonce := 5 })
        { addr := "a:1", nonce := [2, 2],
          outgoing := List.replicate 16 (Dynamic.pong { Nonce := 0 }) } (by decide)).2
        (by decide)).2.1,
    ((Send_registered nodeOutboundFull "a:1" (Dynamic.ping { Nonce := 5 })
        { addr := "a:1", nonce := [2, 2],
          outgoing := List.replicate 16 (Dynamic.pong { Nonce := 0 }) } (by decide)).2
        (by decide)).2.2.2.2.2.2.1
      { addr := "a:1", active := false, success := 1, failure := 0 } (by decide)⟩

/-- C15, as stated, fails: on the node whose subscriber channel (capacity 1)
holds the event `Connected` of `a:1`, `disconnect` of the registered peer
`a:1` removes it from `Peers()` and the subscriber receives no `Disconnected`
event. -/
theorem disconnect_event_lost :
    nodeSubscriberFull.Peers = ["a:1"]
      ∧ nodeSubscriberFull.subscriber = [Event.Connected "a:1"]
      ∧ (nodeSubscriberFull.disconnect { addr := "a:1", nonce := [2, 2], outgoing := [] }).Peers
        = []
      ∧ (nodeSubscriberFull.disconnect { addr := "a:1", nonce := [2, 2], outgoing := [] }).subscriber
        = [Event.Connected "a:1"] := by
  decide

/-- C15, amended: for every node state and every registered peer `p`, after
`disconnect(p)` the address of `p`, which was in `Peers()`, is absent from it
while every other address is in `Peers()` exactly when it was before, the
counter is one less, `Dropped` has been applied to the book, and one
`Disconnected` event for the address has been offered to the subscriber: it is
the last event of the channel when the channel had room, and the channel is as
it was when it was full. -/
theorem disconnect_cleanup (node : Node) (p : peer)
    (hp : registry.get node.peers p.addr = some p) :
    p.addr ∈ node.Peers
      ∧ p.addr ∉ (node.disconnect p).Peers
      ∧ (∀ a : String, a ≠ p.addr → (a ∈ (node.disconnect p).Peers ↔ a ∈ node.Peers))
      ∧ (node.disconnect p).count = node.count - 1
      ∧ (node.disconnect p).book = node.book.Dropped p.addr
      ∧ (node.subscriber.length < node.subscriberCap →
        (node.disconnect p).subscriber = node.subscriber ++ [Event.Disconnected p.addr])
      ∧ (node.subscriberCap ≤ node.subscriber.length →
        (node.disconnect p).subscriber = node.subscriber) := by
  obtain ⟨h1, -, h3, h4, h5, -, -⟩ := disconnect_spec node p
  have hmem : ∀ a : String, a ∈ (node.disconnect p).Peers ↔ a ∈ node.Peers ∧ a ≠ p.addr := by
    intro a
    unfold Node.Peers registry.slice
    rw [h1]
    unfold registry.remove
    simp only [List.mem_map, List.mem_filter]
    constructor
    · rintro ⟨q, ⟨hq, hne⟩, rfl⟩
      exact ⟨⟨q, hq, rfl⟩, by simpa using hne⟩
    · rintro ⟨⟨q, hq, rfl⟩, hne⟩
      exact ⟨q, ⟨hq, by simpa using hne⟩, rfl⟩
  refine ⟨?_, fun h => ((hmem _).1 h).2 rfl, fun a ha => ?_, h4, h3, fun hroom => ?_,
    fun hfull => ?_⟩
  · unfold Node.Peers registry.slice
    unfold registry.get at hp
    exact List.mem_map.2 ⟨p, List.mem_of_find?_eq_some hp, rfl⟩
  · rw [hmem]
    exact ⟨fun h => h.1, fun h => ⟨h, ha⟩⟩
  · rw [h5, if_pos hroom]
  · rw [h5, if_neg (Nat.not_lt.2 hfull)]

/-- C15, witness: on the node with the peers `a:1` and `b:1`, whose subscriber
channel has room, `disconnect` of `a:1` leaves `a:1` out of `Peers()` and
appends its `Disconnected` event. -/
theorem disconnect_cleanup_witness :
    "a:1" ∉ (nodeTwoPeers.disconnect { addr := "a:1", nonce := [2, 2], outgoing := [] }).Peers
      ∧ (nodeTwoPeers.disconnect { addr := "a:1", nonce := [2, 2], outgoing := [] }).subscriber
        = nodeTwoPeers.subscriber ++ [Event.Disconnected "a:1"] :=
  ⟨(disconnect_cleanup nodeTwoPeers { addr := "a:1", nonce := [2, 2], outgoing := [] }
      (by decide)).2.1,
    (disconnect_cleanup nodeTwoPeers { addr := "a:1", nonce := [2, 2], outgoing := [] }
      (by decide)).2.2.2.2.2.1 (by decide)⟩

/-! ## Theorems: the counter, the manage loop and the balance loop -/

/-- C16, evaluated: from the initial node, two successful outbound handshakes
give counter 2 and two peers; 17 calls of `Send` to `a:1` end with the
disconnect of `a:1`, counter 1 and one peer; the manage loop, which still
holds the snapshot with `a:1`, then finds the incoming channel of `a:1` closed
and disconnects the same handle again: the counter is 0, below the registry
size 1. With one peer the same two disconnects leave the counter at -1, which
`check` reads as 2^64 - 1. -/
theorem counter_below_registry :
    nodeTwoPeers.count = 2 ∧ registry.count nodeTwoPeers.peers = 2
      ∧ nodeStalled.count = 1 ∧ registry.count nodeStalled.peers = 1
      ∧ (Node.manageSelected nodeStalled (Node.manageCases nodeTwoPeers.peers).1 0
          (Dynamic.other "closed") false 0 (Except.ok [])).map
          (fun n => (n.count, registry.count n.peers)) = Except.ok (0, 1)
      ∧ (nodeOnePeer.count, registry.count nodeOnePeer.peers) = (1, 1)
      ∧ (nodeOnePeer.remove 0).map (fun n => (n.count, registry.count n.peers))
        = Except.ok (0, 0)
      ∧ ((nodeOnePeer.remove 0).bind (fun n =>
          Node.manageSelected n (Node.manageCases nodeOnePeer.peers).1 0
            (Dynamic.other "closed") false 0 (Except.ok []))).map
          (fun n => (n.count, registry.count n.peers, toUint n.count))
        = Except.ok (-1, 0, 2 ^ 64 - 1) := by
  decide

/-- C17, evaluated: when the select of the manage loop returns at case 0 the
value `Ping` with nonce 7 received from the only peer `a:1`, the message
handed on carries the case index 0 as its value: it goes to the subscriber as
`Message` of `a:1` with value 0 and no `Pong` is queued for `a:1`, whereas
`process` on the received value queues a `Pong` with nonce 7. -/
theorem dispatch_passes_case_index :
    (Node.manageSelected nodeOnePeer (Node.manageCases nodeOnePeer.peers).1 0
        (Dynamic.ping { Nonce := 7 }) true 0 (Except.ok [])).map
        (fun n => (n.subscriber, registry.get n.peers "a:1"))
      = Except.ok ([Event.Connected "a:1", Event.Message "a:1" (Dynamic.int 0)],
          some { addr := "a:1", nonce := [2, 2], outgoing := [] })
      ∧ registry.get (nodeOnePeer.process "a:1" (Dynamic.ping { Nonce := 7 }) (Except.ok [])).peers
          "a:1"
        = some { addr := "a:1", nonce := [2, 2], outgoing := [Dynamic.pong { Nonce := 7 }] }
      ∧ (Node.manageSelected nodeOnePeer (Node.manageCases nodeOnePeer.peers).1 0
          (Dynamic.other "string") true 0 (Except.ok [])).map (fun n => n.subscriber)
        = Except.ok [Event.Connected "a:1", Event.Message "a:1" (Dynamic.int 0)] := by
  decide

/-- C18, evaluated: on the node with at most 1 peer, two handshakes in flight
(counter 2) and an empty registry, one round of `check` calls `remove`, whose
`rand.Int() % node.peers.count()` divides by zero, whatever the random number;
so does `remove` on every node with an empty registry. On a node with a
non-empty registry `remove` disconnects one registered peer. -/
theorem remove_divides_by_zero :
    nodeTwoAttempts.count = 2 ∧ nodeTwoAttempts.maxPeers = 1
      ∧ registry.count nodeTwoAttempts.peers = 0
      ∧ (∀ (sample : Except BookError (List String)) (tick : Bool) (rnd : Nat),
        nodeTwoAttempts.check sample tick rnd = Except.error Panic.divideByZero)
      ∧ (∀ (node : Node) (rnd : Nat), registry.count node.peers = 0 →
        node.remove rnd = Except.error Panic.divideByZero)
      ∧ (∀ (node : Node) (rnd : Nat), registry.count node.peers ≠ 0 →
        ∃ p, p ∈ registry.slice node.peers ∧ node.remove rnd = Except.ok (node.disconnect p)) := by
  refine ⟨by decide, by decide, by decide, fun sample tick rnd => ?_, fun node rnd h => ?_,
    fun node rnd h => ?_⟩
  · have h1 : toUint nodeTwoAttempts.count = 2 := by decide
    have h2 : nodeTwoAttempts.minPeers = 1 := by decide
    have h3 : nodeTwoAttempts.maxPeers = 1 := by decide
    have h4 : registry.count nodeTwoAttempts.peers = 0 := by decide
    unfold Node.check
    simp only [h1, h2, h3]
    unfold Node.remove
    simp [h4]
  · unfold Node.remove
    simp [h]
  · unfold Node.remove
    rw [if_neg h]
    have hlt : rnd % registry.count node.peers < (registry.slice node.peers).length :=
      Nat.mod_lt _ (Nat.pos_of_ne_zero h)
    obtain ⟨p, hp⟩ : ∃ p, (registry.slice node.peers).get? (rnd % registry.count node.peers)
        = some p := ⟨_, List.get?_eq_get hlt⟩
    rw [hp]
    exact ⟨p, List.get?_mem hp, rfl⟩

/-- The first loop of `manageCases` appends the ranged peers to both slices. -/
theorem manage_first_loop (snapshot : List peer) (acc : List peer × List SelectCase) :
    snapshot.foldl
        (fun (acc : List peer × List SelectCase) p =>
          (acc.1 ++ [p], acc.2 ++ [SelectCase.incoming p])) acc
      = (acc.1 ++ snapshot, acc.2 ++ snapshot.map SelectCase.incoming) := by
  induction snapshot generalizing acc with
  | nil => simp
  | cons p ps ih => rw [List.foldl_cons, ih]; simp

/-- The second loop of `manageCases` appends one heartbeat case for each ranged
peer. -/
theorem manage_second_loop (peers : List peer) (cases : List SelectCase) :
    peers.foldl (fun cases p => cases ++ [SelectCase.heartbeat p]) cases
      = cases ++ peers.map SelectCase.heartbeat := by
  induction peers generalizing cases with
  | nil => simp
  | cons p ps ih => rw [List.foldl_cons, ih]; simp

/-- The two slices that `manageCases` builds. -/
theorem manageCases_eq (snapshot : List peer) :
    Node.manageCases snapshot
      = (snapshot ++ snapshot,
          snapshot.map SelectCase.incoming ++ (snapshot ++ snapshot).map SelectCase.heartbeat) := by
  unfold Node.manageCases
  simp only [manage_first_loop, manage_second_loop, List.nil_append]

/-- Reading the doubled slice at `j` is reading the slice at `j` modulo its
length. -/
theorem get_doubled (snapshot : List peer) (j : Nat) (hj : j < 2 * snapshot.length) :
    (snapshot ++ snapshot).get? j = snapshot.get? (j % snapshot.length) := by
  simp only [List.get?_eq_getElem?]
  by_cases h : j < snapshot.length
  · rw [List.getElem?_append_left h, Nat.mod_eq_of_lt h]
  · have h1 : snapshot.length ≤ j := Nat.le_of_not_lt h
    rw [List.getElem?_append_right h1, Nat.mod_eq_sub_mod h1, Nat.mod_eq_of_lt (by omega)]

/-- C19: for a registry snapshot of N >= 1 peers, the two case-building loops
of `manage` leave `peers` with length 2N and `cases` with length 3N; for every
index i < N, `peers[i]` is the i-th peer of the snapshot and case i is its
incoming channel; for every index i with N <= i < 3N, `i % len(peers)` is
within bounds and case i is the heartbeat timer of `peers[i % len(peers)]`. -/
theorem manage_index_mapping (snapshot : List peer) (hN : 1 ≤ snapshot.length) :
    (Node.manageCases snapshot).1.length = 2 * snapshot.length
      ∧ (Node.manageCases snapshot).2.length = 3 * snapshot.length
      ∧ (∀ i : Nat, i < snapshot.length →
        ∃ p, snapshot.get? i = some p
          ∧ (Node.manageCases snapshot).1.get? i = some p
          ∧ (Node.manageCases snapshot).2.get? i = some (SelectCase.incoming p))
      ∧ (∀ i : Nat, snapshot.length ≤ i → i < 3 * snapshot.length →
        i % (Node.manageCases snapshot).1.length < (Node.manageCases snapshot).1.length
          ∧ ∃ p, (Node.manageCases snapshot).1.get? (i % (Node.manageCases snapshot).1.length)
              = some p
            ∧ (Node.manageCases snapshot).2.get? i = some (SelectCase.heartbeat p)) := by
  rw [manageCases_eq]
  simp only
  have hlen : (snapshot ++ snapshot).length = 2 * snapshot.length := by
    rw [List.length_append]; omega
  refine ⟨hlen, ?_, fun i hi => ?_, fun i hlo hhi => ?_⟩
  · rw [List.length_append, List.length_map, List.length_map, hlen]; omega
  · refine ⟨snapshot.get ⟨i, hi⟩, List.get?_eq_get hi, ?_, ?_⟩
    · rw [get_doubled snapshot i (by omega), Nat.mod_eq_of_lt hi]
      exact List.get?_eq_get hi
    · simp only [List.get?_eq_getElem?]
      rw [List.getElem?_append_left (by rw [List.length_map]; exact hi), List.getElem?_map]
      simp [List.getElem?_eq_getElem hi]
  · rw [hlen]
    have hpos : 0 < 2 * snapshot.length := by omega
    have hmod : i % (2 * snapshot.length) < 2 * snapshot.length := Nat.mod_lt _ hpos
    have hidx : (i - snapshot.length) % snapshot.length
        = i % (2 * snapshot.length) % snapshot.length := by
      rw [← Nat.mod_eq_sub_mod hlo, Nat.mod_mul_left_mod]
    have hlt : i % (2 * snapshot.length) % snapshot.length < snapshot.length :=
      Nat.mod_lt _ (by omega)
    refine ⟨hmod, snapshot.get ⟨_, hlt⟩, ?_, ?_⟩
    · rw [get_doubled snapshot _ hmod]
      exact List.get?_eq_get hlt
    · have hcase : (snapshot.map SelectCase.incoming
            ++ (snapshot ++ snapshot).map SelectCase.heartbeat).get? i
          = ((snapshot ++ snapshot).get? (i - snapshot.length)).map SelectCase.heartbeat := by
        simp only [List.get?_eq_getElem?]
        rw [List.getElem?_append_right (by rw [List.length_map]; exact hlo), List.length_map,
          List.getElem?_map]
      rw [hcase, get_doubled snapshot _ (by omega), hidx, List.get?_eq_get hlt]
      rfl

/-- C19, witness: with the two peers `a:1` and `b:1` in the snapshot, `peers`
has 4 elements and `cases` 6, and case 5 is the heartbeat timer of
`peers[5 % 4]`, the peer `b:1`. -/
theorem manage_index_mapping_witness :
    (Node.manageCases nodeTwoPeers.peers).1.length = 2 * nodeTwoPeers.peers.length
      ∧ (Node.manageCases nodeTwoPeers.peers).2.length = 3 * nodeTwoPeers.peers.length
      ∧ (Node.manageCases nodeTwoPeers.peers).1.get? (5 % 4)
        = some { addr := "b:1", nonce := [3, 3], outgoing := [] }
      ∧ (Node.manageCases nodeTwoPeers.peers).2.get? 5
        = some (SelectCase.heartbeat { addr := "b:1", nonce := [3, 3], outgoing := [] }) :=
  ⟨(manage_index_mapping nodeTwoPeers.peers (by decide)).1,
    (manage_index_mapping nodeTwoPeers.peers (by decide)).2.1, by decide, by decide⟩

/-! ## Theorems: Sample on a book made by NewSimpleBook -/

/-- A record that is not active and has no failure has score 1. -/
theorem score_fresh (e : entry) (h : e.active = false ∧ e.failure = 0) : e.score = 1 := by
  simp [entry.score, h.1, h.2]

/-- The write `storeFresh` keeps a map of records that are not active and have no
failure such a map. -/
theorem storeFresh_fresh (addr : String) (es : List entry)
    (h : ∀ e ∈ es, e.active = false ∧ e.failure = 0) :
    ∀ e ∈ storeFresh addr es, e.active = false ∧ e.failure = 0 := by
  induction es with
  | nil =>
    intro e he
    simp only [storeFresh, List.mem_singleton] at he
    subst he
    exact ⟨rfl, rfl⟩
  | cons x xs ih =>
    intro e he
    unfold storeFresh at he
    split_ifs at he with hx
    · rcases List.mem_cons.1 he with he | he
      · subst he
        exact ⟨rfl, rfl⟩
      · exact h e (List.mem_cons_of_mem _ he)
    · rcases List.mem_cons.1 he with he | he
      · subst he
        exact h _ (List.mem_cons_self _ _)
      · exact ih (fun e he => h e (List.mem_cons_of_mem _ he)) e he

/-- The write `storeFresh` leaves a map with at least one record. -/
theorem storeFresh_ne_nil (addr : String) (es : List entry) : storeFresh addr es ≠ [] := by
  cases es with
  | nil => simp [storeFresh]
  | cons x xs =>
    unfold storeFresh
    split_ifs <;> simp

/-- The loop of `NewSimpleBook` keeps the two properties above. -/
theorem foldl_storeFresh (addrs : List String) (es : List entry)
    (h : ∀ e ∈ es, e.active = false ∧ e.failure = 0) :
    (∀ e ∈ addrs.foldl (fun es addr => storeFresh addr es) es, e.active = false ∧ e.failure = 0)
      ∧ ((addrs ≠ [] ∨ es ≠ []) → addrs.foldl (fun es addr => storeFresh addr es) es ≠ []) := by
  induction addrs generalizing es with
  | nil => exact ⟨h, fun hne => by simpa using hne⟩
  | cons a as ih =>
    rw [List.foldl_cons]
    have := ih (storeFresh a es) (storeFresh_fresh a es h)
    exact ⟨this.1, fun _ => this.2 (Or.inr (storeFresh_ne_nil a es))⟩

/-- The first loop of `Sample` changes nothing when no record has score 0. -/
theorem filterLoop_no_active (arr : List entry) (len : Nat)
    (h : ∀ e ∈ arr, e.score ≠ 0) (todo i : Nat) :
    filterLoop todo i arr len = some (arr, len) := by
  induction todo generalizing i with
  | zero => rfl
  | succ todo ih =>
    unfold filterLoop
    cases hget : arr.get? i with
    | none => rfl
    | some e =>
      simp only
      rw [if_neg (h e (List.get?_mem hget))]
      exact ih (i + 1)

/-- With sample size 0, records that all have score 1 and draws of
`rand.Float64()` below 1, the selection loop of `Sample` does not end. -/
theorem selectLoop_never_ends (entries : List entry) (hne : entries ≠ [])
    (h : ∀ e ∈ entries, e.score = 1) (draws : List (Nat × ℚ)) (hd : ∀ d ∈ draws, d.2 < 1)
    (selected : List String) :
    selectLoop entries 0 selected draws = Outcome.looping := by
  induction draws generalizing selected with
  | nil => rfl
  | cons d draws ih =>
    obtain ⟨n, x⟩ := d
    have hx : x < 1 := hd (n, x) (List.mem_cons_self _ _)
    have hlen : entries.length ≠ 0 := fun h0 => hne (List.length_eq_zero.1 h0)
    have hlt : n % entries.length < entries.length := Nat.mod_lt _ (Nat.pos_of_ne_zero hlen)
    unfold selectLoop
    rw [if_neg hlen, List.get?_eq_get hlt]
    simp only
    have hs : (entries.get ⟨n % entries.length, hlt⟩).score > x := by
      rw [h _ (List.get_mem _ _ _)]
      exact hx
    rw [if_pos hs]
    have hins : (insertKey (entries.get ⟨n % entries.length, hlt⟩).addr selected).length ≠ 0 := by
      unfold insertKey
      split_ifs with hmem
      · intro h0
        rw [List.length_eq_zero.1 h0] at hmem
        simp at hmem
      · simp
    rw [if_neg hins]
    exact ih (fun d hd' => hd d (List.mem_cons_of_mem _ hd')) _

/-- C20, evaluated: on the book that `NewSimpleBook` makes of the address `a`,
`Sample` is still in its selection loop after the draw (0, 0) and after three
draws; and on the book that `NewSimpleBook` makes of any non-empty list of
addresses, `Sample` is still in its selection loop after any sequence of
draws in which every `rand.Float64()` is below 1, whichever record a loop
over the map visits first: it returns for no sequence of draws. -/
theorem Sample_of_NewSimpleBook_never_returns :
    (NewSimpleBook ["a"]).sampleSize = 0
      ∧ (NewSimpleBook ["a"]).Sample 0 [(0, 0)] = Outcome.looping
      ∧ (NewSimpleBook ["a"]).Sample 0 [(0, 0), (5, 1 / 2), (7, 0)] = Outcome.looping
      ∧ (∀ (addrs : List String) (first : Nat) (draws : List (Nat × ℚ)), addrs ≠ [] →
        (∀ d ∈ draws, d.2 < 1) → (NewSimpleBook addrs).Sample first draws = Outcome.looping) := by
  have hgen : ∀ (addrs : List String) (first : Nat) (draws : List (Nat × ℚ)), addrs ≠ [] →
      (∀ d ∈ draws, d.2 < 1) → (NewSimpleBook addrs).Sample first draws = Outcome.looping := by
    intro addrs first draws hne hd
    obtain ⟨hfresh, hnil⟩ := foldl_storeFresh addrs [] (by simp)
    have hnil := hnil (Or.inl hne)
    have hscore : ∀ e ∈ (NewSimpleBook addrs).entries, e.score = 1 :=
      fun e he => score_fresh e (hfresh e he)
    have hlen : (NewSimpleBook addrs).entries.length ≠ 0 :=
      fun h0 => hnil (List.length_eq_zero.1 h0)
    unfold SimpleBook.Sample SimpleBook.slice
    simp only
    rw [filterLoop_no_active _ _ (fun e he => by rw [hscore e he]; norm_num)]
    simp only [List.take_length]
    have hsize : (NewSimpleBook addrs).sampleSize = 0 := rfl
    rw [hsize, if_neg (by omega)]
    exact selectLoop_never_ends _ hnil hscore draws hd []
  refine ⟨rfl, ?_, ?_, hgen⟩
  · exact hgen ["a"] 0 [(0, 0)] (by simp) (by simp)
  · exact hgen ["a"] 0 [(0, 0), (5, 1 / 2), (7, 0)] (by simp) (by
      intro d hd
      simp only [List.mem_cons, List.mem_singleton, List.not_mem_nil, or_false] at hd
      rcases hd with rfl | rfl | rfl <;> norm_num)

end Alvalor
